import Mathlib

/-!
Verification of the s3-versions-to-git-history repository
(src/s3-versions-to-git.go) against its natural-language specification.

The development shallowly embeds the Go source:
  * Go slices become Lean lists, in-place swaps become the total function
    swapT, and machine integers become Nat (timestamps are Nat, with 0
    playing the role of the Go zero value of time.Time).
  * The sort performed by queryS3Versions is Go's sort.Slice.  sort.Slice
    is pdqsort (Go standard library, sort/zsortfunc.go, Go 1.19+); it is
    embedded here instruction by instruction (insertion sort, heap sort,
    pattern breaking, pivot choice, partitioning, the partial insertion
    sort optimisation and the top-level pdqsort driver).
  * Calls into AWS S3, the filesystem and go-git are modelled by explicit
    oracle records (IOEnv, MainEnv) supplying the outcome of each external
    call, and the filesystem is a map from paths to byte lists.
-/

namespace S3VG

/-- Total swap of two positions of a list; an out-of-range index leaves the
list unchanged (in the embedded algorithms all indices are in range).
Models the in-place data.Swap(i, j) of Go's sort package. -/
def swapT {α : Type} (l : List α) (i j : Nat) : List α :=
  match l[i]?, l[j]? with
  | some x, some y => (l.set i y).set j x
  | _, _ => l

/-- Comparison of two positions of a list, data.Less(i, j) in Go's sort
package; false when an index is out of range. -/
def ltIdx {α : Type} (lt : α → α → Bool) (l : List α) (i j : Nat) : Bool :=
  match l[i]?, l[j]? with
  | some x, some y => lt x y
  | _, _ => false

theorem swapT_nil {α : Type} (i j : Nat) : swapT ([] : List α) i j = [] := by
  simp [swapT]

theorem swapT_cons_succ {α : Type} (a : α) (t : List α) (m k : Nat) :
    swapT (a :: t) (m + 1) (k + 1) = a :: swapT t m k := by
  simp only [swapT, List.getElem?_cons_succ]
  cases h1 : t[m]? <;> cases h2 : t[k]? <;> simp

/-- Helper for swapT_perm: writing an element x into position k of xs and
consing the previous inhabitant y in front is a permutation of x :: xs. -/
theorem set_cons_perm {α : Type} :
    ∀ (xs : List α) (k : Nat) (x y : α), xs[k]? = some y →
      (y :: xs.set k x).Perm (x :: xs)
  | [], k, _, _, h => by simp at h
  | z :: t, 0, x, y, h => by
      simp only [List.getElem?_cons_zero, Option.some.injEq] at h
      subst h
      simpa [List.set_cons_zero] using List.Perm.swap x z t
  | z :: t, k + 1, x, y, h => by
      simp only [List.getElem?_cons_succ] at h
      have ih := set_cons_perm t k x y h
      simp only [List.set_cons_succ]
      have s1 : (y :: z :: t.set k x).Perm (z :: y :: t.set k x) :=
        List.Perm.swap z y (t.set k x)
      have s2 : (z :: y :: t.set k x).Perm (z :: x :: t) := ih.cons z
      have s3 : (z :: x :: t).Perm (x :: z :: t) := List.Perm.swap x z t
      exact (s1.trans s2).trans s3

theorem swapT_perm {α : Type} : ∀ (l : List α) (i j : Nat), (swapT l i j).Perm l
  | [], i, j => by simp [swapT]
  | a :: t, 0, 0 => by simp [swapT]
  | a :: t, 0, k + 1 => by
      simp only [swapT, List.getElem?_cons_zero, List.getElem?_cons_succ]
      cases h : t[k]? with
      | none => exact List.Perm.refl _
      | some y =>
          simp only [List.set_cons_zero, List.set_cons_succ]
          exact set_cons_perm t k a y h
  | a :: t, m + 1, 0 => by
      simp only [swapT, List.getElem?_cons_zero, List.getElem?_cons_succ]
      cases h : t[m]? with
      | none => exact List.Perm.refl _
      | some x =>
          simp only [List.set_cons_zero, List.set_cons_succ]
          exact set_cons_perm t m a x h
  | a :: t, m + 1, k + 1 => by
      rw [swapT_cons_succ]
      exact (swapT_perm t m k).cons a

/-! ### Go sort.Slice: pdqsort (sort/zsortfunc.go)

The functions below transcribe Go's generated zsortfunc.go helpers.
Loops become structural/fuel recursion; the fuel arguments are chosen so
that they can never run out on the argument ranges the algorithm uses
(each loop iteration strictly shrinks the corresponding measure). -/

/-- Inner loop of insertionSort_func: for j := i; j > a && less(j, j-1); j-- swap. -/
def insInner {α : Type} (lt : α → α → Bool) (a : Nat) : List α → Nat → List α
  | l, 0 => l
  | l, j + 1 =>
      if a ≤ j ∧ ltIdx lt l (j + 1) j then insInner lt a (swapT l (j + 1) j) j else l

/-- Outer loop of insertionSort_func: i from a+1 while i < b. -/
def insOuter {α : Type} (lt : α → α → Bool) (a b : Nat) : Nat → List α → Nat → List α
  | 0, l, _ => l
  | fuel + 1, l, i =>
      if i < b then insOuter lt a b fuel (insInner lt a l i) (i + 1) else l

/-- insertionSort_func data a b: sorts data[a:b] by straight insertion. -/
def insertionSortGo {α : Type} (lt : α → α → Bool) (l : List α) (a b : Nat) : List α :=
  insOuter lt a b b l (a + 1)

/-- siftDown_func: implements the heap property on data[lo:hi] rooted at root. -/
def siftDownGo {α : Type} (lt : α → α → Bool) (first hi : Nat) :
    Nat → List α → Nat → List α
  | 0, l, _ => l
  | fuel + 1, l, root =>
      let child := 2 * root + 1
      if child ≥ hi then l
      else
        let child := if child + 1 < hi ∧ ltIdx lt l (first + child) (first + child + 1)
          then child + 1 else child
        if ¬ ltIdx lt l (first + root) (first + child) then l
        else siftDownGo lt first hi fuel (swapT l (first + root) (first + child)) child

/-- Heap construction loop of heapSort_func: i from (hi-1)/2 down to 0;
the Nat argument is the number of remaining iterations (current i + 1). -/
def heapBuild {α : Type} (lt : α → α → Bool) (first hi : Nat) : List α → Nat → List α
  | l, 0 => l
  | l, n + 1 => heapBuild lt first hi (siftDownGo lt first hi hi l n) n

/-- Pop loop of heapSort_func: i from hi-1 down to 0, swap(first, first+i)
then siftDown(lo=0, i, first); the Nat argument is i + 1. -/
def heapPop {α : Type} (lt : α → α → Bool) (first : Nat) : List α → Nat → List α
  | l, 0 => l
  | l, n + 1 => heapPop lt first (siftDownGo lt first n n (swapT l first (first + n)) 0) n

/-- heapSort_func data a b. -/
def heapSortGo {α : Type} (lt : α → α → Bool) (l : List α) (a b : Nat) : List α :=
  heapPop lt a (heapBuild lt a (b - a) l ((b - a - 1) / 2 + 1)) (b - a)

/-- reverseRange_func data a b: reverses data[a:b]; arguments here are the
two converging cursors (i = a, j = b-1). -/
def revGo {α : Type} (l : List α) (i j : Nat) : List α :=
  if i < j then revGo (swapT l i j) (i + 1) (j - 1) else l
termination_by j - i
decreasing_by simp_wf; omega

/-- order2_func: returns the two indices in order, counting a swap. -/
def order2Go {α : Type} (lt : α → α → Bool) (l : List α) (a b swaps : Nat) :
    Nat × Nat × Nat :=
  if ltIdx lt l b a then (b, a, swaps + 1) else (a, b, swaps)

/-- median_func: a, b = order2(a, b); b, c = order2(b, c); a, b = order2(a, b);
returns (median index b, swap count). -/
def medianGo {α : Type} (lt : α → α → Bool) (l : List α) (a b c swaps : Nat) :
    Nat × Nat :=
  let o1 := order2Go lt l a b swaps
  let o2 := order2Go lt l o1.2.1 c o1.2.2
  let o3 := order2Go lt l o1.1 o2.1 o2.2.2
  (o3.2.1, o3.2.2)

/-- medianAdjacent_func: median of the three adjacent indices around a. -/
def medianAdjGo {α : Type} (lt : α → α → Bool) (l : List α) (a swaps : Nat) :
    Nat × Nat :=
  medianGo lt l (a - 1) a (a + 1) swaps

/-- Hints returned by choosePivot_func. -/
inductive Hint where
  | inc
  | dec
  | unk
deriving DecidableEq, Repr

/-- choosePivot_func data a b: median (or ninther) based pivot choice with a
sortedness hint derived from the number of swaps the medians performed. -/
def choosePivotGo {α : Type} (lt : α → α → Bool) (l : List α) (a b : Nat) :
    Nat × Hint :=
  let len := b - a
  let i := a + len / 4 * 1
  let j := a + len / 4 * 2
  let k := a + len / 4 * 3
  let js :=
    if len ≥ 8 then
      if len ≥ 50 then
        let m1 := medianAdjGo lt l i 0
        let m2 := medianAdjGo lt l j m1.2
        let m3 := medianAdjGo lt l k m2.2
        medianGo lt l m1.1 m2.1 m3.1 m3.2
      else medianGo lt l i j k 0
    else (j, 0)
  if js.2 = 0 then (js.1, Hint.inc)
  else if js.2 = 12 then (js.1, Hint.dec)
  else (js.1, Hint.unk)

/-- Scan of partialInsertionSort_func: advance i while data[i] is not less
than data[i-1] (i < b); returns the first out-of-order position (or b). -/
def scanUp {α : Type} (lt : α → α → Bool) (b : Nat) : Nat → List α → Nat → Nat
  | 0, _, i => i
  | fuel + 1, l, i =>
      if i < b ∧ ¬ ltIdx lt l i (i - 1) then scanUp lt b fuel l (i + 1) else i

/-- Left shift loop of partialInsertionSort_func: for j := i-1; j >= 1; j--,
stop when data[j] is not less than data[j-1], else swap. -/
def bubbleLeft {α : Type} (lt : α → α → Bool) : List α → Nat → List α
  | l, 0 => l
  | l, j + 1 =>
      if ltIdx lt l (j + 1) j then bubbleLeft lt (swapT l (j + 1) j) j else l

/-- Right shift loop of partialInsertionSort_func: for j := i+1; j < b; j++,
stop when data[j] is not less than data[j-1], else swap. -/
def bubbleRight {α : Type} (lt : α → α → Bool) (b : Nat) : Nat → List α → Nat → List α
  | 0, l, _ => l
  | fuel + 1, l, j =>
      if j < b ∧ ltIdx lt l j (j - 1) then bubbleRight lt b fuel (swapT l j (j - 1)) (j + 1)
      else l

/-- Step loop of partialInsertionSort_func (maxSteps = 5, shortestShifting = 50). -/
def partialInsGo {α : Type} (lt : α → α → Bool) (a b : Nat) :
    Nat → List α → Nat → List α × Bool
  | 0, l, _ => (l, false)
  | steps + 1, l, i =>
      let i := scanUp lt b b l i
      if i = b then (l, true)
      else if b - a < 50 then (l, false)
      else
        let l := swapT l i (i - 1)
        let l := if i - a ≥ 2 then bubbleLeft lt l (i - 1) else l
        let l := if b - i ≥ 2 then bubbleRight lt b b l (i + 1) else l
        partialInsGo lt a b steps l i

/-- partialInsertionSort_func data a b: partially sorts, returning true when
data[a:b] ended up fully sorted. -/
def partialInsertionSortGo {α : Type} (lt : α → α → Bool) (l : List α) (a b : Nat) :
    List α × Bool :=
  partialInsGo lt a b 5 l (a + 1)

/-- i-cursor scan of partition_func: while i <= j && data.Less(i, a): i++. -/
def scanI {α : Type} (lt : α → α → Bool) (a j : Nat) : Nat → List α → Nat → Nat
  | 0, _, i => i
  | fuel + 1, l, i =>
      if i ≤ j ∧ ltIdx lt l i a then scanI lt a j fuel l (i + 1) else i

/-- j-cursor scan of partition_func: while i <= j && !data.Less(j, a): j--. -/
def scanJ {α : Type} (lt : α → α → Bool) (a i : Nat) : Nat → List α → Nat → Nat
  | 0, _, j => j
  | fuel + 1, l, j =>
      if i ≤ j ∧ ¬ ltIdx lt l j a then scanJ lt a i fuel l (j - 1) else j

/-- Main loop of partition_func; returns the list and the final value of j. -/
def partLoop {α : Type} (lt : α → α → Bool) (a b : Nat) :
    Nat → List α → Nat → Nat → List α × Nat
  | 0, l, _, j => (l, j)
  | fuel + 1, l, i, j =>
      let i := scanI lt a j b l i
      let j := scanJ lt a i b l j
      if i > j then (l, j)
      else partLoop lt a b fuel (swapT l i j) (i + 1) (j - 1)

/-- partition_func data a b pivot: Hoare-style partition around data[pivot];
returns (data, newpivot, alreadyPartitioned). -/
def partitionGo {α : Type} (lt : α → α → Bool) (l : List α) (a b pivot : Nat) :
    List α × Nat × Bool :=
  let l := swapT l a pivot
  let i := scanI lt a (b - 1) b l (a + 1)
  let j := scanJ lt a i b l (b - 1)
  if i > j then (swapT l j a, j, true)
  else
    let lj := partLoop lt a b b (swapT l i j) (i + 1) (j - 1)
    (swapT lj.1 lj.2 a, lj.2, false)

/-- i-cursor scan of partitionEqual_func: while i <= j && !data.Less(a, i): i++. -/
def scanIEq {α : Type} (lt : α → α → Bool) (a j : Nat) : Nat → List α → Nat → Nat
  | 0, _, i => i
  | fuel + 1, l, i =>
      if i ≤ j ∧ ¬ ltIdx lt l a i then scanIEq lt a j fuel l (i + 1) else i

/-- j-cursor scan of partitionEqual_func: while i <= j && data.Less(a, j): j--. -/
def scanJEq {α : Type} (lt : α → α → Bool) (a i : Nat) : Nat → List α → Nat → Nat
  | 0, _, j => j
  | fuel + 1, l, j =>
      if i ≤ j ∧ ltIdx lt l a j then scanJEq lt a i fuel l (j - 1) else j

/-- Main loop of partitionEqual_func; returns the list and the final i. -/
def partEqLoop {α : Type} (lt : α → α → Bool) (a b : Nat) :
    Nat → List α → Nat → Nat → List α × Nat
  | 0, l, i, _ => (l, i)
  | fuel + 1, l, i, j =>
      let i := scanIEq lt a j b l i
      let j := scanJEq lt a i b l j
      if i > j then (l, i)
      else partEqLoop lt a b fuel (swapT l i j) (i + 1) (j - 1)

/-- partitionEqual_func data a b pivot: partitions elements equal to
data[pivot]; returns (data, newpivot = first index of the greater half). -/
def partitionEqualGo {α : Type} (lt : α → α → Bool) (l : List α) (a b pivot : Nat) :
    List α × Nat :=
  let l := swapT l a pivot
  partEqLoop lt a b b l (a + 1) (b - 1)

/-- bits.Len for Nat: number of bits required to represent n. -/
def bitsLen (n : Nat) : Nat :=
  if n = 0 then 0 else Nat.log2 n + 1

/-- One step of Go's sort-package xorshift PRNG on uint64. -/
def xorshiftNext (r : Nat) : Nat :=
  let r := (r ^^^ (r <<< 13)) % 2 ^ 64
  let r := r ^^^ (r >>> 7)
  (r ^^^ (r <<< 17)) % 2 ^ 64

/-- nextPowerOfTwo from Go's sort package: 1 << bits.Len(length). -/
def nextPowerOfTwoGo (n : Nat) : Nat := 1 <<< bitsLen n

/-- breakPatterns_func data a b: swaps three elements around the midpoint
with pseudo-random other positions (xorshift seeded with the length). -/
def breakPatternsGo {α : Type} (l : List α) (a b : Nat) : List α :=
  let length := b - a
  if length ≥ 8 then
    let modulus := nextPowerOfTwoGo length
    let idx := a + length / 4 * 2 - 1
    let r1 := xorshiftNext length
    let o1 := r1 % modulus
    let o1 := if o1 ≥ length then o1 - length else o1
    let l := swapT l (idx - 1) (a + o1)
    let r2 := xorshiftNext r1
    let o2 := r2 % modulus
    let o2 := if o2 ≥ length then o2 - length else o2
    let l := swapT l idx (a + o2)
    let r3 := xorshiftNext r2
    let o3 := r3 % modulus
    let o3 := if o3 ≥ length then o3 - length else o3
    swapT l (idx + 1) (a + o3)
  else l

/-- The pattern-breaking step at the top of a pdqsort iteration: only taken
when the last partitioning was unbalanced. -/
def pdqPre {α : Type} (l : List α) (a b : Nat) (wasB : Bool) : List α :=
  if wasB then l else breakPatternsGo l a b

/-- The reversal step of a pdqsort iteration: reverse the range when the
pivot choice hinted at a decreasing run. -/
def pdqRevved {α : Type} (l : List α) (a b : Nat) (h : Hint) : List α :=
  if h = Hint.dec then revGo l a (b - 1) else l

/-- The optional partial insertion sort of a pdqsort iteration. -/
def pdqMaybePartial {α : Type} (lt : α → α → Bool) (l : List α) (a b : Nat)
    (doIt : Bool) : List α × Bool :=
  if doIt then partialInsertionSortGo lt l a b else (l, false)

/-- pdqsort_func data a b limit: the top-level driver of Go's sort.Slice.
The outer for-loop and the recursive calls are both expressed through the
fuel argument; fuel = (b - a) + 1 never runs out because every loop
iteration and every recursive call strictly shrinks b - a. -/
def pdqsortGo {α : Type} (lt : α → α → Bool) :
    Nat → List α → Nat → Nat → Nat → Bool → Bool → List α
  | 0, l, _, _, _, _, _ => l
  | fuel + 1, l, a, b, limit, wasB, wasP =>
      if b - a ≤ 12 then insertionSortGo lt l a b
      else if limit = 0 then heapSortGo lt l a b
      else
        let l0 := pdqPre l a b wasB
        let limit1 := if wasB then limit else limit - 1
        let ph := choosePivotGo lt l0 a b
        let l1 := pdqRevved l0 a b ph.2
        let pivot := if ph.2 = Hint.dec then (b - 1) - (ph.1 - a) else ph.1
        let hint := if ph.2 = Hint.dec then Hint.inc else ph.2
        let pd := pdqMaybePartial lt l1 a b (wasB && wasP && decide (hint = Hint.inc))
        if pd.2 then pd.1
        else
          let l2 := pd.1
          if 0 < a ∧ ¬ ltIdx lt l2 (a - 1) pivot then
            let pe := partitionEqualGo lt l2 a b pivot
            pdqsortGo lt fuel pe.1 pe.2 b limit1 wasB wasP
          else
            let pr := partitionGo lt l2 a b pivot
            let mid := pr.2.1
            let wasP1 := pr.2.2
            let wasB1 := decide (min (mid - a) (b - mid) ≥ (b - a) / 8)
            if mid - a < b - mid then
              pdqsortGo lt fuel (pdqsortGo lt fuel pr.1 a mid limit1 true true)
                (mid + 1) b limit1 wasB1 wasP1
            else
              pdqsortGo lt fuel (pdqsortGo lt fuel pr.1 (mid + 1) b limit1 true true)
                a mid limit1 wasB1 wasP1

/-- sort.Slice x less: pdqsort over the whole slice with
limit = bits.Len(length). -/
def sortSliceGo {α : Type} (lt : α → α → Bool) (l : List α) : List α :=
  pdqsortGo lt (l.length + 1) l 0 l.length (bitsLen l.length) true true

/-! ### The embedded sort only permutes its input

Every mutation in the embedded pdqsort is a swapT, so each helper returns a
permutation of its input list. -/

theorem insInner_perm {α : Type} (lt : α → α → Bool) (a : Nat) :
    ∀ (j : Nat) (l : List α), (insInner lt a l j).Perm l
  | 0, l => by simp [insInner]
  | j + 1, l => by
      unfold insInner
      split
      · exact (insInner_perm lt a j _).trans (swapT_perm l (j + 1) j)
      · exact List.Perm.refl l

theorem insOuter_perm {α : Type} (lt : α → α → Bool) (a b : Nat) :
    ∀ (fuel : Nat) (l : List α) (i : Nat), (insOuter lt a b fuel l i).Perm l
  | 0, l, _ => by simp [insOuter]
  | fuel + 1, l, i => by
      unfold insOuter
      split
      · exact (insOuter_perm lt a b fuel _ _).trans (insInner_perm lt a i l)
      · exact List.Perm.refl l

theorem insertionSortGo_perm {α : Type} (lt : α → α → Bool) (l : List α) (a b : Nat) :
    (insertionSortGo lt l a b).Perm l :=
  insOuter_perm lt a b b l (a + 1)

/-- Both branches of an if permute to the same list. -/
theorem ite_perm {α : Type} (p : Prop) [Decidable p] {x y l : List α}
    (hx : x.Perm l) (hy : y.Perm l) : (if p then x else y).Perm l := by
  split <;> assumption

theorem siftDownGo_perm {α : Type} (lt : α → α → Bool) (first hi : Nat) :
    ∀ (fuel : Nat) (l : List α) (root : Nat), (siftDownGo lt first hi fuel l root).Perm l
  | 0, l, _ => by simp [siftDownGo]
  | fuel + 1, l, root => by
      simp only [siftDownGo]
      split
      · exact List.Perm.refl l
      · split <;> split
        any_goals exact List.Perm.refl l
        all_goals exact (siftDownGo_perm lt first hi fuel _ _).trans (swapT_perm l _ _)

theorem heapBuild_perm {α : Type} (lt : α → α → Bool) (first hi : Nat) :
    ∀ (n : Nat) (l : List α), (heapBuild lt first hi l n).Perm l
  | 0, l => by simp [heapBuild]
  | n + 1, l => by
      unfold heapBuild
      exact (heapBuild_perm lt first hi n _).trans (siftDownGo_perm lt first hi hi l n)

theorem heapPop_perm {α : Type} (lt : α → α → Bool) (first : Nat) :
    ∀ (n : Nat) (l : List α), (heapPop lt first l n).Perm l
  | 0, l => by simp [heapPop]
  | n + 1, l => by
      unfold heapPop
      exact (heapPop_perm lt first n _).trans
        ((siftDownGo_perm lt first n n _ 0).trans (swapT_perm l first (first + n)))

theorem heapSortGo_perm {α : Type} (lt : α → α → Bool) (l : List α) (a b : Nat) :
    (heapSortGo lt l a b).Perm l :=
  (heapPop_perm lt a (b - a) _).trans (heapBuild_perm lt a (b - a) ((b - a - 1) / 2 + 1) l)

theorem revGo_perm {α : Type} (l : List α) (i j : Nat) : (revGo l i j).Perm l := by
  rw [revGo]
  split
  · exact (revGo_perm (swapT l i j) (i + 1) (j - 1)).trans (swapT_perm l i j)
  · exact List.Perm.refl l
termination_by j - i
decreasing_by simp_wf; omega

theorem bubbleLeft_perm {α : Type} (lt : α → α → Bool) :
    ∀ (j : Nat) (l : List α), (bubbleLeft lt l j).Perm l
  | 0, l => by simp [bubbleLeft]
  | j + 1, l => by
      unfold bubbleLeft
      split
      · exact (bubbleLeft_perm lt j _).trans (swapT_perm l (j + 1) j)
      · exact List.Perm.refl l

theorem bubbleRight_perm {α : Type} (lt : α → α → Bool) (b : Nat) :
    ∀ (fuel : Nat) (l : List α) (j : Nat), (bubbleRight lt b fuel l j).Perm l
  | 0, l, _ => by simp [bubbleRight]
  | fuel + 1, l, j => by
      unfold bubbleRight
      split
      · exact (bubbleRight_perm lt b fuel _ _).trans (swapT_perm l j (j - 1))
      · exact List.Perm.refl l

theorem partialInsGo_perm {α : Type} (lt : α → α → Bool) (a b : Nat) :
    ∀ (steps : Nat) (l : List α) (i : Nat), (partialInsGo lt a b steps l i).1.Perm l
  | 0, l, _ => by simp [partialInsGo]
  | steps + 1, l, i => by
      simp only [partialInsGo]
      split
      · exact List.Perm.refl l
      · split
        · exact List.Perm.refl l
        · refine (partialInsGo_perm lt a b steps _ _).trans (ite_perm _ ?_ ?_)
          · refine (bubbleRight_perm lt b b _ _).trans (ite_perm _ ?_ ?_)
            · exact (bubbleLeft_perm lt _ _).trans (swapT_perm l _ _)
            · exact swapT_perm l _ _
          · refine ite_perm _ ?_ ?_
            · exact (bubbleLeft_perm lt _ _).trans (swapT_perm l _ _)
            · exact swapT_perm l _ _

theorem partLoop_perm {α : Type} (lt : α → α → Bool) (a b : Nat) :
    ∀ (fuel : Nat) (l : List α) (i j : Nat), (partLoop lt a b fuel l i j).1.Perm l
  | 0, l, _, _ => by simp [partLoop]
  | fuel + 1, l, i, j => by
      simp only [partLoop]
      split
      · exact List.Perm.refl l
      · exact (partLoop_perm lt a b fuel _ _ _).trans (swapT_perm l _ _)

theorem partitionGo_perm {α : Type} (lt : α → α → Bool) (l : List α) (a b pivot : Nat) :
    (partitionGo lt l a b pivot).1.Perm l := by
  simp only [partitionGo]
  split
  · exact (swapT_perm _ _ _).trans (swapT_perm l a pivot)
  · refine (swapT_perm _ _ _).trans ?_
    refine (partLoop_perm lt a b b _ _ _).trans ?_
    exact (swapT_perm _ _ _).trans (swapT_perm l a pivot)

theorem partEqLoop_perm {α : Type} (lt : α → α → Bool) (a b : Nat) :
    ∀ (fuel : Nat) (l : List α) (i j : Nat), (partEqLoop lt a b fuel l i j).1.Perm l
  | 0, l, _, _ => by simp [partEqLoop]
  | fuel + 1, l, i, j => by
      simp only [partEqLoop]
      split
      · exact List.Perm.refl l
      · exact (partEqLoop_perm lt a b fuel _ _ _).trans (swapT_perm l _ _)

theorem partitionEqualGo_perm {α : Type} (lt : α → α → Bool) (l : List α)
    (a b pivot : Nat) : (partitionEqualGo lt l a b pivot).1.Perm l := by
  simp only [partitionEqualGo]
  exact (partEqLoop_perm lt a b b _ _ _).trans (swapT_perm l a pivot)

theorem breakPatternsGo_perm {α : Type} (l : List α) (a b : Nat) :
    (breakPatternsGo l a b).Perm l := by
  simp only [breakPatternsGo]
  split
  · exact (swapT_perm _ _ _).trans ((swapT_perm _ _ _).trans (swapT_perm l _ _))
  · exact List.Perm.refl l

theorem pdqPre_perm {α : Type} (l : List α) (a b : Nat) (wasB : Bool) :
    (pdqPre l a b wasB).Perm l := by
  unfold pdqPre
  exact ite_perm _ (List.Perm.refl l) (breakPatternsGo_perm l a b)

theorem pdqRevved_perm {α : Type} (l : List α) (a b : Nat) (h : Hint) :
    (pdqRevved l a b h).Perm l := by
  unfold pdqRevved
  exact ite_perm _ (revGo_perm l a (b - 1)) (List.Perm.refl l)

theorem pdqMaybePartial_perm {α : Type} (lt : α → α → Bool) (l : List α)
    (a b : Nat) (d : Bool) : (pdqMaybePartial lt l a b d).1.Perm l := by
  unfold pdqMaybePartial
  split
  · exact partialInsGo_perm lt a b 5 l (a + 1)
  · exact List.Perm.refl l

theorem pdqsortGo_perm {α : Type} (lt : α → α → Bool) :
    ∀ (fuel : Nat) (l : List α) (a b limit : Nat) (wasB wasP : Bool),
      (pdqsortGo lt fuel l a b limit wasB wasP).Perm l
  | 0, l, _, _, _, _, _ => by simp [pdqsortGo]
  | fuel + 1, l, a, b, limit, wasB, wasP => by
      simp only [pdqsortGo]
      split
      · exact insertionSortGo_perm lt l a b
      · split
        · exact heapSortGo_perm lt l a b
        · have hmain : ∀ (c : Bool) (h : Hint),
              (pdqMaybePartial lt (pdqRevved (pdqPre l a b wasB) a b h) a b c).1.Perm l :=
            fun c h => (pdqMaybePartial_perm lt _ a b c).trans
              ((pdqRevved_perm _ a b h).trans (pdqPre_perm l a b wasB))
          repeat' split
          all_goals first
            | exact hmain _ _
            | exact (pdqsortGo_perm lt fuel _ _ _ _ _ _).trans
                ((partitionEqualGo_perm lt _ a b _).trans (hmain _ _))
            | exact (pdqsortGo_perm lt fuel _ _ _ _ _ _).trans
                ((pdqsortGo_perm lt fuel _ _ _ _ _ _).trans
                  ((partitionGo_perm lt _ a b _).trans (hmain _ _)))

/-- sort.Slice returns a permutation of its input. -/
theorem sortSliceGo_perm {α : Type} (lt : α → α → Bool) (l : List α) :
    (sortSliceGo lt l).Perm l :=
  pdqsortGo_perm lt (l.length + 1) l 0 l.length (bitsLen l.length) true true

/-! ### Sortedness of the embedded sort.Slice

The claims below are proved for comparators of the form
fun x y => decide (key x < key y) — the shape queryS3Versions uses
(key = LastModified).  kAt gives the key at a position (0 out of range),
FrameOn says a transformation only touched [a, b), RS says a range is
non-strictly ascending by key. -/

/-- The comparator sort.Slice is given: strictly increasing key. -/
def ltK {α : Type} (key : α → Nat) : α → α → Bool :=
  fun x y => decide (key x < key y)

/-- The key of the element at position i (0 for an out-of-range index). -/
def kAt {α : Type} (key : α → Nat) (l : List α) (i : Nat) : Nat :=
  match l[i]? with
  | some x => key x
  | none => 0

/-- l' has the same length as l and agrees with it outside [a, b). -/
def FrameOn {α : Type} (a b : Nat) (l l' : List α) : Prop :=
  l'.length = l.length ∧ ∀ k, k < a ∨ b ≤ k → l'[k]? = l[k]?

/-- The range [a, b) of l is non-strictly ascending by key. -/
def RS {α : Type} (key : α → Nat) (l : List α) (a b : Nat) : Prop :=
  ∀ i j, a ≤ i → i < j → j < b → kAt key l i ≤ kAt key l j

/-- Every key in the range [a, b) of l satisfies p. -/
def RangeAll {α : Type} (key : α → Nat) (p : Nat → Prop) (l : List α)
    (a b : Nat) : Prop :=
  ∀ q, a ≤ q → q < b → p (kAt key l q)

theorem kAt_of_getElem? {α : Type} {key : α → Nat} {l : List α} {i : Nat} {x : α}
    (h : l[i]? = some x) : kAt key l i = key x := by
  simp [kAt, h]

theorem kAt_eq_getElem {α : Type} {key : α → Nat} {l : List α} {i : Nat}
    (h : i < l.length) : kAt key l i = key l[i] := by
  simp [kAt, List.getElem?_eq_getElem h]

theorem ltIdx_ltK_true {α : Type} {key : α → Nat} {l : List α} {i j : Nat}
    (h : ltIdx (ltK key) l i j = true) : kAt key l i < kAt key l j := by
  unfold ltIdx at h
  rcases hx : l[i]? with _ | x
  · rw [hx] at h; simp at h
  · rcases hy : l[j]? with _ | y
    · rw [hx, hy] at h; simp at h
    · rw [hx, hy] at h
      simp only [ltK, decide_eq_true_eq] at h
      rw [kAt_of_getElem? hx, kAt_of_getElem? hy]
      exact h

theorem ltIdx_ltK_false {α : Type} {key : α → Nat} {l : List α} {i j : Nat}
    (hi : i < l.length) (hj : j < l.length)
    (h : ltIdx (ltK key) l i j = false) : kAt key l j ≤ kAt key l i := by
  unfold ltIdx at h
  rw [List.getElem?_eq_getElem hi, List.getElem?_eq_getElem hj] at h
  simp only [ltK, decide_eq_false_iff_not, Nat.not_lt] at h
  rw [kAt_eq_getElem hi, kAt_eq_getElem hj]
  exact h

theorem FrameOn.refl {α : Type} (a b : Nat) (l : List α) : FrameOn a b l l :=
  ⟨rfl, fun _ _ => rfl⟩

theorem FrameOn.trans {α : Type} {a b : Nat} {l l' l'' : List α}
    (h1 : FrameOn a b l l') (h2 : FrameOn a b l' l'') : FrameOn a b l l'' :=
  ⟨h2.1.trans h1.1, fun k hk => (h2.2 k hk).trans (h1.2 k hk)⟩

theorem FrameOn.widen {α : Type} {a b a' b' : Nat} {l l' : List α}
    (ha : a ≤ a') (hb : b' ≤ b) (h : FrameOn a' b' l l') : FrameOn a b l l' :=
  ⟨h.1, fun k hk => h.2 k (by omega)⟩

theorem swapT_length {α : Type} (l : List α) (i j : Nat) :
    (swapT l i j).length = l.length := by
  unfold swapT
  rcases hx : l[i]? with _ | x <;> rcases hy : l[j]? with _ | y <;> simp

theorem getElem?_swapT_ne {α : Type} (l : List α) {i j k : Nat}
    (hki : k ≠ i) (hkj : k ≠ j) : (swapT l i j)[k]? = l[k]? := by
  unfold swapT
  rcases hx : l[i]? with _ | x <;> rcases hy : l[j]? with _ | y <;>
    simp [List.getElem?_set_ne (Ne.symm hki), List.getElem?_set_ne (Ne.symm hkj)]

theorem getElem?_swapT_fst {α : Type} (l : List α) {i j : Nat}
    (hi : i < l.length) (hj : j < l.length) : (swapT l i j)[i]? = l[j]? := by
  unfold swapT
  rw [List.getElem?_eq_getElem hi, List.getElem?_eq_getElem hj]
  by_cases hij : i = j
  · subst hij
    simp [List.getElem?_set_self (by simpa using hi)]
  · rw [List.getElem?_set_ne (Ne.symm hij), List.getElem?_set_self (by simpa using hi)]

theorem getElem?_swapT_snd {α : Type} (l : List α) {i j : Nat}
    (hi : i < l.length) (hj : j < l.length) : (swapT l i j)[j]? = l[i]? := by
  unfold swapT
  rw [List.getElem?_eq_getElem hi, List.getElem?_eq_getElem hj]
  rw [List.getElem?_set_self (by simpa [List.length_set] using hj)]

theorem swapT_frame {α : Type} (l : List α) {a b i j : Nat}
    (hai : a ≤ i) (hib : i < b) (haj : a ≤ j) (hjb : j < b) :
    FrameOn a b l (swapT l i j) := by
  refine ⟨swapT_length l i j, fun k hk => ?_⟩
  exact getElem?_swapT_ne l (by omega) (by omega)

theorem kAt_swapT_fst {α : Type} (key : α → Nat) (l : List α) {i j : Nat}
    (hi : i < l.length) (hj : j < l.length) :
    kAt key (swapT l i j) i = kAt key l j := by
  unfold kAt
  rw [getElem?_swapT_fst l hi hj]

theorem kAt_swapT_snd {α : Type} (key : α → Nat) (l : List α) {i j : Nat}
    (hi : i < l.length) (hj : j < l.length) :
    kAt key (swapT l i j) j = kAt key l i := by
  unfold kAt
  rw [getElem?_swapT_snd l hi hj]

theorem kAt_swapT_ne {α : Type} (key : α → Nat) (l : List α) {i j k : Nat}
    (hki : k ≠ i) (hkj : k ≠ j) : kAt key (swapT l i j) k = kAt key l k := by
  unfold kAt
  rw [getElem?_swapT_ne l hki hkj]

theorem frame_kAt {α : Type} {key : α → Nat} {a b : Nat} {l l' : List α}
    (h : FrameOn a b l l') {k : Nat} (hk : k < a ∨ b ≤ k) :
    kAt key l' k = kAt key l k := by
  unfold kAt
  rw [h.2 k hk]

/-! ### Value predicates over a range survive framed permutations -/

theorem take_eq_of_frame {α : Type} {a b : Nat} {l l' : List α}
    (h : FrameOn a b l l') : l'.take a = l.take a := by
  apply List.ext_getElem?
  intro n
  by_cases hn : n < a
  · rw [List.getElem?_take_of_lt hn, List.getElem?_take_of_lt hn]
    exact h.2 n (Or.inl hn)
  · have h1 : (l'.take a).length ≤ n := by
      have := List.length_take a l'
      omega
    have h2 : (l.take a).length ≤ n := by
      have := List.length_take a l
      omega
    rw [List.getElem?_eq_none h1, List.getElem?_eq_none h2]

theorem drop_eq_of_frame {α : Type} {a b : Nat} {l l' : List α}
    (h : FrameOn a b l l') : l'.drop b = l.drop b := by
  apply List.ext_getElem?
  intro n
  rw [List.getElem?_drop, List.getElem?_drop]
  exact h.2 (b + n) (Or.inr (by omega))

/-- The slice [a, b) of a list. -/
def sliceOf {α : Type} (l : List α) (a b : Nat) : List α :=
  (l.drop a).take (b - a)

theorem slice_decomp {α : Type} (l : List α) {a b : Nat} (hab : a ≤ b) :
    l = l.take a ++ sliceOf l a b ++ l.drop b := by
  unfold sliceOf
  conv_lhs => rw [← List.take_append_drop a l]
  rw [List.append_assoc]
  congr 1
  conv_lhs => rw [← List.take_append_drop (b - a) (l.drop a)]
  congr 1
  rw [List.drop_drop]
  congr 1
  omega

theorem slice_perm_of_frame {α : Type} {a b : Nat} {l l' : List α} (hab : a ≤ b)
    (hperm : l'.Perm l) (hframe : FrameOn a b l l') :
    (sliceOf l' a b).Perm (sliceOf l a b) := by
  have hd := slice_decomp l hab
  have hd' := slice_decomp l' hab
  rw [hd', hd, take_eq_of_frame hframe, drop_eq_of_frame hframe] at hperm
  rw [List.append_assoc, List.append_assoc] at hperm
  have h1 := (List.perm_append_left_iff (l.take a)).mp hperm
  exact (List.perm_append_right_iff (l.drop b)).mp h1

theorem mem_slice_of_getElem? {α : Type} {l : List α} {a b q : Nat} {x : α}
    (haq : a ≤ q) (hqb : q < b) (h : l[q]? = some x) : x ∈ sliceOf l a b := by
  have hq : (sliceOf l a b)[q - a]? = some x := by
    unfold sliceOf
    have h1 : q - a < b - a := by omega
    rw [List.getElem?_take_of_lt h1, List.getElem?_drop]
    rw [show a + (q - a) = q by omega]
    exact h
  exact List.getElem?_mem hq

theorem slice_getElem? {α : Type} {l : List α} {a b t : Nat} (ht : t < b - a) :
    (sliceOf l a b)[t]? = l[a + t]? := by
  unfold sliceOf
  rw [List.getElem?_take_of_lt ht, List.getElem?_drop]

/-- A predicate on keys holding everywhere in [a, b) survives any
transformation that permutes the list while fixing everything outside
[a, b). -/
theorem rangeAll_preserved {α : Type} {key : α → Nat} {p : Nat → Prop}
    {a b : Nat} {l l' : List α} (hperm : l'.Perm l) (hframe : FrameOn a b l l')
    (hall : RangeAll key p l a b) (h0 : p 0) : RangeAll key p l' a b := by
  by_cases hab : a ≤ b
  · intro q haq hqb
    rcases hx : l'[q]? with _ | x
    · simpa [kAt, hx] using h0
    · have hmem : x ∈ sliceOf l' a b := mem_slice_of_getElem? haq hqb hx
      have hmem2 : x ∈ sliceOf l a b :=
        (slice_perm_of_frame hab hperm hframe).mem_iff.mp hmem
      rcases List.mem_iff_getElem?.mp hmem2 with ⟨t, ht⟩
      have htb : t < b - a := by
        by_contra hcon
        have hlen : (sliceOf l a b).length ≤ t := by
          have h1 : (sliceOf l a b).length = min (b - a) (l.drop a).length :=
            List.length_take _ _
          omega
        rw [List.getElem?_eq_none hlen] at ht
        exact Option.noConfusion ht
      have hlq : l[a + t]? = some x := by rw [← slice_getElem? htb]; exact ht
      have hp := hall (a + t) (by omega) (by omega)
      rw [kAt_of_getElem? hlq] at hp
      rw [kAt_of_getElem? hx]
      exact hp
  · intro q haq hqb
    omega

/-! ### RS basics -/

theorem RS.empty {α : Type} {key : α → Nat} {l : List α} {a b : Nat}
    (h : b ≤ a + 1) : RS key l a b := by
  intro i j hi hij hj
  omega

theorem RS_of_adjacent {α : Type} {key : α → Nat} {l : List α} {a b : Nat}
    (h : ∀ p, a + 1 ≤ p → p < b → kAt key l (p - 1) ≤ kAt key l p) :
    RS key l a b := by
  intro i j hi hij hj
  have hstep : ∀ d, i + d < b → kAt key l i ≤ kAt key l (i + d) := by
    intro d
    induction d with
    | zero => intro _; exact Nat.le_refl _
    | succ d ih =>
        intro hd
        show kAt key l i ≤ kAt key l (i + d + 1)
        have h1 := ih (by omega)
        have h2 := h (i + d + 1) (by omega) (by omega)
        rw [show i + d + 1 - 1 = i + d by omega] at h2
        omega
  have := hstep (j - i) (by omega)
  rw [show i + (j - i) = j by omega] at this
  exact this

/-- Glue a sorted left range, a pivot position and a sorted right range. -/
theorem RS_combine {α : Type} {key : α → Nat} {l : List α} {a b mid : Nat}
    (hmid : a ≤ mid) (hmb : mid < b)
    (hL : RS key l a mid) (hR : RS key l (mid + 1) b)
    (hlessL : ∀ p, a ≤ p → p < mid → kAt key l p ≤ kAt key l mid)
    (hlessR : ∀ q, mid < q → q < b → kAt key l mid ≤ kAt key l q) :
    RS key l a b := by
  intro i j hi hij hj
  rcases Nat.lt_trichotomy j mid with hjm | hjm | hjm
  · exact hL i j hi hij hjm
  · subst hjm
    exact hlessL i hi hij
  · rcases Nat.lt_trichotomy i mid with him | him | him
    · exact le_trans (hlessL i hi him) (hlessR j hjm hj)
    · subst him
      exact hlessR j hjm hj
    · exact hR i j (by omega) hij hj

/-- rangeAll_preserved for in-bounds ranges: when b is within the list no
default-value assumption is needed. -/
theorem rangeAll_preserved_of_le {α : Type} {key : α → Nat} {p : Nat → Prop}
    {a b : Nat} {l l' : List α} (hperm : l'.Perm l) (hframe : FrameOn a b l l')
    (hall : RangeAll key p l a b) (hb : b ≤ l.length) : RangeAll key p l' a b := by
  by_cases hab : a ≤ b
  · intro q haq hqb
    rcases hx : l'[q]? with _ | x
    · have hlen : l'.length = l.length := hperm.length_eq
      have hq : q < l'.length := by omega
      rw [List.getElem?_eq_getElem hq] at hx
      exact Option.noConfusion hx
    · have hmem : x ∈ sliceOf l' a b := mem_slice_of_getElem? haq hqb hx
      have hmem2 : x ∈ sliceOf l a b :=
        (slice_perm_of_frame hab hperm hframe).mem_iff.mp hmem
      rcases List.mem_iff_getElem?.mp hmem2 with ⟨t, ht⟩
      have htb : t < b - a := by
        by_contra hcon
        have hlen : (sliceOf l a b).length ≤ t := by
          have h1 : (sliceOf l a b).length = min (b - a) (l.drop a).length :=
            List.length_take _ _
          omega
        rw [List.getElem?_eq_none hlen] at ht
        exact Option.noConfusion ht
      have hlq : l[a + t]? = some x := by rw [← slice_getElem? htb]; exact ht
      have hp := hall (a + t) (by omega) (by omega)
      rw [kAt_of_getElem? hlq] at hp
      rw [kAt_of_getElem? hx]
      exact hp
  · intro q haq hqb
    omega

/-- RS on a range survives a transformation framed away from it. -/
theorem RS_of_frame {α : Type} {key : α → Nat} {a b a' b' : Nat} {l l' : List α}
    (hframe : FrameOn a' b' l l') (hdisj : b ≤ a' ∨ b' ≤ a)
    (hRS : RS key l a b) : RS key l' a b := by
  intro i j hi hij hj
  rw [frame_kAt hframe (by omega), frame_kAt hframe (by omega)]
  exact hRS i j hi hij hj

/-- The pdqsort driver invariant: when a is positive, the element just left
of the working range bounds the whole range from below (position a - 1
holds an already-placed pivot). -/
def HInv {α : Type} (key : α → Nat) (l : List α) (a b : Nat) : Prop :=
  0 < a → ∀ q, a ≤ q → q < b → kAt key l (a - 1) ≤ kAt key l q

theorem HInv_preserved {α : Type} {key : α → Nat} {a b : Nat} {l l' : List α}
    (hperm : l'.Perm l) (hframe : FrameOn a b l l') (hb : b ≤ l.length)
    (h : HInv key l a b) : HInv key l' a b := by
  intro ha q haq hqb
  rw [frame_kAt hframe (Or.inl (by omega))]
  have hall := rangeAll_preserved_of_le (p := fun v => kAt key l (a - 1) ≤ v)
    hperm hframe (fun q2 h1 h2 => h ha q2 h1 h2) hb
  exact hall q haq hqb

/-! ### Insertion sort sorts its range -/

/-- One bubbling pass of insertion sort.  With the prefix [a, jc) sorted,
the suffix [jc+1, e) sorted, every cross pair ordered containing the
moving element at jc below the whole suffix, the pass sorts [a, e). -/
theorem insInner_spec {α : Type} (key : α → Nat) (a e : Nat) :
    ∀ (jc : Nat) (l : List α), e ≤ l.length → a ≤ jc → jc < e →
      RS key l a jc →
      RS key l (jc + 1) e →
      (∀ p q, a ≤ p → p < jc → jc + 1 ≤ q → q < e →
        kAt key l p ≤ kAt key l q) →
      (∀ q, jc + 1 ≤ q → q < e → kAt key l jc ≤ kAt key l q) →
      RS key (insInner (ltK key) a l jc) a e ∧
        FrameOn a e l (insInner (ltK key) a l jc)
  | 0, l, hlen, haj, hje, hA, hB, hC, hD => by
      have ha0 : a = 0 := by omega
      subst ha0
      refine ⟨?_, FrameOn.refl 0 e l⟩
      show RS key l 0 e
      intro i j hi hij hj
      rcases Nat.eq_zero_or_pos i with rfl | hipos
      · exact hD j (by omega) hj
      · exact hB i j (by omega) hij hj
  | j + 1, l, hlen, haj, hje, hA, hB, hC, hD => by
      unfold insInner
      split
      case isTrue hcond =>
        have haj' : a ≤ j := hcond.1
        have hkey : kAt key l (j + 1) < kAt key l j := ltIdx_ltK_true hcond.2
        have hj1len : j + 1 < l.length := by omega
        have hjlen : j < l.length := by omega
        have hswlen : (swapT l (j + 1) j).length = l.length := swapT_length l _ _
        have hfst : kAt key (swapT l (j + 1) j) (j + 1) = kAt key l j :=
          kAt_swapT_fst key l hj1len hjlen
        have hsnd : kAt key (swapT l (j + 1) j) j = kAt key l (j + 1) :=
          kAt_swapT_snd key l hj1len hjlen
        have hne : ∀ k, k ≠ j + 1 → k ≠ j →
            kAt key (swapT l (j + 1) j) k = kAt key l k :=
          fun k h1 h2 => kAt_swapT_ne key l h1 h2
        have ih := insInner_spec key a e j (swapT l (j + 1) j)
          (by omega) haj' (by omega)
          (by
            intro p q hp hpq hq
            rw [hne p (by omega) (by omega), hne q (by omega) (by omega)]
            exact hA p q hp hpq (by omega))
          (by
            intro p q hp hpq hq
            rcases Nat.eq_or_lt_of_le hp with rfl | hp'
            · rw [hfst, hne q (by omega) (by omega)]
              exact hC j q haj' (by omega) (by omega) hq
            · rw [hne p (by omega) (by omega), hne q (by omega) (by omega)]
              exact hB p q (by omega) hpq hq)
          (by
            intro p q hp hpq hq1 hq2
            rcases Nat.eq_or_lt_of_le hq1 with hq1' | hq1'
            · rw [hne p (by omega) (by omega), ← hq1', hfst]
              exact hA p j hp (by omega) (by omega)
            · rw [hne p (by omega) (by omega), hne q (by omega) (by omega)]
              exact hC p q hp (by omega) (by omega) hq2)
          (by
            intro q hq1 hq2
            rcases Nat.eq_or_lt_of_le hq1 with hq1' | hq1'
            · rw [hsnd, ← hq1', hfst]
              omega
            · rw [hsnd, hne q (by omega) (by omega)]
              exact hD q (by omega) hq2)
        refine ⟨ih.1, FrameOn.trans ?_ ih.2⟩
        exact swapT_frame l (by omega) (by omega) haj' (by omega)
      case isFalse hcond =>
        refine ⟨?_, FrameOn.refl a e l⟩
        rcases Decidable.not_and_iff_or_not.mp hcond with hja | hlt
        · have haeq : a = j + 1 := by omega
          intro i j' hi hij hj'
          by_cases hi' : i = j + 1
          · subst hi'
            exact hD j' (by omega) hj'
          · exact hB i j' (by omega) hij hj'
        · have hstop : kAt key l j ≤ kAt key l (j + 1) := by
            have hfalse : ltIdx (ltK key) l (j + 1) j = false :=
              (Bool.not_eq_true _) ▸ hlt
            exact ltIdx_ltK_false (l := l) (i := j + 1) (j := j)
              (by omega) (by omega) hfalse
          intro i j' hi hij hj'
          rcases Nat.lt_trichotomy j' (j + 1) with h1 | h1 | h1
          · exact hA i j' hi hij (by omega)
          · subst h1
            rcases Nat.lt_trichotomy i j with h2 | h2 | h2
            · exact le_trans (hA i j hi h2 (by omega)) hstop
            · subst h2
              exact hstop
            · omega
          · rcases Nat.lt_trichotomy i (j + 1) with h2 | h2 | h2
            · exact hC i j' hi h2 (by omega) hj'
            · subst h2
              exact hD j' (by omega) hj'
            · exact hB i j' (by omega) hij hj'

/-- The outer insertion-sort loop extends the sorted prefix to b. -/
theorem insOuter_spec {α : Type} (key : α → Nat) (a b : Nat) :
    ∀ (fuel : Nat) (l : List α) (i : Nat), b ≤ l.length → a < i → i ≤ b →
      b - i ≤ fuel → RS key l a i →
      RS key (insOuter (ltK key) a b fuel l i) a b ∧
        FrameOn a b l (insOuter (ltK key) a b fuel l i)
  | 0, l, i, hlen, hai, hib, hfuel, hRS => by
      have : i = b := by omega
      subst this
      exact ⟨hRS, FrameOn.refl a i l⟩
  | fuel + 1, l, i, hlen, hai, hib, hfuel, hRS => by
      unfold insOuter
      split
      case isTrue hib' =>
        have hinner := insInner_spec key a (i + 1) i l (by omega) (by omega)
          (by omega) hRS (RS.empty (by omega))
          (by intro p q _ _ hq1 hq2; omega)
          (by intro q hq1 hq2; omega)
        have ih := insOuter_spec key a b fuel (insInner (ltK key) a l i) (i + 1)
          (by rw [hinner.2.1]; exact hlen) (by omega) (by omega) (by omega)
          hinner.1
        exact ⟨ih.1, FrameOn.trans (FrameOn.widen (Nat.le_refl a) hib' hinner.2) ih.2⟩
      case isFalse hib' =>
        have : i = b := by omega
        subst this
        exact ⟨hRS, FrameOn.refl a i l⟩

/-- insOuter with a start index at or beyond b is the identity. -/
theorem insOuter_stop {α : Type} (lt : α → α → Bool) (a b : Nat)
    (fuel : Nat) (l : List α) (i : Nat) (h : ¬ i < b) :
    insOuter lt a b fuel l i = l := by
  cases fuel with
  | zero => rfl
  | succ fuel => unfold insOuter; rw [if_neg h]

/-- insertionSort_func sorts its range and touches nothing else. -/
theorem insertionSortGo_sorted {α : Type} (key : α → Nat) (l : List α)
    (a b : Nat) (hb : b ≤ l.length) :
    RS key (insertionSortGo (ltK key) l a b) a b ∧
      FrameOn a b l (insertionSortGo (ltK key) l a b) := by
  unfold insertionSortGo
  by_cases hab : a + 1 ≤ b
  · exact insOuter_spec key a b b l (a + 1) hb (by omega) hab (by omega)
      (RS.empty (by omega))
  · rw [insOuter_stop (ltK key) a b b l (a + 1) (by omega)]
    exact ⟨RS.empty (by omega), FrameOn.refl a b l⟩

/-! ### Hoare partition produces a two-sided split around the pivot -/

/-- The i-cursor scan skips keys strictly below the pivot key (at a) and
stops on the first position at or below j carrying a key not below it. -/
theorem scanI_spec {α : Type} (key : α → Nat) (a j : Nat) :
    ∀ (fuel : Nat) (l : List α) (i : Nat), j + 2 - i ≤ fuel →
      a < l.length → j < l.length →
      i ≤ scanI (ltK key) a j fuel l i ∧
      (scanI (ltK key) a j fuel l i ≤ j + 1 ∨ scanI (ltK key) a j fuel l i = i) ∧
      (∀ p, i ≤ p → p < scanI (ltK key) a j fuel l i →
        kAt key l p < kAt key l a) ∧
      (scanI (ltK key) a j fuel l i ≤ j →
        kAt key l a ≤ kAt key l (scanI (ltK key) a j fuel l i))
  | 0, l, i, hfuel, hal, hjl => by
      refine ⟨Nat.le_refl i, Or.inr rfl, ?_, ?_⟩
      · intro p h1 h2
        simp only [scanI] at h2
        omega
      · intro h
        simp only [scanI] at h
        omega
  | fuel + 1, l, i, hfuel, hal, hjl => by
      unfold scanI
      split
      case isTrue hcond =>
        have hkey := ltIdx_ltK_true hcond.2
        have ih := scanI_spec key a j fuel l (i + 1) (by omega) hal hjl
        refine ⟨by omega, ?_, ?_, ih.2.2.2⟩
        · left
          rcases ih.2.1 with h | h
          · exact h
          · omega
        · intro p h1 h2
          rcases Nat.eq_or_lt_of_le h1 with rfl | h1'
          · exact hkey
          · exact ih.2.2.1 p (by omega) h2
      case isFalse hcond =>
        refine ⟨Nat.le_refl i, Or.inr rfl, by intro p h1 h2; omega, ?_⟩
        intro hij
        rcases Decidable.not_and_iff_or_not.mp hcond with h | h
        · omega
        · have hfalse : ltIdx (ltK key) l i a = false := (Bool.not_eq_true _) ▸ h
          exact ltIdx_ltK_false (by omega) hal hfalse

/-- scanJ is the identity when the cursors have already crossed. -/
theorem scanJ_stop {α : Type} (lt : α → α → Bool) (a i : Nat)
    (fuel : Nat) (l : List α) (j : Nat) (h : ¬ i ≤ j) :
    scanJ lt a i fuel l j = j := by
  cases fuel with
  | zero => rfl
  | succ fuel =>
      unfold scanJ
      rw [if_neg (by intro hc; exact h hc.1)]

/-- The j-cursor scan skips keys at or above the pivot key and stops on the
first position at or above i - 1 carrying a key strictly below it. -/
theorem scanJ_spec {α : Type} (key : α → Nat) (a i : Nat) :
    ∀ (fuel : Nat) (l : List α) (j : Nat), j + 2 - i ≤ fuel → 1 ≤ i →
      a < l.length → j < l.length →
      scanJ (ltK key) a i fuel l j ≤ j ∧
      (i - 1 ≤ j → i - 1 ≤ scanJ (ltK key) a i fuel l j) ∧
      (∀ q, scanJ (ltK key) a i fuel l j < q → q ≤ j →
        kAt key l a ≤ kAt key l q) ∧
      (i ≤ scanJ (ltK key) a i fuel l j →
        kAt key l (scanJ (ltK key) a i fuel l j) < kAt key l a)
  | 0, l, j, hfuel, hi, hal, hjl => by
      refine ⟨Nat.le_refl j, by omega, ?_, ?_⟩
      · intro q h1 h2
        simp only [scanJ] at h1
        omega
      · intro h
        simp only [scanJ] at h
        omega
  | fuel + 1, l, j, hfuel, hi, hal, hjl => by
      unfold scanJ
      split
      case isTrue hcond =>
        have hij : i ≤ j := hcond.1
        have hfalse : ltIdx (ltK key) l j a = false := (Bool.not_eq_true _) ▸ hcond.2
        have hskip : kAt key l a ≤ kAt key l j := ltIdx_ltK_false hjl hal hfalse
        have ih := scanJ_spec key a i fuel l (j - 1) (by omega) hi hal (by omega)
        refine ⟨by omega, by omega, ?_, ih.2.2.2⟩
        intro q h1 h2
        rcases Nat.eq_or_lt_of_le h2 with rfl | h2'
        · exact hskip
        · exact ih.2.2.1 q h1 (by omega)
      case isFalse hcond =>
        refine ⟨Nat.le_refl j, by omega, by intro q h1 h2; omega, ?_⟩
        intro hij
        rcases Decidable.not_and_iff_or_not.mp hcond with h | h
        · omega
        · have htrue : ltIdx (ltK key) l j a = true := not_not.mp h
          exact ltIdx_ltK_true htrue

/-- The main partition loop: it maintains keys below the pivot key on
[a+1, i) and keys at or above it on (j, b), and ends with the cursors
crossed at the returned j. -/
theorem partLoop_spec {α : Type} (key : α → Nat) (a b : Nat) :
    ∀ (fuel : Nat) (l : List α) (i j : Nat),
      a < b → b ≤ l.length → a + 1 ≤ i → i ≤ j + 2 → a ≤ j → j < b →
      j + 2 - i ≤ fuel →
      (∀ p, a + 1 ≤ p → p < i → kAt key l p < kAt key l a) →
      (∀ q, j < q → q < b → kAt key l a ≤ kAt key l q) →
      FrameOn (a + 1) b l (partLoop (ltK key) a b fuel l i j).1 ∧
      (partLoop (ltK key) a b fuel l i j).1.Perm l ∧
      a ≤ (partLoop (ltK key) a b fuel l i j).2 ∧
      (partLoop (ltK key) a b fuel l i j).2 < b ∧
      (∀ p, a + 1 ≤ p → p ≤ (partLoop (ltK key) a b fuel l i j).2 →
        kAt key (partLoop (ltK key) a b fuel l i j).1 p <
          kAt key (partLoop (ltK key) a b fuel l i j).1 a) ∧
      (∀ q, (partLoop (ltK key) a b fuel l i j).2 < q → q < b →
        kAt key (partLoop (ltK key) a b fuel l i j).1 a ≤
          kAt key (partLoop (ltK key) a b fuel l i j).1 q)
  | 0, l, i, j, hab, hblen, hai, hij2, haj, hjb, hfuel, hL, hR => by
      have hieq : i = j + 2 := by omega
      simp only [partLoop]
      refine ⟨FrameOn.refl _ _ l, List.Perm.refl l, haj, hjb, ?_, hR⟩
      intro p h1 h2
      exact hL p h1 (by omega)
  | fuel + 1, l, i, j, hab, hblen, hai, hij2, haj, hjb, hfuel, hL, hR => by
      simp only [partLoop]
      have hsI := scanI_spec key a j b l i (by omega) (by omega) (by omega)
      set i1 := scanI (ltK key) a j b l i with hi1def
      have hi1b : i1 ≤ j + 2 := by rcases hsI.2.1 with h | h <;> omega
      have hsJ := scanJ_spec key a i1 b l j (by omega) (by omega) (by omega)
        (by omega)
      set j1 := scanJ (ltK key) a i1 b l j with hj1def
      have hL1 : ∀ p, a + 1 ≤ p → p < i1 → kAt key l p < kAt key l a := by
        intro p h1 h2
        by_cases hp : p < i
        · exact hL p h1 hp
        · exact hsI.2.2.1 p (by omega) h2
      have hR1 : ∀ q, j1 < q → q < b → kAt key l a ≤ kAt key l q := by
        intro q h1 h2
        by_cases hq : j < q
        · exact hR q hq h2
        · exact hsJ.2.2.1 q h1 (by omega)
      split
      case isTrue hcross =>
        have hj1a : a ≤ j1 := by
          by_cases hcase : i1 - 1 ≤ j
          · have := hsJ.2.1 hcase
            omega
          · have : i1 = i := by rcases hsI.2.1 with h | h <;> omega
            have hstop : scanJ (ltK key) a i1 b l j = j :=
              scanJ_stop (ltK key) a i1 b l j (by omega)
            rw [← hj1def] at hstop
            omega
        refine ⟨FrameOn.refl _ _ l, List.Perm.refl l, hj1a, by omega, ?_, hR1⟩
        intro p h1 h2
        exact hL1 p h1 (by omega)
      case isFalse hcross =>
        have hi1j1 : i1 ≤ j1 := by omega
        have hj1j : j1 ≤ j := hsJ.1
        have hlow : kAt key l j1 < kAt key l a := hsJ.2.2.2 hi1j1
        have hhigh : kAt key l a ≤ kAt key l i1 := hsI.2.2.2 (by omega)
        have hi1len : i1 < l.length := by omega
        have hj1len : j1 < l.length := by omega
        have hswlen : (swapT l i1 j1).length = l.length := swapT_length l _ _
        have hka : kAt key (swapT l i1 j1) a = kAt key l a :=
          kAt_swapT_ne key l (by omega) (by omega)
        have ih := partLoop_spec key a b fuel (swapT l i1 j1) (i1 + 1) (j1 - 1)
          hab (by omega) (by omega) (by omega) (by omega) (by omega) (by omega)
          (by
            intro p h1 h2
            rw [hka]
            by_cases hp : p = i1
            · subst hp
              rw [kAt_swapT_fst key l hi1len hj1len]
              exact hlow
            · rw [kAt_swapT_ne key l hp (by omega)]
              exact hL1 p h1 (by omega))
          (by
            intro q h1 h2
            rw [hka]
            by_cases hq : q = j1
            · subst hq
              rw [kAt_swapT_snd key l hi1len hj1len]
              exact hhigh
            · rw [kAt_swapT_ne key l (by omega) hq]
              exact hR1 q (by omega) h2)
        refine ⟨FrameOn.trans (swapT_frame l (by omega) (by omega) (by omega)
            (by omega)) ih.1,
          ih.2.1.trans (swapT_perm l i1 j1), ih.2.2.1, ih.2.2.2.1,
          ih.2.2.2.2.1, ih.2.2.2.2.2⟩

/-- partition_func: frame, pivot-position bounds, and the two-sided key
split around the final pivot position. -/
theorem partitionGo_spec {α : Type} (key : α → Nat) (l : List α)
    (a b pivot : Nat) (hab : a < b) (hblen : b ≤ l.length)
    (hap : a ≤ pivot) (hpb : pivot < b) :
    FrameOn a b l (partitionGo (ltK key) l a b pivot).1 ∧
    a ≤ (partitionGo (ltK key) l a b pivot).2.1 ∧
    (partitionGo (ltK key) l a b pivot).2.1 < b ∧
    (∀ p, a ≤ p → p < (partitionGo (ltK key) l a b pivot).2.1 →
      kAt key (partitionGo (ltK key) l a b pivot).1 p <
        kAt key (partitionGo (ltK key) l a b pivot).1
          (partitionGo (ltK key) l a b pivot).2.1) ∧
    (∀ q, (partitionGo (ltK key) l a b pivot).2.1 < q → q < b →
      kAt key (partitionGo (ltK key) l a b pivot).1
          (partitionGo (ltK key) l a b pivot).2.1 ≤
        kAt key (partitionGo (ltK key) l a b pivot).1 q) := by
  simp only [partitionGo]
  have hlen0 : (swapT l a pivot).length = l.length := swapT_length l a pivot
  set l0 := swapT l a pivot with hl0def
  have hfr0 : FrameOn a b l l0 := swapT_frame l (by omega) (by omega) hap hpb
  have halen : a < l0.length := by omega
  have hsI := scanI_spec key a (b - 1) b l0 (a + 1) (by omega) halen (by omega)
  set i1 := scanI (ltK key) a (b - 1) b l0 (a + 1) with hi1def
  have hi1lo : a + 1 ≤ i1 := hsI.1
  have hi1hi : i1 ≤ b := by rcases hsI.2.1 with h | h <;> omega
  have hsJ := scanJ_spec key a i1 b l0 (b - 1) (by omega) (by omega) halen
    (by omega)
  set j1 := scanJ (ltK key) a i1 b l0 (b - 1) with hj1def
  have hj1hi : j1 ≤ b - 1 := hsJ.1
  have hj1lo : a ≤ j1 := by
    have := hsJ.2.1 (by omega)
    omega
  split
  case isTrue hcross =>
    simp only []
    have hj1len : j1 < l.length := by omega
    have hfr2 : FrameOn a b l0 (swapT l0 j1 a) :=
      swapT_frame l0 hj1lo (by omega) (Nat.le_refl a) (by omega)
    have hkmid : kAt key (swapT l0 j1 a) j1 = kAt key l0 a :=
      kAt_swapT_fst key l0 (by omega) (by omega)
    refine ⟨FrameOn.trans hfr0 hfr2, hj1lo, by omega, ?_, ?_⟩
    · intro p hp1 hp2
      rw [hkmid]
      rcases Nat.eq_or_lt_of_le hp1 with rfl | hp1'
      · rw [kAt_swapT_snd key l0 (by omega) (by omega)]
        exact hsI.2.2.1 j1 (by omega) (by omega)
      · rw [kAt_swapT_ne key l0 (by omega) (by omega)]
        exact hsI.2.2.1 p (by omega) (by omega)
    · intro q hq1 hq2
      rw [hkmid, kAt_swapT_ne key l0 (by omega) (by omega)]
      exact hsJ.2.2.1 q hq1 (by omega)
  case isFalse hcross =>
    simp only []
    have hi1j1 : i1 ≤ j1 := by omega
    have hi1len : i1 < l0.length := by omega
    have hj1len : j1 < l0.length := by omega
    have hka2 : kAt key (swapT l0 i1 j1) a = kAt key l0 a :=
      kAt_swapT_ne key l0 (by omega) (by omega)
    have hpl := partLoop_spec key a b b (swapT l0 i1 j1) (i1 + 1) (j1 - 1)
      hab (by rw [swapT_length]; omega) (by omega) (by omega) (by omega)
      (by omega) (by omega)
      (by
        intro p h1 h2
        rw [hka2]
        by_cases hp : p = i1
        · subst hp
          rw [kAt_swapT_fst key l0 hi1len hj1len]
          exact hsJ.2.2.2 hi1j1
        · rw [kAt_swapT_ne key l0 hp (by omega)]
          exact hsI.2.2.1 p (by omega) (by omega))
      (by
        intro q h1 h2
        rw [hka2]
        by_cases hq : q = j1
        · subst hq
          rw [kAt_swapT_snd key l0 hi1len hj1len]
          exact hsI.2.2.2 (by omega)
        · rw [kAt_swapT_ne key l0 (by omega) hq]
          exact hsJ.2.2.1 q (by omega) (by omega))
    set r := partLoop (ltK key) a b b (swapT l0 i1 j1) (i1 + 1) (j1 - 1)
      with hrdef
    have hrlen : r.1.length = l.length := by
      rw [hpl.1.1, swapT_length]
      omega
    have hka3 : kAt key r.1 a = kAt key l0 a := by
      rw [frame_kAt hpl.1 (Or.inl (by omega)), hka2]
    have hfr3 : FrameOn a b l0 (swapT l0 i1 j1) :=
      swapT_frame l0 (by omega) (by omega) (by omega) (by omega)
    have hfinalfr : FrameOn a b r.1 (swapT r.1 r.2 a) :=
      swapT_frame r.1 hpl.2.2.1 hpl.2.2.2.1 (Nat.le_refl a) (by omega)
    have hkmid : kAt key (swapT r.1 r.2 a) r.2 = kAt key r.1 a :=
      kAt_swapT_fst key r.1 (by omega) (by omega)
    refine ⟨FrameOn.trans hfr0 (FrameOn.trans hfr3
        (FrameOn.trans (FrameOn.widen (by omega) (Nat.le_refl b) hpl.1)
          hfinalfr)),
      hpl.2.2.1, hpl.2.2.2.1, ?_, ?_⟩
    · intro p hp1 hp2
      rw [hkmid]
      rcases Nat.eq_or_lt_of_le hp1 with rfl | hp1'
      · rw [kAt_swapT_snd key r.1 (by omega) (by omega)]
        exact hpl.2.2.2.2.1 r.2 (by omega) (Nat.le_refl _)
      · rw [kAt_swapT_ne key r.1 (by omega) (by omega)]
        exact hpl.2.2.2.2.1 p (by omega) (by omega)
    · intro q hq1 hq2
      rw [hkmid, kAt_swapT_ne key r.1 (by omega) (by omega)]
      exact hpl.2.2.2.2.2 q hq1 hq2

/-- The partitionEqual i-cursor scan skips keys at or below the pivot key
and stops on a key strictly above it. -/
theorem scanIEq_spec {α : Type} (key : α → Nat) (a j : Nat) :
    ∀ (fuel : Nat) (l : List α) (i : Nat), j + 2 - i ≤ fuel →
      a < l.length → j < l.length →
      i ≤ scanIEq (ltK key) a j fuel l i ∧
      (scanIEq (ltK key) a j fuel l i ≤ j + 1 ∨ scanIEq (ltK key) a j fuel l i = i) ∧
      (∀ p, i ≤ p → p < scanIEq (ltK key) a j fuel l i →
        kAt key l p ≤ kAt key l a) ∧
      (scanIEq (ltK key) a j fuel l i ≤ j →
        kAt key l a < kAt key l (scanIEq (ltK key) a j fuel l i))
  | 0, l, i, hfuel, hal, hjl => by
      refine ⟨Nat.le_refl i, Or.inr rfl, ?_, ?_⟩
      · intro p h1 h2
        simp only [scanIEq] at h2
        omega
      · intro h
        simp only [scanIEq] at h
        omega
  | fuel + 1, l, i, hfuel, hal, hjl => by
      unfold scanIEq
      split
      case isTrue hcond =>
        have hfalse : ltIdx (ltK key) l a i = false := (Bool.not_eq_true _) ▸ hcond.2
        have hskip : kAt key l i ≤ kAt key l a :=
          ltIdx_ltK_false hal (by omega) hfalse
        have ih := scanIEq_spec key a j fuel l (i + 1) (by omega) hal hjl
        refine ⟨by omega, ?_, ?_, ih.2.2.2⟩
        · left
          rcases ih.2.1 with h | h
          · exact h
          · omega
        · intro p h1 h2
          rcases Nat.eq_or_lt_of_le h1 with rfl | h1'
          · exact hskip
          · exact ih.2.2.1 p (by omega) h2
      case isFalse hcond =>
        refine ⟨Nat.le_refl i, Or.inr rfl, by intro p h1 h2; omega, ?_⟩
        intro hij
        rcases Decidable.not_and_iff_or_not.mp hcond with h | h
        · omega
        · have htrue : ltIdx (ltK key) l a i = true := not_not.mp h
          exact ltIdx_ltK_true htrue

/-- The partitionEqual j-cursor scan skips keys strictly above the pivot
key and stops on a key at or below it. -/
theorem scanJEq_spec {α : Type} (key : α → Nat) (a i : Nat) :
    ∀ (fuel : Nat) (l : List α) (j : Nat), j + 2 - i ≤ fuel → 1 ≤ i →
      a < l.length → j < l.length →
      scanJEq (ltK key) a i fuel l j ≤ j ∧
      (i - 1 ≤ j → i - 1 ≤ scanJEq (ltK key) a i fuel l j) ∧
      (∀ q, scanJEq (ltK key) a i fuel l j < q → q ≤ j →
        kAt key l a < kAt key l q) ∧
      (i ≤ scanJEq (ltK key) a i fuel l j →
        kAt key l (scanJEq (ltK key) a i fuel l j) ≤ kAt key l a)
  | 0, l, j, hfuel, hi, hal, hjl => by
      refine ⟨Nat.le_refl j, by omega, ?_, ?_⟩
      · intro q h1 h2
        simp only [scanJEq] at h1
        omega
      · intro h
        simp only [scanJEq] at h
        omega
  | fuel + 1, l, j, hfuel, hi, hal, hjl => by
      unfold scanJEq
      split
      case isTrue hcond =>
        have hij : i ≤ j := hcond.1
        have hskip : kAt key l a < kAt key l j := ltIdx_ltK_true hcond.2
        have ih := scanJEq_spec key a i fuel l (j - 1) (by omega) hi hal (by omega)
        refine ⟨by omega, by omega, ?_, ih.2.2.2⟩
        intro q h1 h2
        rcases Nat.eq_or_lt_of_le h2 with rfl | h2'
        · exact hskip
        · exact ih.2.2.1 q h1 (by omega)
      case isFalse hcond =>
        refine ⟨Nat.le_refl j, by omega, by intro q h1 h2; omega, ?_⟩
        intro hij
        rcases Decidable.not_and_iff_or_not.mp hcond with h | h
        · omega
        · have hfalse : ltIdx (ltK key) l a j = false := (Bool.not_eq_true _) ▸ h
          exact ltIdx_ltK_false hal hjl hfalse

/-- The main partitionEqual loop: keys at or below the pivot key collect on
[a+1, i), keys strictly above it on (j, b); the returned i splits them. -/
theorem partEqLoop_spec {α : Type} (key : α → Nat) (a b : Nat) :
    ∀ (fuel : Nat) (l : List α) (i j : Nat),
      a < b → b ≤ l.length → a + 1 ≤ i → i ≤ j + 2 → a ≤ j → j < b →
      j + 2 - i ≤ fuel →
      (∀ p, a + 1 ≤ p → p < i → kAt key l p ≤ kAt key l a) →
      (∀ q, j < q → q < b → kAt key l a < kAt key l q) →
      FrameOn (a + 1) b l (partEqLoop (ltK key) a b fuel l i j).1 ∧
      (partEqLoop (ltK key) a b fuel l i j).1.Perm l ∧
      a + 1 ≤ (partEqLoop (ltK key) a b fuel l i j).2 ∧
      (∀ p, a + 1 ≤ p → p < (partEqLoop (ltK key) a b fuel l i j).2 → p < b →
        kAt key (partEqLoop (ltK key) a b fuel l i j).1 p ≤
          kAt key (partEqLoop (ltK key) a b fuel l i j).1 a) ∧
      (∀ q, (partEqLoop (ltK key) a b fuel l i j).2 ≤ q → q < b →
        kAt key (partEqLoop (ltK key) a b fuel l i j).1 a <
          kAt key (partEqLoop (ltK key) a b fuel l i j).1 q)
  | 0, l, i, j, hab, hblen, hai, hij2, haj, hjb, hfuel, hL, hR => by
      have hieq : i = j + 2 := by omega
      simp only [partEqLoop]
      refine ⟨FrameOn.refl _ _ l, List.Perm.refl l, hai, ?_, ?_⟩
      · intro p h1 h2 h3
        exact hL p h1 h2
      · intro q h1 h2
        exact hR q (by omega) h2
  | fuel + 1, l, i, j, hab, hblen, hai, hij2, haj, hjb, hfuel, hL, hR => by
      simp only [partEqLoop]
      have hsI := scanIEq_spec key a j b l i (by omega) (by omega) (by omega)
      set i1 := scanIEq (ltK key) a j b l i with hi1def
      have hi1b : i1 ≤ j + 2 := by rcases hsI.2.1 with h | h <;> omega
      have hsJ := scanJEq_spec key a i1 b l j (by omega) (by omega)
        (by omega) (by omega)
      set j1 := scanJEq (ltK key) a i1 b l j with hj1def
      have hL1 : ∀ p, a + 1 ≤ p → p < i1 → kAt key l p ≤ kAt key l a := by
        intro p h1 h2
        by_cases hp : p < i
        · exact hL p h1 hp
        · exact hsI.2.2.1 p (by omega) h2
      have hR1 : ∀ q, j1 < q → q < b → kAt key l a < kAt key l q := by
        intro q h1 h2
        by_cases hq : j < q
        · exact hR q hq h2
        · exact hsJ.2.2.1 q h1 (by omega)
      split
      case isTrue hcross =>
        refine ⟨FrameOn.refl _ _ l, List.Perm.refl l, by omega, ?_, ?_⟩
        · intro p h1 h2 h3
          exact hL1 p h1 h2
        · intro q h1 h2
          exact hR1 q (by omega) h2
      case isFalse hcross =>
        have hi1j1 : i1 ≤ j1 := by omega
        have hj1j : j1 ≤ j := hsJ.1
        have hhigh : kAt key l a < kAt key l i1 := hsI.2.2.2 (by omega)
        have hlow : kAt key l j1 ≤ kAt key l a := hsJ.2.2.2 hi1j1
        have hi1len : i1 < l.length := by omega
        have hj1len : j1 < l.length := by omega
        have hka : kAt key (swapT l i1 j1) a = kAt key l a :=
          kAt_swapT_ne key l (by omega) (by omega)
        have ih := partEqLoop_spec key a b fuel (swapT l i1 j1) (i1 + 1) (j1 - 1)
          hab (by rw [swapT_length]; omega) (by omega) (by omega) (by omega)
          (by omega) (by omega)
          (by
            intro p h1 h2
            rw [hka]
            by_cases hp : p = i1
            · subst hp
              rw [kAt_swapT_fst key l hi1len hj1len]
              exact hlow
            · rw [kAt_swapT_ne key l hp (by omega)]
              exact hL1 p h1 (by omega))
          (by
            intro q h1 h2
            rw [hka]
            by_cases hq : q = j1
            · subst hq
              rw [kAt_swapT_snd key l hi1len hj1len]
              exact hhigh
            · rw [kAt_swapT_ne key l (by omega) hq]
              exact hR1 q (by omega) h2)
        refine ⟨FrameOn.trans (swapT_frame l (by omega) (by omega) (by omega)
            (by omega)) ih.1,
          ih.2.1.trans (swapT_perm l i1 j1), ih.2.2.1, ih.2.2.2.1, ih.2.2.2.2⟩

/-- partitionEqual_func: frame, the pivot key lands at a, keys at or below
it fill [a+1, newpivot) and keys strictly above it fill [newpivot, b). -/
theorem partitionEqualGo_spec {α : Type} (key : α → Nat) (l : List α)
    (a b pivot : Nat) (hab : a < b) (hblen : b ≤ l.length)
    (hap : a ≤ pivot) (hpb : pivot < b) :
    FrameOn a b l (partitionEqualGo (ltK key) l a b pivot).1 ∧
    a + 1 ≤ (partitionEqualGo (ltK key) l a b pivot).2 ∧
    kAt key (partitionEqualGo (ltK key) l a b pivot).1 a = kAt key l pivot ∧
    (∀ p, a + 1 ≤ p → p < (partitionEqualGo (ltK key) l a b pivot).2 → p < b →
      kAt key (partitionEqualGo (ltK key) l a b pivot).1 p ≤
        kAt key (partitionEqualGo (ltK key) l a b pivot).1 a) ∧
    (∀ q, (partitionEqualGo (ltK key) l a b pivot).2 ≤ q → q < b →
      kAt key (partitionEqualGo (ltK key) l a b pivot).1 a <
        kAt key (partitionEqualGo (ltK key) l a b pivot).1 q) := by
  simp only [partitionEqualGo]
  have hlen0 : (swapT l a pivot).length = l.length := swapT_length l a pivot
  set l0 := swapT l a pivot with hl0
  have hpl := partEqLoop_spec key a b b l0 (a + 1) (b - 1) hab (by omega)
    (Nat.le_refl _) (by omega) (by omega) (by omega) (by omega)
    (by intro p h1 h2; exfalso; omega)
    (by intro q h1 h2; exfalso; omega)
  have hka : kAt key (partEqLoop (ltK key) a b b l0 (a + 1) (b - 1)).1 a =
      kAt key l pivot := by
    rw [frame_kAt hpl.1 (Or.inl (by omega)), hl0,
      kAt_swapT_fst key l (by omega) (by omega)]
  exact ⟨FrameOn.trans (swapT_frame l (Nat.le_refl a) hab hap hpb)
      (FrameOn.widen (by omega) (Nat.le_refl b) hpl.1),
    hpl.2.2.1, hka, hpl.2.2.2.1, hpl.2.2.2.2⟩

/-! ### partialInsertionSort sorts the range when it reports true -/

/-- The partialInsertionSort scan advances over adjacent-ordered pairs and
stops at b or on the first inversion. -/
theorem scanUp_spec {α : Type} (key : α → Nat) (b : Nat) :
    ∀ (fuel : Nat) (l : List α) (i : Nat), b - i ≤ fuel → b ≤ l.length → 1 ≤ i →
      i ≤ scanUp (ltK key) b fuel l i ∧
      (scanUp (ltK key) b fuel l i ≤ b ∨ scanUp (ltK key) b fuel l i = i) ∧
      (∀ p, i ≤ p → p < scanUp (ltK key) b fuel l i →
        kAt key l (p - 1) ≤ kAt key l p) ∧
      (scanUp (ltK key) b fuel l i < b →
        kAt key l (scanUp (ltK key) b fuel l i) <
          kAt key l (scanUp (ltK key) b fuel l i - 1))
  | 0, l, i, hfuel, hblen, hi => by
      refine ⟨Nat.le_refl i, Or.inr rfl, ?_, ?_⟩
      · intro p h1 h2
        simp only [scanUp] at h2
        omega
      · intro h
        simp only [scanUp] at h
        omega
  | fuel + 1, l, i, hfuel, hblen, hi => by
      unfold scanUp
      split
      case isTrue hcond =>
        have hfalse : ltIdx (ltK key) l i (i - 1) = false :=
          (Bool.not_eq_true _) ▸ hcond.2
        have hadj : kAt key l (i - 1) ≤ kAt key l i :=
          ltIdx_ltK_false (by omega) (by omega) hfalse
        have ih := scanUp_spec key b fuel l (i + 1) (by omega) hblen (by omega)
        refine ⟨by omega, ?_, ?_, ih.2.2.2⟩
        · rcases ih.2.1 with h | h
          · exact Or.inl h
          · exact Or.inl (by omega)
        · intro p h1 h2
          rcases Nat.eq_or_lt_of_le h1 with rfl | h1'
          · exact hadj
          · exact ih.2.2.1 p (by omega) h2
      case isFalse hcond =>
        refine ⟨Nat.le_refl i, Or.inr rfl, by intro p h1 h2; omega, ?_⟩
        intro hib
        rcases Decidable.not_and_iff_or_not.mp hcond with h | h
        · omega
        · exact ltIdx_ltK_true (not_not.mp h)

/-- The left shift loop inserts the moving element at jc into the sorted
prefix [a, jc); the driver invariant keeps it from crossing below a. -/
theorem bubbleLeft_spec {α : Type} (key : α → Nat) (a e : Nat) :
    ∀ (jc : Nat) (l : List α), e ≤ l.length → a ≤ jc → jc < e →
      RS key l a jc →
      RS key l (jc + 1) e →
      (∀ p q, a ≤ p → p < jc → jc + 1 ≤ q → q < e →
        kAt key l p ≤ kAt key l q) →
      (∀ q, jc + 1 ≤ q → q < e → kAt key l jc ≤ kAt key l q) →
      (0 < a → ∀ p, a ≤ p → p < e → kAt key l (a - 1) ≤ kAt key l p) →
      RS key (bubbleLeft (ltK key) l jc) a e ∧
        FrameOn a e l (bubbleLeft (ltK key) l jc)
  | 0, l, hlen, haj, hje, hA, hB, hC, hD, hlow => by
      have ha0 : a = 0 := by omega
      subst ha0
      refine ⟨?_, FrameOn.refl 0 e l⟩
      show RS key l 0 e
      intro i j hi hij hj
      rcases Nat.eq_zero_or_pos i with rfl | hipos
      · exact hD j (by omega) hj
      · exact hB i j (by omega) hij hj
  | j + 1, l, hlen, haj, hje, hA, hB, hC, hD, hlow => by
      unfold bubbleLeft
      split
      case isTrue hcond =>
        have hkey : kAt key l (j + 1) < kAt key l j := ltIdx_ltK_true hcond
        by_cases haj' : a ≤ j
        · have hj1len : j + 1 < l.length := by omega
          have hjlen : j < l.length := by omega
          have hswlen : (swapT l (j + 1) j).length = l.length := swapT_length l _ _
          have hfst : kAt key (swapT l (j + 1) j) (j + 1) = kAt key l j :=
            kAt_swapT_fst key l hj1len hjlen
          have hsnd : kAt key (swapT l (j + 1) j) j = kAt key l (j + 1) :=
            kAt_swapT_snd key l hj1len hjlen
          have hne : ∀ k, k ≠ j + 1 → k ≠ j →
              kAt key (swapT l (j + 1) j) k = kAt key l k :=
            fun k h1 h2 => kAt_swapT_ne key l h1 h2
          have ih := bubbleLeft_spec key a e j (swapT l (j + 1) j)
            (by omega) haj' (by omega)
            (by
              intro p q hp hpq hq
              rw [hne p (by omega) (by omega), hne q (by omega) (by omega)]
              exact hA p q hp hpq (by omega))
            (by
              intro p q hp hpq hq
              rcases Nat.eq_or_lt_of_le hp with rfl | hp'
              · rw [hfst, hne q (by omega) (by omega)]
                exact hC j q haj' (by omega) (by omega) hq
              · rw [hne p (by omega) (by omega), hne q (by omega) (by omega)]
                exact hB p q (by omega) hpq hq)
            (by
              intro p q hp hpq hq1 hq2
              rcases Nat.eq_or_lt_of_le hq1 with hq1' | hq1'
              · rw [hne p (by omega) (by omega), ← hq1', hfst]
                exact hA p j hp (by omega) (by omega)
              · rw [hne p (by omega) (by omega), hne q (by omega) (by omega)]
                exact hC p q hp (by omega) (by omega) hq2)
            (by
              intro q hq1 hq2
              rcases Nat.eq_or_lt_of_le hq1 with hq1' | hq1'
              · rw [hsnd, ← hq1', hfst]
                omega
              · rw [hsnd, hne q (by omega) (by omega)]
                exact hD q (by omega) hq2)
            (by
              intro ha p hp1 hp2
              rw [hne (a - 1) (by omega) (by omega)]
              by_cases hp : p = j + 1
              · subst hp
                rw [hfst]
                exact hlow ha j (by omega) (by omega)
              · by_cases hp' : p = j
                · rw [hp', hsnd]
                  exact hlow ha (j + 1) (by omega) (by omega)
                · rw [hne p hp hp']
                  exact hlow ha p hp1 hp2)
          refine ⟨ih.1, FrameOn.trans ?_ ih.2⟩
          exact swapT_frame l (by omega) (by omega) haj' (by omega)
        · exfalso
          have haeq : a = j + 1 := by omega
          have hle := hlow (by omega) a (Nat.le_refl a) (by omega)
          rw [haeq] at hle
          have : j + 1 - 1 = j := by omega
          rw [this] at hle
          omega
      case isFalse hcond =>
        refine ⟨?_, FrameOn.refl a e l⟩
        have hfalse : ltIdx (ltK key) l (j + 1) j = false :=
          (Bool.not_eq_true _) ▸ hcond
        have hstop : kAt key l j ≤ kAt key l (j + 1) :=
          ltIdx_ltK_false (l := l) (i := j + 1) (j := j) (by omega) (by omega) hfalse
        intro i j' hi hij hj'
        rcases Nat.lt_trichotomy j' (j + 1) with h1 | h1 | h1
        · exact hA i j' hi hij (by omega)
        · subst h1
          rcases Nat.lt_trichotomy i j with h2 | h2 | h2
          · exact le_trans (hA i j hi h2 (by omega)) hstop
          · subst h2
            exact hstop
          · omega
        · rcases Nat.lt_trichotomy i (j + 1) with h2 | h2 | h2
          · exact hC i j' hi h2 (by omega) hj'
          · subst h2
            exact hD j' (by omega) hj'
          · exact hB i j' (by omega) hij hj'

/-- The right shift loop only touches positions from j - 1 up. -/
theorem bubbleRight_frame {α : Type} (lt : α → α → Bool) (b : Nat) :
    ∀ (fuel : Nat) (l : List α) (j : Nat), 1 ≤ j →
      FrameOn (j - 1) b l (bubbleRight lt b fuel l j)
  | 0, l, j, hj => by
      simp only [bubbleRight]
      exact FrameOn.refl _ _ l
  | fuel + 1, l, j, hj => by
      unfold bubbleRight
      split
      case isTrue hcond =>
        have h1 : FrameOn (j - 1) b l (swapT l j (j - 1)) :=
          swapT_frame l (by omega) hcond.1 (Nat.le_refl _) (by omega)
        have h2 := bubbleRight_frame lt b fuel (swapT l j (j - 1)) (j + 1)
          (by omega)
        exact FrameOn.trans h1 (FrameOn.widen (by omega) (Nat.le_refl b) h2)
      case isFalse hcond =>
        exact FrameOn.refl _ _ l

/-- The partialInsertionSort step loop: it never touches anything outside
[a, b) (given the driver invariant), and when it reports true the whole
range is sorted. -/
theorem partialInsGo_spec {α : Type} (key : α → Nat) (a b : Nat) :
    ∀ (steps : Nat) (l : List α) (i : Nat), b ≤ l.length → a + 1 ≤ i → i ≤ b →
      (∀ p, a + 1 ≤ p → p < i → kAt key l (p - 1) ≤ kAt key l p) →
      HInv key l a b →
      FrameOn a b l (partialInsGo (ltK key) a b steps l i).1 ∧
      ((partialInsGo (ltK key) a b steps l i).2 = true →
        RS key (partialInsGo (ltK key) a b steps l i).1 a b)
  | 0, l, i, hblen, hai, hib, hAdj, hH => by
      simp only [partialInsGo]
      refine ⟨FrameOn.refl a b l, ?_⟩
      intro h
      simp at h
  | steps + 1, l, i, hblen, hai, hib, hAdj, hH => by
      simp only [partialInsGo]
      have hscan := scanUp_spec key b b l i (by omega) hblen (by omega)
      set i1 := scanUp (ltK key) b b l i with hi1def
      have hi1b : i1 ≤ b := by rcases hscan.2.1 with h | h <;> omega
      have hai1 : a + 1 ≤ i1 := by omega
      have hAdj1 : ∀ p, a + 1 ≤ p → p < i1 → kAt key l (p - 1) ≤ kAt key l p := by
        intro p h1 h2
        by_cases hp : p < i
        · exact hAdj p h1 hp
        · exact hscan.2.2.1 p (by omega) h2
      split
      case isTrue heq =>
        refine ⟨FrameOn.refl a b l, fun _ => ?_⟩
        exact RS_of_adjacent (fun p h1 h2 => hAdj1 p h1 (by omega))
      case isFalse hne =>
        have hi1lt : i1 < b := by omega
        split
        case isTrue h50 =>
          refine ⟨FrameOn.refl a b l, ?_⟩
          intro h
          simp at h
        case isFalse h50 =>
          have hstop : kAt key l i1 < kAt key l (i1 - 1) := hscan.2.2.2 hi1lt
          have hRSl : RS key l a i1 := RS_of_adjacent hAdj1
          set l1 := swapT l i1 (i1 - 1) with hl1
          have hl1len : l1.length = l.length := swapT_length l _ _
          have hfr1 : FrameOn a b l l1 :=
            swapT_frame l (by omega) hi1lt (by omega) (by omega)
          have hfst : kAt key l1 i1 = kAt key l (i1 - 1) :=
            kAt_swapT_fst key l (by omega) (by omega)
          have hsnd : kAt key l1 (i1 - 1) = kAt key l i1 :=
            kAt_swapT_snd key l (by omega) (by omega)
          have hne1 : ∀ k, k ≠ i1 → k ≠ i1 - 1 → kAt key l1 k = kAt key l k :=
            fun k h1 h2 => kAt_swapT_ne key l h1 h2
          have hH1 : HInv key l1 a b :=
            HInv_preserved (swapT_perm l _ _) hfr1 hblen hH
          set l2 := if i1 - a ≥ 2 then bubbleLeft (ltK key) l1 (i1 - 1) else l1
            with hl2
          have hmain2 : RS key l2 a (i1 + 1) ∧ FrameOn a b l1 l2 ∧ l2.Perm l1 := by
            rw [hl2]
            by_cases hcase : i1 - a ≥ 2
            · rw [if_pos hcase]
              have hframe0 : FrameOn (i1 - 1) (i1 + 1) l (swapT l i1 (i1 - 1)) :=
                swapT_frame l (by omega) (by omega) (by omega) (by omega)
              have hA : RS key l1 a (i1 - 1) := by
                rw [hl1]
                refine RS_of_frame hframe0 (Or.inl (Nat.le_refl _)) ?_
                exact fun p q hp hpq hq => hRSl p q hp hpq (by omega)
              have hbl := bubbleLeft_spec key a (i1 + 1) (i1 - 1) l1
                (by omega) (by omega) (by omega) hA
                (by
                  have h1 : i1 - 1 + 1 = i1 := by omega
                  rw [h1]
                  exact RS.empty (by omega))
                (by
                  intro p q hp hpq hq1 hq2
                  have hq : q = i1 := by omega
                  rw [hq, hfst, hne1 p (by omega) (by omega)]
                  exact hRSl p (i1 - 1) hp (by omega) (by omega))
                (by
                  intro q hq1 hq2
                  have hq : q = i1 := by omega
                  rw [hq, hfst, hsnd]
                  omega)
                (by
                  intro ha p hp1 hp2
                  exact hH1 ha p hp1 (by omega))
              exact ⟨hbl.1, FrameOn.widen (Nat.le_refl a) (by omega) hbl.2,
                bubbleLeft_perm (ltK key) (i1 - 1) l1⟩
            · rw [if_neg hcase]
              have hieq : i1 = a + 1 := by omega
              have hii : i1 - 1 = a := by omega
              refine ⟨?_, FrameOn.refl a b l1, List.Perm.refl l1⟩
              intro p q hp hpq hq
              have hp' : p = a := by omega
              have hq' : q = a + 1 := by omega
              rw [hp', hq']
              have e1 : kAt key l1 a = kAt key l i1 := by
                rw [← hii]
                exact hsnd
              have e2 : kAt key l1 (a + 1) = kAt key l (i1 - 1) := by
                rw [← hieq]
                exact hfst
              rw [e1, e2]
              omega
          have hH2 : HInv key l2 a b :=
            HInv_preserved hmain2.2.2 hmain2.2.1 (by omega) hH1
          set l3 := if b - i1 ≥ 2 then bubbleRight (ltK key) b b l2 (i1 + 1) else l2
            with hl3
          have hmain3 : FrameOn i1 b l2 l3 ∧ l3.Perm l2 := by
            by_cases hcase : b - i1 ≥ 2
            · rw [hl3, if_pos hcase]
              constructor
              · have := bubbleRight_frame (ltK key) b b l2 (i1 + 1) (by omega)
                have h1 : i1 + 1 - 1 = i1 := by omega
                rw [h1] at this
                exact this
              · exact bubbleRight_perm (ltK key) b b l2 (i1 + 1)
            · rw [hl3, if_neg hcase]
              exact ⟨FrameOn.refl _ _ l2, List.Perm.refl l2⟩
          have hH3 : HInv key l3 a b :=
            HInv_preserved hmain3.2 (FrameOn.widen (by omega) (Nat.le_refl b)
              hmain3.1) (by have := hmain2.2.2.length_eq; omega) hH2
          have hAdj3 : ∀ p, a + 1 ≤ p → p < i1 →
              kAt key l3 (p - 1) ≤ kAt key l3 p := by
            intro p h1 h2
            rw [frame_kAt hmain3.1 (Or.inl (by omega)),
              frame_kAt hmain3.1 (Or.inl (by omega))]
            exact hmain2.1 (p - 1) p (by omega) (by omega) (by omega)
          have hlen3 : l3.length = l.length := by
            have e1 := hmain3.2.length_eq
            have e2 := hmain2.2.2.length_eq
            omega
          have ih := partialInsGo_spec key a b steps l3 i1 (by omega) hai1
            (by omega) hAdj3 hH3
          refine ⟨FrameOn.trans hfr1 (FrameOn.trans hmain2.2.1
            (FrameOn.trans (FrameOn.widen (by omega) (Nat.le_refl b) hmain3.1)
              ih.1)), ih.2⟩

/-- The optional partial insertion sort of the pdqsort iteration: frame
and, on a true flag, full sortedness of the range. -/
theorem pdqMaybePartial_spec {α : Type} (key : α → Nat) (l : List α)
    (a b : Nat) (d : Bool) (hab : a + 1 ≤ b) (hblen : b ≤ l.length)
    (hH : HInv key l a b) :
    FrameOn a b l (pdqMaybePartial (ltK key) l a b d).1 ∧
    ((pdqMaybePartial (ltK key) l a b d).2 = true →
      RS key (pdqMaybePartial (ltK key) l a b d).1 a b) := by
  unfold pdqMaybePartial
  split
  · unfold partialInsertionSortGo
    exact partialInsGo_spec key a b 5 l (a + 1) hblen (Nat.le_refl _) hab
      (by intro p h1 h2; exfalso; omega) hH
  · refine ⟨FrameOn.refl a b l, ?_⟩
    intro h
    simp at h

/-! ### Heapsort sorts its range -/

/-- kAt only depends on the optional element at the position. -/
theorem kAt_congr {α : Type} {key : α → Nat} {l l' : List α} {k : Nat}
    (h : l'[k]? = l[k]?) : kAt key l' k = kAt key l k := by
  unfold kAt
  rw [h]

/-- c lies in the subtree rooted at root of the implicit binary heap
(the parent of c is (c - 1) / 2). -/
def isDesc (root : Nat) : Nat → Bool
  | c =>
      if h1 : c = root then true
      else if h2 : c ≤ root then false
      else isDesc root ((c - 1) / 2)
termination_by c => c
decreasing_by simp_wf; omega

theorem isDesc_self (r : Nat) : isDesc r r = true := by
  rw [isDesc]
  simp

theorem isDesc_ge {r c : Nat} (h : isDesc r c = true) : r ≤ c := by
  by_contra hc
  rw [isDesc] at h
  rw [dif_neg (by omega), dif_pos (by omega)] at h
  exact Bool.noConfusion h

theorem isDesc_parent {r c : Nat} (hne : c ≠ r) (h : isDesc r c = true) :
    isDesc r ((c - 1) / 2) = true ∧ r < c := by
  have hge := isDesc_ge h
  have hlt : r < c := by omega
  rw [isDesc, dif_neg hne, dif_neg (by omega)] at h
  exact ⟨h, hlt⟩

theorem isDesc_of_parent {r c : Nat} (hlt : r < c)
    (h : isDesc r ((c - 1) / 2) = true) : isDesc r c = true := by
  rw [isDesc, dif_neg (by omega), dif_neg (by omega)]
  exact h

theorem isDesc_trans (r m : Nat) : ∀ (c : Nat), isDesc m c = true →
    isDesc r m = true → isDesc r c = true := by
  intro c
  induction c using Nat.strong_induction_on with
  | _ c ih =>
      intro h1 h2
      by_cases hcm : c = m
      · rw [hcm]
        exact h2
      · have hp := isDesc_parent hcm h1
        have hmc : m < c := hp.2
        have h3 := ih ((c - 1) / 2) (by omega) hp.1 h2
        have hrm := isDesc_ge h2
        exact isDesc_of_parent (by omega) h3

theorem isDesc_zero : ∀ (c : Nat), isDesc 0 c = true := by
  intro c
  induction c using Nat.strong_induction_on with
  | _ c ih =>
      by_cases hc : c = 0
      · rw [hc]
        exact isDesc_self 0
      · exact isDesc_of_parent (by omega) (ih ((c - 1) / 2) (by omega))

/-- In a heap, the root bounds every element from above. -/
theorem heap_le_root {α : Type} (key : α → Nat) (first m : Nat) (l : List α)
    (hheap : ∀ c, 0 < c → c < m →
      kAt key l (first + c) ≤ kAt key l (first + (c - 1) / 2)) :
    ∀ (c : Nat), c < m → kAt key l (first + c) ≤ kAt key l first
  | c, hc => by
      by_cases hc0 : c = 0
      · rw [hc0]
        exact Nat.le_refl _
      · have h1 := hheap c (by omega) hc
        have h2 := heap_le_root key first m l hheap ((c - 1) / 2) (by omega)
        exact le_trans h1 h2
termination_by c _ => c
decreasing_by simp_wf; omega

/-- siftDown_func restores the heap property on the subtree at root
(assuming it held on the proper subtrees), touches nothing outside that
subtree, and fills the root with its old value or an old child value. -/
theorem siftDownGo_spec {α : Type} (key : α → Nat) (first hi : Nat) :
    ∀ (fuel : Nat) (l : List α) (root : Nat), first + hi ≤ l.length →
      root < hi → hi - root ≤ fuel →
      (∀ c, 0 < c → c < hi → isDesc root ((c - 1) / 2) = true →
        (c - 1) / 2 ≠ root →
        kAt key l (first + c) ≤ kAt key l (first + (c - 1) / 2)) →
      FrameOn first (first + hi) l (siftDownGo (ltK key) first hi fuel l root) ∧
      (∀ c, 0 < c → c < hi → isDesc root ((c - 1) / 2) = true →
        kAt key (siftDownGo (ltK key) first hi fuel l root) (first + c) ≤
          kAt key (siftDownGo (ltK key) first hi fuel l root) (first + (c - 1) / 2)) ∧
      (∀ p, p < hi → isDesc root p = false →
        (siftDownGo (ltK key) first hi fuel l root)[first + p]? = l[first + p]?) ∧
      (kAt key (siftDownGo (ltK key) first hi fuel l root) (first + root) =
          kAt key l (first + root) ∨
        ∃ c2, (c2 = 2 * root + 1 ∨ c2 = 2 * root + 2) ∧ c2 < hi ∧
          kAt key (siftDownGo (ltK key) first hi fuel l root) (first + root) =
            kAt key l (first + c2))
  | 0, l, root, hlen, hroot, hfuel, hsub => absurd hfuel (by omega)
  | fuel + 1, l, root, hlen, hroot, hfuel, hsub => by
      simp only [siftDownGo]
      split
      case isTrue hbig =>
        refine ⟨FrameOn.refl _ _ l, ?_, fun p _ _ => rfl, Or.inl rfl⟩
        intro c h1 h2 hdesc
        by_cases hpr : (c - 1) / 2 = root
        · exfalso
          omega
        · exact hsub c h1 h2 hdesc hpr
      case isFalse hbig =>
        have hmain : ∀ ch, (ch = 2 * root + 1 ∨ ch = 2 * root + 2) → ch < hi →
            (∀ s, (s = 2 * root + 1 ∨ s = 2 * root + 2) → s < hi →
              kAt key l (first + s) ≤ kAt key l (first + ch)) →
            FrameOn first (first + hi) l
              (if ¬ ltIdx (ltK key) l (first + root) (first + ch) = true then l
               else siftDownGo (ltK key) first hi fuel
                 (swapT l (first + root) (first + ch)) ch) ∧
            (∀ c, 0 < c → c < hi → isDesc root ((c - 1) / 2) = true →
              kAt key (if ¬ ltIdx (ltK key) l (first + root) (first + ch) = true then l
                 else siftDownGo (ltK key) first hi fuel
                   (swapT l (first + root) (first + ch)) ch) (first + c) ≤
                kAt key (if ¬ ltIdx (ltK key) l (first + root) (first + ch) = true then l
                   else siftDownGo (ltK key) first hi fuel
                     (swapT l (first + root) (first + ch)) ch) (first + (c - 1) / 2)) ∧
            (∀ p, p < hi → isDesc root p = false →
              (if ¬ ltIdx (ltK key) l (first + root) (first + ch) = true then l
                 else siftDownGo (ltK key) first hi fuel
                   (swapT l (first + root) (first + ch)) ch)[first + p]? =
                l[first + p]?) ∧
            (kAt key (if ¬ ltIdx (ltK key) l (first + root) (first + ch) = true then l
                 else siftDownGo (ltK key) first hi fuel
                   (swapT l (first + root) (first + ch)) ch) (first + root) =
                kAt key l (first + root) ∨
              ∃ c2, (c2 = 2 * root + 1 ∨ c2 = 2 * root + 2) ∧ c2 < hi ∧
                kAt key (if ¬ ltIdx (ltK key) l (first + root) (first + ch) = true then l
                   else siftDownGo (ltK key) first hi fuel
                     (swapT l (first + root) (first + ch)) ch) (first + root) =
                  kAt key l (first + c2)) := by
          intro ch hch hchhi hmax
          have hchgt : root < ch := by omega
          have hchpar : (ch - 1) / 2 = root := by omega
          have hdesc_ch : isDesc root ch = true := by
            refine isDesc_of_parent hchgt ?_
            rw [hchpar]
            exact isDesc_self root
          split
          case isTrue hstop =>
            have hge : kAt key l (first + ch) ≤ kAt key l (first + root) :=
              ltIdx_ltK_false (by omega) (by omega) ((Bool.not_eq_true _) ▸ hstop)
            refine ⟨FrameOn.refl _ _ l, ?_, fun p _ _ => rfl, Or.inl rfl⟩
            intro c h1 h2 hdesc
            by_cases hpr : (c - 1) / 2 = root
            · rw [hpr]
              have hcc : c = 2 * root + 1 ∨ c = 2 * root + 2 := by omega
              exact le_trans (hmax c hcc h2) hge
            · exact hsub c h1 h2 hdesc hpr
          case isFalse hgo =>
            have hlt : kAt key l (first + root) < kAt key l (first + ch) :=
              ltIdx_ltK_true (not_not.mp hgo)
            have hswlen : (swapT l (first + root) (first + ch)).length = l.length :=
              swapT_length l _ _
            have hrec := siftDownGo_spec key first hi fuel
              (swapT l (first + root) (first + ch)) ch (by omega) hchhi (by omega)
              (by
                intro c h1 h2 hdesc hne
                have hpge : ch ≤ (c - 1) / 2 := isDesc_ge hdesc
                have hplt : ch < (c - 1) / 2 := by omega
                rw [kAt_swapT_ne key l (by omega) (by omega),
                  kAt_swapT_ne key l (by omega) (by omega)]
                exact hsub c h1 h2
                  (isDesc_trans root ch ((c - 1) / 2) hdesc hdesc_ch) (by omega))
            have hndr : isDesc ch root = false := by
              cases hx : isDesc ch root
              · rfl
              · exact absurd (isDesc_ge hx) (by omega)
            have hrootval : kAt key (siftDownGo (ltK key) first hi fuel
                (swapT l (first + root) (first + ch)) ch) (first + root) =
                kAt key l (first + ch) := by
              rw [kAt_congr (hrec.2.2.1 root hroot hndr)]
              exact kAt_swapT_fst key l (by omega) (by omega)
            refine ⟨?_, ?_, ?_, Or.inr ⟨ch, hch, hchhi, hrootval⟩⟩
            · exact FrameOn.trans (swapT_frame l (by omega) (by omega) (by omega)
                (by omega)) hrec.1
            · intro c h1 h2 hdesc
              by_cases hdch : isDesc ch ((c - 1) / 2) = true
              · exact hrec.2.1 c h1 h2 hdch
              · by_cases hpr : (c - 1) / 2 = root
                · rw [hpr, hrootval]
                  have hcc : c = 2 * root + 1 ∨ c = 2 * root + 2 := by omega
                  by_cases hceq : c = ch
                  · rw [hceq]
                    rcases hrec.2.2.2 with hv | ⟨c2, hc2, hc2hi, hv⟩
                    · rw [hv, kAt_swapT_snd key l (by omega) (by omega)]
                      exact Nat.le_of_lt hlt
                    · rw [hv, kAt_swapT_ne key l (by omega) (by omega)]
                      have hpar : (c2 - 1) / 2 = ch := by omega
                      have hs := hsub c2 (by omega) hc2hi
                        (by rw [hpar]; exact hdesc_ch) (by omega)
                      rw [hpar] at hs
                      exact hs
                  · have hsne : isDesc ch c = false := by
                      cases hx : isDesc ch c
                      · rfl
                      · exfalso
                        have hge2 := isDesc_ge hx
                        have hp2 := (isDesc_parent (by omega) hx).1
                        rw [show (c - 1) / 2 = root by omega] at hp2
                        exact absurd (isDesc_ge hp2) (by omega)
                    rw [kAt_congr (hrec.2.2.1 c h2 hsne),
                      kAt_swapT_ne key l (by omega) (by omega)]
                    exact hmax c hcc h2
                · have hcch : c ≠ ch := by
                    intro he
                    apply hpr
                    rw [he]
                    exact hchpar
                  have hcnotch : isDesc ch c = false := by
                    cases hx : isDesc ch c
                    · rfl
                    · exact absurd ((isDesc_parent hcch hx).1) hdch
                  have hpno : isDesc ch ((c - 1) / 2) = false := by
                    cases hx : isDesc ch ((c - 1) / 2)
                    · rfl
                    · exact absurd hx hdch
                  have hcroot : c ≠ root := by
                    intro he
                    have hge3 := isDesc_ge hdesc
                    omega
                  have hprch : (c - 1) / 2 ≠ ch := by
                    intro he
                    rw [he] at hpno
                    rw [isDesc_self] at hpno
                    exact Bool.noConfusion hpno
                  rw [kAt_congr (hrec.2.2.1 c h2 hcnotch),
                    kAt_congr (hrec.2.2.1 ((c - 1) / 2) (by omega) hpno),
                    kAt_swapT_ne key l (by omega) (by omega),
                    kAt_swapT_ne key l (by omega) (by omega)]
                  exact hsub c h1 h2 hdesc hpr
            · intro p hp hpd
              have hproot : p ≠ root := by
                intro he
                rw [he, isDesc_self] at hpd
                exact Bool.noConfusion hpd
              have hpch : isDesc ch p = false := by
                cases hx : isDesc ch p
                · rfl
                · exfalso
                  have := isDesc_trans root ch p hx hdesc_ch
                  rw [this] at hpd
                  exact Bool.noConfusion hpd
              have hpnotch : p ≠ ch := by
                intro he
                rw [he, isDesc_self] at hpch
                exact Bool.noConfusion hpch
              rw [hrec.2.2.1 p hp hpch]
              exact getElem?_swapT_ne l (by omega) (by omega)
        by_cases hsel : 2 * root + 1 + 1 < hi ∧
            ltIdx (ltK key) l (first + (2 * root + 1)) (first + (2 * root + 1) + 1) = true
        · rw [if_pos hsel]
          refine hmain (2 * root + 1 + 1) (Or.inr (by omega)) (by omega) ?_
          intro s hs hshi
          rcases hs with hs | hs
          · rw [hs]
            exact Nat.le_of_lt (ltIdx_ltK_true hsel.2)
          · rw [hs]
        · rw [if_neg hsel]
          refine hmain (2 * root + 1) (Or.inl rfl) (by omega) ?_
          intro s hs hshi
          rcases hs with hs | hs
          · rw [hs]
          · rcases Decidable.not_and_iff_or_not.mp hsel with h | h
            · exfalso
              omega
            · have hfalse : ltIdx (ltK key) l (first + (2 * root + 1))
                  (first + (2 * root + 1) + 1) = false := (Bool.not_eq_true _) ▸ h
              have := ltIdx_ltK_false (l := l) (by omega) (by omega) hfalse
              rw [hs]
              exact this

/-- The heap construction loop of heapSort_func turns the whole range into
a heap, processing roots from (hi-1)/2 down to 0. -/
theorem heapBuild_spec {α : Type} (key : α → Nat) (first hi : Nat) :
    ∀ (n : Nat) (l : List α), first + hi ≤ l.length → 0 < hi →
      n ≤ (hi - 1) / 2 + 1 →
      (∀ c, 0 < c → c < hi → n ≤ (c - 1) / 2 →
        kAt key l (first + c) ≤ kAt key l (first + (c - 1) / 2)) →
      FrameOn first (first + hi) l (heapBuild (ltK key) first hi l n) ∧
      (∀ c, 0 < c → c < hi →
        kAt key (heapBuild (ltK key) first hi l n) (first + c) ≤
          kAt key (heapBuild (ltK key) first hi l n) (first + (c - 1) / 2))
  | 0, l, hlen, hhi, hn, hheap => by
      simp only [heapBuild]
      exact ⟨FrameOn.refl _ _ l, fun c h1 h2 => hheap c h1 h2 (by omega)⟩
  | n + 1, l, hlen, hhi, hn, hheap => by
      unfold heapBuild
      have hsd := siftDownGo_spec key first hi hi l n hlen (by omega) (by omega)
        (by
          intro c h1 h2 hdesc hne
          have := isDesc_ge hdesc
          exact hheap c h1 h2 (by omega))
      have hheap1 : ∀ c, 0 < c → c < hi → n ≤ (c - 1) / 2 →
          kAt key (siftDownGo (ltK key) first hi hi l n) (first + c) ≤
            kAt key (siftDownGo (ltK key) first hi hi l n) (first + (c - 1) / 2) := by
        intro c h1 h2 h3
        by_cases hdesc : isDesc n ((c - 1) / 2) = true
        · exact hsd.2.1 c h1 h2 hdesc
        · have hpne : isDesc n ((c - 1) / 2) = false := by
            cases hx : isDesc n ((c - 1) / 2)
            · rfl
            · exact absurd hx hdesc
          have hparn : (c - 1) / 2 ≠ n := by
            intro he
            rw [he, isDesc_self] at hpne
            exact Bool.noConfusion hpne
          have hcne : isDesc n c = false := by
            cases hx : isDesc n c
            · rfl
            · exfalso
              have hcn : c ≠ n := by omega
              exact hdesc ((isDesc_parent hcn hx).1)
          rw [kAt_congr (hsd.2.2.1 c h2 hcne),
            kAt_congr (hsd.2.2.1 ((c - 1) / 2) (by omega) hpne)]
          exact hheap c h1 h2 (by omega)
      have hlen1 : (siftDownGo (ltK key) first hi hi l n).length = l.length :=
        hsd.1.1
      have ih := heapBuild_spec key first hi n (siftDownGo (ltK key) first hi hi l n)
        (by omega) hhi (by omega) hheap1
      exact ⟨FrameOn.trans hsd.1 ih.1, ih.2⟩

/-- The pop loop of heapSort_func: with the heap holding the n smallest
positions and the tail already sorted above everything in the heap, it
leaves the whole range sorted. -/
theorem heapPop_spec {α : Type} (key : α → Nat) (first hi0 : Nat) :
    ∀ (n : Nat) (l : List α), n ≤ hi0 → first + hi0 ≤ l.length →
      (∀ c, 0 < c → c < n →
        kAt key l (first + c) ≤ kAt key l (first + (c - 1) / 2)) →
      RS key l (first + n) (first + hi0) →
      (∀ p q, p < n → n ≤ q → q < hi0 →
        kAt key l (first + p) ≤ kAt key l (first + q)) →
      FrameOn first (first + n) l (heapPop (ltK key) first l n) ∧
      RS key (heapPop (ltK key) first l n) first (first + hi0)
  | 0, l, hn, hlen, hheap, htail, hdom => by
      simp only [heapPop]
      exact ⟨FrameOn.refl _ _ l, htail⟩
  | n + 1, l, hn, hlen, hheap, htail, hdom => by
      unfold heapPop
      have hrm := heap_le_root key first (n + 1) l hheap
      have hfr1 : FrameOn first (first + (n + 1)) l (swapT l first (first + n)) :=
        swapT_frame l (Nat.le_refl _) (by omega) (by omega) (by omega)
      have hswlen : (swapT l first (first + n)).length = l.length :=
        swapT_length l _ _
      have hfst : kAt key (swapT l first (first + n)) first = kAt key l (first + n) :=
        kAt_swapT_fst key l (by omega) (by omega)
      have hsnd : kAt key (swapT l first (first + n)) (first + n) = kAt key l first :=
        kAt_swapT_snd key l (by omega) (by omega)
      have hne1 : ∀ k, k ≠ first → k ≠ first + n →
          kAt key (swapT l first (first + n)) k = kAt key l k :=
        fun k h1 h2 => kAt_swapT_ne key l h1 h2
      by_cases hn0 : n = 0
      · subst hn0
        have hres : heapPop (ltK key) first
            (siftDownGo (ltK key) first 0 0 (swapT l first (first + 0)) 0) 0 =
            swapT l first (first + 0) := by
          simp only [siftDownGo, heapPop]
        rw [hres]
        refine ⟨FrameOn.widen (Nat.le_refl first) (by omega) hfr1, ?_⟩
        intro i j hi hij hj
        have hki : kAt key (swapT l first (first + 0)) i = kAt key l i := by
          by_cases hif : i = first
          · rw [hif]
            have h0 : first + 0 = first := by omega
            rw [h0] at hfst ⊢
            exact hfst
          · exact hne1 i hif (by omega)
        have hkj : kAt key (swapT l first (first + 0)) j = kAt key l j := by
          exact hne1 j (by omega) (by omega)
        rw [hki, hkj]
        by_cases hif : i = first
        · rw [hif]
          have := hdom 0 (j - first) (by omega) (by omega) (by omega)
          rw [show first + 0 = first by omega, show first + (j - first) = j by omega]
            at this
          exact this
        · exact htail i j (by omega) hij hj
      · have hsd := siftDownGo_spec key first n n (swapT l first (first + n)) 0
          (by omega) (by omega) (by omega)
          (by
            intro c h1 h2 hdesc hnz
            rw [hne1 (first + c) (by omega) (by omega),
              hne1 (first + (c - 1) / 2) (by omega) (by omega)]
            exact hheap c h1 (by omega))
        set r1 := siftDownGo (ltK key) first n n (swapT l first (first + n)) 0
          with hr1
        have hr1len : r1.length = l.length := by
          rw [hr1]
          rw [hsd.1.1, hswlen]
        have hheap2 : ∀ c, 0 < c → c < n →
            kAt key r1 (first + c) ≤ kAt key r1 (first + (c - 1) / 2) := by
          intro c h1 h2
          exact hsd.2.1 c h1 h2 (isDesc_zero _)
        have hout : ∀ q, n ≤ q → kAt key r1 (first + q) =
            kAt key (swapT l first (first + n)) (first + q) := by
          intro q hq
          exact frame_kAt hsd.1 (Or.inr (by omega))
        have htail2 : RS key r1 (first + n) (first + hi0) := by
          intro i j hi hij hj
          have hki : kAt key r1 i = kAt key (swapT l first (first + n)) i := by
            have := hout (i - first) (by omega)
            rw [show first + (i - first) = i by omega] at this
            exact this
          have hkj : kAt key r1 j = kAt key (swapT l first (first + n)) j := by
            have := hout (j - first) (by omega)
            rw [show first + (j - first) = j by omega] at this
            exact this
          rw [hki, hkj]
          by_cases hif : i = first + n
          · rw [hif, hsnd]
            have hkj2 : kAt key (swapT l first (first + n)) j = kAt key l j :=
              hne1 j (by omega) (by omega)
            rw [hkj2]
            have := hdom 0 (j - first) (by omega) (by omega) (by omega)
            rw [show first + 0 = first by omega,
              show first + (j - first) = j by omega] at this
            exact this
          · have hki2 : kAt key (swapT l first (first + n)) i = kAt key l i :=
              hne1 i (by omega) (by omega)
            have hkj2 : kAt key (swapT l first (first + n)) j = kAt key l j :=
              hne1 j (by omega) (by omega)
            rw [hki2, hkj2]
            exact htail i j (by omega) hij hj
        have hdom2 : ∀ p q, p < n → n ≤ q → q < hi0 →
            kAt key r1 (first + p) ≤ kAt key r1 (first + q) := by
          intro p q hp hq hqhi
          have hall : RangeAll key (fun v => v ≤ kAt key l first)
              (swapT l first (first + n)) first (first + n) := by
            intro t h1 h2
            by_cases hif : t = first
            · rw [hif, hfst]
              exact hrm n (by omega)
            · rw [hne1 t hif (by omega)]
              have := hrm (t - first) (by omega)
              rw [show first + (t - first) = t by omega] at this
              exact this
          have hall2 := rangeAll_preserved_of_le
            (by rw [hr1]; exact siftDownGo_perm (ltK key) first n n _ 0)
            hsd.1 hall (by omega)
          have hpv := hall2 (first + p) (by omega) (by omega)
          have hqv : kAt key l first ≤ kAt key r1 (first + q) := by
            rw [hout q hq]
            by_cases hif : q = n
            · rw [hif, hsnd]
            · rw [hne1 (first + q) (by omega) (by omega)]
              have := hdom 0 q (by omega) (by omega) hqhi
              rw [show first + 0 = first by omega] at this
              exact this
          exact le_trans hpv hqv
        have ih := heapPop_spec key first hi0 n r1 (by omega) (by omega)
          hheap2 htail2 hdom2
        refine ⟨?_, ih.2⟩
        refine FrameOn.trans hfr1 (FrameOn.trans
          (FrameOn.widen (Nat.le_refl first) (by omega) hsd.1)
          (FrameOn.widen (Nat.le_refl first) (by omega) ih.1))

/-- heapSort_func sorts its range and touches nothing else. -/
theorem heapSortGo_sorted {α : Type} (key : α → Nat) (l : List α) (a b : Nat)
    (hblen : b ≤ l.length) :
    RS key (heapSortGo (ltK key) l a b) a b ∧
      FrameOn a b l (heapSortGo (ltK key) l a b) := by
  unfold heapSortGo
  by_cases hab : a < b
  · have hbuild := heapBuild_spec key a (b - a) ((b - a - 1) / 2 + 1) l
      (by omega) (by omega) (Nat.le_refl _)
      (by
        intro c h1 h2 h3
        exfalso
        omega)
    have hblen2 : (heapBuild (ltK key) a (b - a) l ((b - a - 1) / 2 + 1)).length =
        l.length := hbuild.1.1
    have hpop := heapPop_spec key a (b - a) (b - a)
      (heapBuild (ltK key) a (b - a) l ((b - a - 1) / 2 + 1)) (Nat.le_refl _)
      (by omega) (fun c h1 h2 => hbuild.2 c h1 h2)
      (RS.empty (by omega))
      (by
        intro p q h1 h2 h3
        exfalso
        omega)
    have hsum : a + (b - a) = b := by omega
    rw [hsum] at hpop
    rw [hsum] at hbuild
    exact ⟨hpop.2, FrameOn.trans hbuild.1 hpop.1⟩
  · have h0 : b - a = 0 := by omega
    rw [h0]
    have h1 : (0 - 1) / 2 + 1 = 1 := rfl
    rw [h1]
    have hres : heapPop (ltK key) a (heapBuild (ltK key) a 0 l 1) 0 = l := by
      simp only [heapBuild, siftDownGo, heapPop]
    rw [hres]
    exact ⟨RS.empty (by omega), FrameOn.refl a b l⟩

/-! ### Pivot choice bounds and the remaining frame lemmas -/

theorem order2Go_fst {α : Type} (lt : α → α → Bool) (l : List α) (x y s : Nat) :
    (order2Go lt l x y s).1 = x ∨ (order2Go lt l x y s).1 = y := by
  unfold order2Go
  split
  · exact Or.inr rfl
  · exact Or.inl rfl

theorem order2Go_snd {α : Type} (lt : α → α → Bool) (l : List α) (x y s : Nat) :
    (order2Go lt l x y s).2.1 = x ∨ (order2Go lt l x y s).2.1 = y := by
  unfold order2Go
  split
  · exact Or.inl rfl
  · exact Or.inr rfl

theorem medianGo_mem {α : Type} (lt : α → α → Bool) (l : List α) (x y z s : Nat) :
    (medianGo lt l x y z s).1 = x ∨ (medianGo lt l x y z s).1 = y ∨
      (medianGo lt l x y z s).1 = z := by
  simp only [medianGo]
  have h1 := order2Go_fst lt l x y s
  have h2 := order2Go_snd lt l x y s
  set o1 := order2Go lt l x y s
  have h3 := order2Go_fst lt l o1.2.1 z o1.2.2
  set o2 := order2Go lt l o1.2.1 z o1.2.2
  have h4 := order2Go_snd lt l o1.1 o2.1 o2.2.2
  rcases h4 with h4 | h4
  · rcases h1 with h1 | h1 <;> omega
  · rcases h3 with h3 | h3
    · rcases h2 with h2 | h2 <;> omega
    · omega

theorem medianAdjGo_mem {α : Type} (lt : α → α → Bool) (l : List α) (x s : Nat) :
    (medianAdjGo lt l x s).1 = x - 1 ∨ (medianAdjGo lt l x s).1 = x ∨
      (medianAdjGo lt l x s).1 = x + 1 :=
  medianGo_mem lt l (x - 1) x (x + 1) s

/-- choosePivot_func returns an index inside [a, b) whenever the range has
at least 8 elements. -/
theorem choosePivotGo_bounds {α : Type} (lt : α → α → Bool) (l : List α)
    (a b : Nat) (h8 : 8 ≤ b - a) :
    a ≤ (choosePivotGo lt l a b).1 ∧ (choosePivotGo lt l a b).1 < b := by
  simp only [choosePivotGo]
  rw [if_pos (show b - a ≥ 8 by omega)]
  by_cases h50 : b - a ≥ 50
  · rw [if_pos h50]
    have hm1 := medianAdjGo_mem lt l (a + (b - a) / 4 * 1) 0
    set m1 := medianAdjGo lt l (a + (b - a) / 4 * 1) 0
    have hm2 := medianAdjGo_mem lt l (a + (b - a) / 4 * 2) m1.2
    set m2 := medianAdjGo lt l (a + (b - a) / 4 * 2) m1.2
    have hm3 := medianAdjGo_mem lt l (a + (b - a) / 4 * 3) m2.2
    set m3 := medianAdjGo lt l (a + (b - a) / 4 * 3) m2.2
    have hjs := medianGo_mem lt l m1.1 m2.1 m3.1 m3.2
    set js := medianGo lt l m1.1 m2.1 m3.1 m3.2
    have hb : a ≤ js.1 ∧ js.1 < b := by
      rcases hjs with h | h | h
      · rcases hm1 with h1 | h1 | h1 <;> omega
      · rcases hm2 with h2 | h2 | h2 <;> omega
      · rcases hm3 with h3 | h3 | h3 <;> omega
    split
    · exact hb
    · split <;> exact hb
  · rw [if_neg h50]
    have hjs := medianGo_mem lt l (a + (b - a) / 4 * 1) (a + (b - a) / 4 * 2)
      (a + (b - a) / 4 * 3) 0
    set js := medianGo lt l (a + (b - a) / 4 * 1) (a + (b - a) / 4 * 2)
      (a + (b - a) / 4 * 3) 0
    have hb : a ≤ js.1 ∧ js.1 < b := by
      rcases hjs with h | h | h <;> omega
    split
    · exact hb
    · split <;> exact hb

/-- reverseRange_func only touches [i, j + 1). -/
theorem revGo_frame {α : Type} : ∀ (n : Nat) (l : List α) (i j : Nat),
    j - i ≤ n → FrameOn i (j + 1) l (revGo l i j)
  | 0, l, i, j, hn => by
      rw [revGo]
      rw [if_neg (by omega)]
      exact FrameOn.refl _ _ l
  | n + 1, l, i, j, hn => by
      rw [revGo]
      split
      case isTrue hij =>
        have h1 : FrameOn i (j + 1) l (swapT l i j) :=
          swapT_frame l (Nat.le_refl i) (by omega) (by omega) (by omega)
        have h2 := revGo_frame n (swapT l i j) (i + 1) (j - 1) (by omega)
        exact FrameOn.trans h1 (FrameOn.widen (by omega) (by omega) h2)
      case isFalse hij =>
        exact FrameOn.refl _ _ l

theorem nextPow_le {n : Nat} (h : 1 ≤ n) : nextPowerOfTwoGo n ≤ 2 * n := by
  unfold nextPowerOfTwoGo bitsLen
  rw [if_neg (by omega)]
  have h1 : 2 ^ Nat.log2 n ≤ n := Nat.log2_self_le (by omega)
  rw [Nat.shiftLeft_eq, one_mul, pow_succ]
  omega

theorem nextPow_pos (n : Nat) : 0 < nextPowerOfTwoGo n := by
  unfold nextPowerOfTwoGo
  rw [Nat.shiftLeft_eq, one_mul]
  exact pow_pos (by norm_num) _

/-- The clamped pseudo-random offsets of breakPatterns_func stay inside the
range length. -/
theorem offset_lt (len r : Nat) (h8 : 8 ≤ len) :
    (if r % nextPowerOfTwoGo len ≥ len then r % nextPowerOfTwoGo len - len
     else r % nextPowerOfTwoGo len) < len := by
  have hmod := nextPow_le (n := len) (by omega)
  have hlt : r % nextPowerOfTwoGo len < nextPowerOfTwoGo len :=
    Nat.mod_lt _ (nextPow_pos len)
  split <;> omega

/-- breakPatterns_func only touches [a, b). -/
theorem breakPatternsGo_frame {α : Type} (l : List α) (a b : Nat) :
    FrameOn a b l (breakPatternsGo l a b) := by
  simp only [breakPatternsGo]
  split
  case isTrue h8 =>
    have ho1 := offset_lt (b - a) (xorshiftNext (b - a)) h8
    have ho2 := offset_lt (b - a) (xorshiftNext (xorshiftNext (b - a))) h8
    have ho3 := offset_lt (b - a)
      (xorshiftNext (xorshiftNext (xorshiftNext (b - a)))) h8
    have hd : 2 ≤ (b - a) / 4 := by omega
    refine FrameOn.trans (swapT_frame l (by omega) (by omega) (by omega) (by omega))
      (FrameOn.trans (swapT_frame _ (by omega) (by omega) (by omega) (by omega))
        (swapT_frame _ (by omega) (by omega) (by omega) (by omega)))
  case isFalse h8 =>
    exact FrameOn.refl _ _ l

theorem pdqPre_frame {α : Type} (l : List α) (a b : Nat) (wasB : Bool) :
    FrameOn a b l (pdqPre l a b wasB) := by
  unfold pdqPre
  split
  · exact FrameOn.refl _ _ l
  · exact breakPatternsGo_frame l a b

theorem pdqRevved_frame {α : Type} (l : List α) (a b : Nat) (h : Hint)
    (hab : a < b) : FrameOn a b l (pdqRevved l a b h) := by
  unfold pdqRevved
  split
  · have hfr := revGo_frame (b - 1 - a) l a (b - 1) (Nat.le_refl _)
    have he : b - 1 + 1 = b := by omega
    rw [he] at hfr
    exact hfr
  · exact FrameOn.refl _ _ l

/-- The pdqsort driver sorts its range [a, b) and touches nothing outside
it, given the invariant that position a - 1 (when it exists) bounds the
range from below. -/
theorem pdqsortGo_sorted {α : Type} (key : α → Nat) :
    ∀ (fuel : Nat) (l : List α) (a b limit : Nat) (wasB wasP : Bool),
      b ≤ l.length → b - a ≤ fuel → HInv key l a b →
      RS key (pdqsortGo (ltK key) fuel l a b limit wasB wasP) a b ∧
        FrameOn a b l (pdqsortGo (ltK key) fuel l a b limit wasB wasP)
  | 0, l, a, b, limit, wasB, wasP, hblen, hfuel, hH => by
      simp only [pdqsortGo]
      exact ⟨RS.empty (by omega), FrameOn.refl a b l⟩
  | fuel + 1, l, a, b, limit, wasB, wasP, hblen, hfuel, hH => by
      simp only [pdqsortGo]
      split
      case isTrue h12 =>
        have h := insertionSortGo_sorted key l a b hblen
        exact ⟨h.1, h.2⟩
      case isFalse h12 =>
        split
        case isTrue hlim =>
          have h := heapSortGo_sorted key l a b hblen
          exact ⟨h.1, h.2⟩
        case isFalse hlim =>
          have hab13 : a + 13 ≤ b := by omega
          set l0 := pdqPre l a b wasB with hl0
          have hfr0 : FrameOn a b l l0 := pdqPre_frame l a b wasB
          have hperm0 : l0.Perm l := pdqPre_perm l a b wasB
          have hlen0 : l0.length = l.length := hperm0.length_eq
          have hH0 : HInv key l0 a b := HInv_preserved hperm0 hfr0 hblen hH
          set ph := choosePivotGo (ltK key) l0 a b with hphdef
          have hpb : a ≤ ph.1 ∧ ph.1 < b := by
            rw [hphdef]
            exact choosePivotGo_bounds (ltK key) l0 a b (by omega)
          set l1 := pdqRevved l0 a b ph.2 with hl1
          have hfr1 : FrameOn a b l0 l1 := pdqRevved_frame l0 a b ph.2 (by omega)
          have hperm1 : l1.Perm l0 := pdqRevved_perm l0 a b ph.2
          have hlen1 : l1.length = l.length := by
            rw [hperm1.length_eq, hlen0]
          have hH1 : HInv key l1 a b := HInv_preserved hperm1 hfr1 (by omega) hH0
          set pivot := if ph.2 = Hint.dec then b - 1 - (ph.1 - a) else ph.1
            with hpivdef
          have hpivb : a ≤ pivot ∧ pivot < b := by
            rw [hpivdef]
            split <;> omega
          set pd := pdqMaybePartial (ltK key) l1 a b
            (wasB && wasP && decide ((if ph.2 = Hint.dec then Hint.inc else ph.2) =
              Hint.inc)) with hpddef
          have hpds : FrameOn a b l1 pd.1 ∧ (pd.2 = true → RS key pd.1 a b) := by
            rw [hpddef]
            exact pdqMaybePartial_spec key l1 a b _ (by omega) (by omega) hH1
          have hpermpd : pd.1.Perm l1 := by
            rw [hpddef]
            exact pdqMaybePartial_perm (ltK key) l1 a b _
          have hlenpd : pd.1.length = l.length := by
            rw [hpermpd.length_eq, hlen1]
          have hHpd : HInv key pd.1 a b :=
            HInv_preserved hpermpd hpds.1 (by omega) hH1
          have hfrlpd : FrameOn a b l pd.1 :=
            FrameOn.trans hfr0 (FrameOn.trans hfr1 hpds.1)
          split
          case isTrue hpdt =>
            exact ⟨hpds.2 hpdt, hfrlpd⟩
          case isFalse hpdf =>
            split
            case isTrue hceq =>
              have hltf : ltIdx (ltK key) pd.1 (a - 1) pivot = false :=
                (Bool.not_eq_true _) ▸ hceq.2
              have hP1 : kAt key pd.1 pivot ≤ kAt key pd.1 (a - 1) :=
                ltIdx_ltK_false (by omega) (by omega) hltf
              have hP2 : kAt key pd.1 (a - 1) ≤ kAt key pd.1 pivot :=
                hHpd hceq.1 pivot hpivb.1 hpivb.2
              have hPeq : kAt key pd.1 pivot = kAt key pd.1 (a - 1) :=
                le_antisymm hP1 hP2
              have hpe := partitionEqualGo_spec key pd.1 a b pivot (by omega)
                (by omega) hpivb.1 hpivb.2
              set pe := partitionEqualGo (ltK key) pd.1 a b pivot with hpedef
              have hpeperm : pe.1.Perm pd.1 := by
                rw [hpedef]
                exact partitionEqualGo_perm (ltK key) pd.1 a b pivot
              have hpelen : pe.1.length = l.length := by
                rw [hpeperm.length_eq, hlenpd]
              have hPa1 : kAt key pe.1 (a - 1) = kAt key pd.1 (a - 1) :=
                frame_kAt hpe.1 (Or.inl (by omega))
              have hHpe : HInv key pe.1 a b :=
                HInv_preserved hpeperm hpe.1 (by omega) hHpd
              have hpea : kAt key pe.1 a = kAt key pd.1 (a - 1) := by
                rw [hpe.2.2.1, hPeq]
              have hHrec : HInv key pe.1 pe.2 b := by
                intro h0 q hq1 hq2
                have hqgt : kAt key pe.1 a < kAt key pe.1 q :=
                  hpe.2.2.2.2 q hq1 hq2
                by_cases hm : pe.2 - 1 = a
                · rw [hm]
                  exact Nat.le_of_lt hqgt
                · have hle : kAt key pe.1 (pe.2 - 1) ≤ kAt key pe.1 a :=
                    hpe.2.2.2.1 (pe.2 - 1) (by omega) (by omega) (by omega)
                  exact le_trans hle (Nat.le_of_lt hqgt)
              have ih := pdqsortGo_sorted key fuel pe.1 pe.2 b
                (if wasB then limit else limit - 1) wasB wasP (by omega)
                (by omega) hHrec
              have hpermr : (pdqsortGo (ltK key) fuel pe.1 pe.2 b
                  (if wasB then limit else limit - 1) wasB wasP).Perm pe.1 :=
                pdqsortGo_perm (ltK key) fuel pe.1 pe.2 b _ wasB wasP
              have hleft : ∀ p, a ≤ p → p < pe.2 → p < b →
                  kAt key (pdqsortGo (ltK key) fuel pe.1 pe.2 b
                    (if wasB then limit else limit - 1) wasB wasP) p =
                  kAt key pd.1 (a - 1) := by
                intro p hp1 hp2 hp3
                rw [frame_kAt ih.2 (Or.inl hp2)]
                rcases Nat.eq_or_lt_of_le hp1 with rfl | hp1'
                · exact hpea
                · have hle : kAt key pe.1 p ≤ kAt key pe.1 a :=
                    hpe.2.2.2.1 p (by omega) hp2 hp3
                  have hge : kAt key pe.1 (a - 1) ≤ kAt key pe.1 p :=
                    hHpe hceq.1 p (by omega) hp3
                  rw [hPa1] at hge
                  rw [hpea] at hle
                  omega
              have hallR : RangeAll key (fun v => kAt key pd.1 (a - 1) < v)
                  pe.1 pe.2 b := by
                intro q h1 h2
                have := hpe.2.2.2.2 q h1 h2
                rw [hpea] at this
                exact this
              have hallR2 := rangeAll_preserved_of_le hpermr ih.2 hallR (by omega)
              refine ⟨?_, FrameOn.trans hfrlpd (FrameOn.trans hpe.1
                (FrameOn.widen (by omega) (Nat.le_refl b) ih.2))⟩
              intro i j h1 h2 h3
              by_cases hj : j < pe.2
              · have e1 := hleft i h1 (by omega) (by omega)
                have e2 := hleft j (by omega) hj h3
                omega
              · by_cases hi : i < pe.2
                · rw [hleft i h1 hi (by omega)]
                  exact Nat.le_of_lt (hallR2 j (by omega) h3)
                · exact ih.1 i j (by omega) h2 h3
            case isFalse hceq =>
              have hprs := partitionGo_spec key pd.1 a b pivot (by omega)
                (by omega) hpivb.1 hpivb.2
              set pr := partitionGo (ltK key) pd.1 a b pivot with hprdef
              have hprperm : pr.1.Perm pd.1 := by
                rw [hprdef]
                exact partitionGo_perm (ltK key) pd.1 a b pivot
              have hprlen : pr.1.length = l.length := by
                rw [hprperm.length_eq, hlenpd]
              have hHpr : HInv key pr.1 a b :=
                HInv_preserved hprperm hprs.1 (by omega) hHpd
              have hfrlpr : FrameOn a b l pr.1 := FrameOn.trans hfrlpd hprs.1
              split
              case isTrue hbal =>
                have ih1 := pdqsortGo_sorted key fuel pr.1 a pr.2.1
                  (if wasB then limit else limit - 1) true true (by omega)
                  (by omega) (fun h0 q hq1 hq2 => hHpr h0 q hq1 (by omega))
                set r1 := pdqsortGo (ltK key) fuel pr.1 a pr.2.1
                  (if wasB then limit else limit - 1) true true with hr1def
                have hr1perm : r1.Perm pr.1 := by
                  rw [hr1def]
                  exact pdqsortGo_perm (ltK key) fuel pr.1 a pr.2.1 _ true true
                have hr1len : r1.length = l.length := by
                  rw [hr1perm.length_eq, hprlen]
                have hHr2 : HInv key r1 (pr.2.1 + 1) b := by
                  intro h0 q hq1 hq2
                  rw [show pr.2.1 + 1 - 1 = pr.2.1 by omega]
                  rw [frame_kAt ih1.2 (Or.inr (Nat.le_refl _)),
                    frame_kAt ih1.2 (Or.inr (by omega))]
                  exact hprs.2.2.2.2 q (by omega) hq2
                have ih2 := pdqsortGo_sorted key fuel r1 (pr.2.1 + 1) b
                  (if wasB then limit else limit - 1)
                  (decide (min (pr.2.1 - a) (b - pr.2.1) ≥ (b - a) / 8)) pr.2.2
                  (by omega) (by omega) hHr2
                have hr2perm : (pdqsortGo (ltK key) fuel r1 (pr.2.1 + 1) b
                    (if wasB then limit else limit - 1)
                    (decide (min (pr.2.1 - a) (b - pr.2.1) ≥ (b - a) / 8))
                    pr.2.2).Perm r1 :=
                  pdqsortGo_perm (ltK key) fuel r1 (pr.2.1 + 1) b _ _ _
                have hmidval : kAt key (pdqsortGo (ltK key) fuel r1 (pr.2.1 + 1) b
                    (if wasB then limit else limit - 1)
                    (decide (min (pr.2.1 - a) (b - pr.2.1) ≥ (b - a) / 8))
                    pr.2.2) pr.2.1 = kAt key pr.1 pr.2.1 := by
                  rw [frame_kAt ih2.2 (Or.inl (by omega)),
                    frame_kAt ih1.2 (Or.inr (Nat.le_refl _))]
                have hallL : RangeAll key (fun v => v < kAt key pr.1 pr.2.1)
                    pr.1 a pr.2.1 := fun q h1 h2 => hprs.2.2.2.1 q h1 h2
                have hallL1 := rangeAll_preserved_of_le hr1perm ih1.2 hallL
                  (by omega)
                have hallR : RangeAll key (fun v => kAt key pr.1 pr.2.1 ≤ v)
                    r1 (pr.2.1 + 1) b := by
                  intro q h1 h2
                  rw [frame_kAt ih1.2 (Or.inr (by omega))]
                  exact hprs.2.2.2.2 q (by omega) h2
                have hallR1 := rangeAll_preserved_of_le hr2perm ih2.2 hallR
                  (by omega)
                refine ⟨RS_combine hprs.2.1 hprs.2.2.1
                  (RS_of_frame ih2.2 (Or.inl (by omega)) ih1.1) ih2.1 ?_ ?_,
                  FrameOn.trans hfrlpr (FrameOn.trans
                    (FrameOn.widen (Nat.le_refl a) (by omega) ih1.2)
                    (FrameOn.widen (by omega) (Nat.le_refl b) ih2.2))⟩
                · intro p hp1 hp2
                  rw [hmidval, frame_kAt ih2.2 (Or.inl (by omega))]
                  exact Nat.le_of_lt (hallL1 p hp1 hp2)
                · intro q hq1 hq2
                  rw [hmidval]
                  exact hallR1 q (by omega) hq2
              case isFalse hbal =>
                have ih1 := pdqsortGo_sorted key fuel pr.1 (pr.2.1 + 1) b
                  (if wasB then limit else limit - 1) true true (by omega)
                  (by omega)
                  (by
                    intro h0 q hq1 hq2
                    rw [show pr.2.1 + 1 - 1 = pr.2.1 by omega]
                    exact hprs.2.2.2.2 q (by omega) hq2)
                set r1 := pdqsortGo (ltK key) fuel pr.1 (pr.2.1 + 1) b
                  (if wasB then limit else limit - 1) true true with hr1def
                have hr1perm : r1.Perm pr.1 := by
                  rw [hr1def]
                  exact pdqsortGo_perm (ltK key) fuel pr.1 (pr.2.1 + 1) b _ true true
                have hr1len : r1.length = l.length := by
                  rw [hr1perm.length_eq, hprlen]
                have hHr2 : HInv key r1 a pr.2.1 := by
                  intro h0 q hq1 hq2
                  rw [frame_kAt ih1.2 (Or.inl (by omega)),
                    frame_kAt ih1.2 (Or.inl (by omega))]
                  exact hHpr h0 q hq1 (by omega)
                have ih2 := pdqsortGo_sorted key fuel r1 a pr.2.1
                  (if wasB then limit else limit - 1)
                  (decide (min (pr.2.1 - a) (b - pr.2.1) ≥ (b - a) / 8)) pr.2.2
                  (by omega) (by omega) hHr2
                have hr2perm : (pdqsortGo (ltK key) fuel r1 a pr.2.1
                    (if wasB then limit else limit - 1)
                    (decide (min (pr.2.1 - a) (b - pr.2.1) ≥ (b - a) / 8))
                    pr.2.2).Perm r1 :=
                  pdqsortGo_perm (ltK key) fuel r1 a pr.2.1 _ _ _
                have hmidval : kAt key (pdqsortGo (ltK key) fuel r1 a pr.2.1
                    (if wasB then limit else limit - 1)
                    (decide (min (pr.2.1 - a) (b - pr.2.1) ≥ (b - a) / 8))
                    pr.2.2) pr.2.1 = kAt key pr.1 pr.2.1 := by
                  rw [frame_kAt ih2.2 (Or.inr (Nat.le_refl _)),
                    frame_kAt ih1.2 (Or.inl (by omega))]
                have hallL : RangeAll key (fun v => v < kAt key pr.1 pr.2.1)
                    r1 a pr.2.1 := by
                  intro q h1 h2
                  rw [frame_kAt ih1.2 (Or.inl (by omega))]
                  exact hprs.2.2.2.1 q h1 h2
                have hallL1 := rangeAll_preserved_of_le hr2perm ih2.2 hallL
                  (by omega)
                have hallR : RangeAll key (fun v => kAt key pr.1 pr.2.1 ≤ v)
                    pr.1 (pr.2.1 + 1) b :=
                  fun q h1 h2 => hprs.2.2.2.2 q (by omega) h2
                have hallR1 := rangeAll_preserved_of_le hr1perm ih1.2 hallR
                  (by omega)
                refine ⟨RS_combine hprs.2.1 hprs.2.2.1 ih2.1
                  (RS_of_frame ih2.2 (Or.inr (by omega)) ih1.1) ?_ ?_,
                  FrameOn.trans hfrlpr (FrameOn.trans
                    (FrameOn.widen (by omega) (Nat.le_refl b) ih1.2)
                    (FrameOn.widen (Nat.le_refl a) (by omega) ih2.2))⟩
                · intro p hp1 hp2
                  rw [hmidval]
                  exact Nat.le_of_lt (hallL1 p hp1 hp2)
                · intro q hq1 hq2
                  rw [hmidval, frame_kAt ih2.2 (Or.inr (by omega))]
                  exact hallR1 q (by omega) hq2

/-- sort.Slice leaves the whole slice non-strictly ascending by key. -/
theorem sortSliceGo_RS {α : Type} (key : α → Nat) (l : List α) :
    RS key (sortSliceGo (ltK key) l) 0 l.length := by
  unfold sortSliceGo
  refine (pdqsortGo_sorted key (l.length + 1) l 0 l.length (bitsLen l.length)
    true true (Nat.le_refl _) (by omega) ?_).1
  intro h0
  exact absurd h0 (by omega)

/-- sort.Slice with a strictly-increasing-key comparator produces a
pairwise non-decreasing list, for every input. -/
theorem sortSliceGo_pairwise {α : Type} (key : α → Nat) (l : List α) :
    List.Pairwise (fun u w => key u ≤ key w) (sortSliceGo (ltK key) l) := by
  have hRS := sortSliceGo_RS key l
  have hperm := sortSliceGo_perm (ltK key) l
  have hlen : (sortSliceGo (ltK key) l).length = l.length := hperm.length_eq
  rw [List.pairwise_iff_getElem]
  intro i j hi hj hij
  have h := hRS i j (Nat.zero_le i) hij (by omega)
  rw [kAt_eq_getElem (by omega), kAt_eq_getElem (by omega)] at h
  exact h

/-! ### Data model (src/s3-versions-to-git.go, lines 22-54) -/

/-- S3Object: a live object identified during bucket listing. -/
structure S3Object where
  Key : String
  Bucket : String
deriving DecidableEq, Repr

/-- S3VersionedObject: one historical revision of one object.  LastModified
is a Nat timestamp; 0 plays the role of Go's zero time.Time value. -/
structure S3VersionedObject where
  Key : String
  Bucket : String
  VersionId : String
  RepositoryRoot : String
  LastModified : Nat
deriving DecidableEq, Repr

/-- toLocalPath: strings.Join([root, bucket, key], pathSeparator); the
subsequent filepath.Abs is the identity for the absolute roots the program
passes in and is not modelled further. -/
def S3VersionedObject.toLocalPath (svo : S3VersionedObject) : String :=
  String.intercalate "/" [svo.RepositoryRoot, svo.Bucket, svo.Key]

/-- toBasenamePath: the repo-relative staging path is just the key. -/
def S3VersionedObject.toBasenamePath (svo : S3VersionedObject) : String :=
  svo.Key

/-- filepath.Dir, used only as the lookup key for the directory-existence
check and MkdirAll in downloadFile. -/
def dirOf (p : String) : String :=
  String.intercalate "/" (p.splitOn "/").dropLast

/-- The comparator queryS3Versions passes to sort.Slice (line 136-138):
s3Objects[i].LastModified.Before(s3Objects[j].LastModified). -/
def lessVR (u v : S3VersionedObject) : Bool :=
  decide (u.LastModified < v.LastModified)

/-! ### External-effect oracles

All S3, filesystem and go-git calls are modelled by an oracle that fixes
the outcome of each call; a field returning Option String is the error the
call yields (none = success). -/

/-- The local filesystem: path to byte content. -/
def FS : Type := String → Option (List Nat)

/-- Write one file. -/
def fsWrite (fs : FS) (p : String) (content : List Nat) : FS :=
  fun q => if q = p then some content else fs q

/-- Oracle for the effectful calls performed by downloadFile,
applyGitChanges and replayS3Changes. -/
structure IOEnv where
  /-- GetObject(bucket, key, versionId): some e means the call failed. -/
  getObjectErr : String → String → String → Option String
  /-- io.ReadAll of the response body for (bucket, key, versionId): the
  bytes obtained, and some e when reading the body failed (Go's ReadAll
  returns the bytes read so far together with the error). -/
  readAll : String → String → String → List Nat × Option String
  /-- os.Stat(dirname): whether the directory exists. -/
  dirExists : String → Bool
  /-- os.MkdirAll(dirname, 0777) outcome. -/
  mkdirErr : String → Option String
  /-- os.Create(filename) outcome. -/
  createErr : String → Option String
  /-- file.Write outcome for the named file. -/
  writeErr : String → Option String
  /-- container.Tree.Add(basenamePath) outcome. -/
  addErr : String → Option String
  /-- container.Tree.Commit outcome, keyed by the commit date. -/
  commitErr : Nat → Option String
  /-- container.Repository.CommitObject outcome, keyed by the commit date. -/
  commitObjectErr : Nat → Option String

/-! ### downloadFile (lines 165-202) -/

/-- downloadFile object s3Client: fetches the (key, versionId) content and
writes it to object.toLocalPath.  Faithful to the source, including the
slip at lines 195-199: the io.ReadAll error is logged but NOT returned;
execution continues and the function returns the error of file.Write on
whatever bytes ReadAll produced. -/
def downloadFile (env : IOEnv) (fs : FS) (obj : S3VersionedObject) :
    FS × Option String :=
  match env.getObjectErr obj.Bucket obj.Key obj.VersionId with
  | some e => (fs, some e)
  | none =>
    let filename := obj.toLocalPath
    let dirname := dirOf filename
    let mkdirOutcome := if env.dirExists dirname then none else env.mkdirErr dirname
    match mkdirOutcome with
    | some e => (fs, some e)
    | none =>
      match env.createErr filename with
      | some e => (fs, some e)
      | none =>
        let fs1 := fsWrite fs filename []
        let body := (env.readAll obj.Bucket obj.Key obj.VersionId).1
        match env.writeErr filename with
        | some e => (fs1, some e)
        | none => (fsWrite fs1 filename body, none)

/-! ### applyGitChanges (lines 204-245) -/

/-- The observable content of one created commit: the date embedded in the
commit message, the author signature, and the paths staged for it. -/
structure Commit where
  msgDate : Nat
  authorName : String
  authorEmail : String
  authorWhen : Nat
  staged : List String
deriving DecidableEq, Repr

/-- The download/stage loop of applyGitChanges: on success returns the
final commitDate, the collected local file paths (used only for logging in
the source) and the staged repo-relative paths. -/
def applyLoop (env : IOEnv) :
    FS → Nat → List String → List String → List S3VersionedObject →
      FS × Except String (Nat × List String × List String)
  | fs, commitDate, files, staged, [] => (fs, Except.ok (commitDate, files, staged))
  | fs, _commitDate, files, staged, obj :: rest =>
    match downloadFile env fs obj with
    | (fs1, some e) => (fs1, Except.error e)
    | (fs1, none) =>
      let files1 := files ++ [obj.toLocalPath]
      let commitDate1 := obj.LastModified
      match env.addErr obj.toBasenamePath with
      | some e => (fs1, Except.error e)
      | none => applyLoop env fs1 commitDate1 files1 (staged ++ [obj.toBasenamePath]) rest

/-- applyGitChanges objects s3Client container: downloads and stages every
member, then commits with the last member's LastModified as both the
message date and the author timestamp, with the fixed generator identity. -/
def applyGitChanges (env : IOEnv) (fs : FS) (objects : List S3VersionedObject) :
    FS × Except String Commit :=
  match applyLoop env fs 0 [] [] objects with
  | (fs1, Except.error e) => (fs1, Except.error e)
  | (fs1, Except.ok (commitDate, _files, staged)) =>
    match env.commitErr commitDate with
    | some e => (fs1, Except.error e)
    | none =>
      match env.commitObjectErr commitDate with
      | some e => (fs1, Except.error e)
      | none =>
        (fs1, Except.ok
          { msgDate := commitDate
            authorName := "s3-versions-to-git"
            authorEmail := "ahughesalex@gmail.com"
            authorWhen := commitDate
            staged := staged })

/-! ### replayS3Changes (lines 142-163) -/

/-- The observable outcome of one replay run: final filesystem, commits
created (in order), the argument of every applyGitChanges invocation (in
order), and the error that aborted the run, if any. -/
structure ReplayResult where
  fs : FS
  commits : List Commit
  calls : List (List S3VersionedObject)
  err : Option String

/-- The loop of replayS3Changes, state (currentDate, objectModifications).
Faithful to the source: currentDate starts as the zero time (0); each
iteration first replaces a zero currentDate by the record's timestamp,
flushes the buffer through applyGitChanges when the record's timestamp is
strictly after currentDate (aborting the run if that fails), and appends
the record to the buffer.  When the input runs out the remaining buffer is
dropped: the source has no flush after the loop. -/
def replayLoop (env : IOEnv) :
    FS → Nat → List S3VersionedObject → List S3VersionedObject → ReplayResult
  | fs, _, _, [] => ⟨fs, [], [], none⟩
  | fs, currentDate, buf, v :: rest =>
    let cd := if currentDate = 0 then v.LastModified else currentDate
    if cd < v.LastModified then
      match applyGitChanges env fs buf with
      | (fs1, Except.error e) => ⟨fs1, [], [buf], some e⟩
      | (fs1, Except.ok c) =>
        let r := replayLoop env fs1 v.LastModified [v] rest
        ⟨r.fs, c :: r.commits, buf :: r.calls, r.err⟩
    else
      replayLoop env fs cd (buf ++ [v]) rest

/-- replayS3Changes versions s3Client container. -/
def replayS3Changes (env : IOEnv) (fs : FS) (versions : List S3VersionedObject) :
    ReplayResult :=
  replayLoop env fs 0 [] versions

/-- Pure view of the grouping decisions of the replay loop: the list of
buffers flushed through applyGitChanges, plus the final buffer that the
loop leaves behind unflushed. -/
def goGroupsLoop :
    Nat → List S3VersionedObject → List S3VersionedObject →
      List (List S3VersionedObject) × List S3VersionedObject
  | _, buf, [] => ([], buf)
  | currentDate, buf, v :: rest =>
    let cd := if currentDate = 0 then v.LastModified else currentDate
    if cd < v.LastModified then
      let r := goGroupsLoop v.LastModified [v] rest
      (buf :: r.1, r.2)
    else
      goGroupsLoop cd (buf ++ [v]) rest

/-- The changesets the replayer flushes (the final pending buffer is never
flushed by the source). -/
def flushedGroups (versions : List S3VersionedObject) :
    List (List S3VersionedObject) :=
  (goGroupsLoop 0 [] versions).1

/-- Replay expressed changeset by changeset: apply each flushed group in
order, stopping at the first failure. -/
def replayFlushed (env : IOEnv) :
    FS → List (List S3VersionedObject) → ReplayResult
  | fs, [] => ⟨fs, [], [], none⟩
  | fs, g :: gs =>
    match applyGitChanges env fs g with
    | (fs1, Except.error e) => ⟨fs1, [], [g], some e⟩
    | (fs1, Except.ok c) =>
      let r := replayFlushed env fs1 gs
      ⟨r.fs, c :: r.commits, g :: r.calls, r.err⟩

/-! ### Replay lemmas: the loop equals changeset-by-changeset replay -/

/-- The record-by-record replay loop is the changeset-by-changeset replay
of the flushed groups. -/
theorem replayLoop_eq_flushed (env : IOEnv) :
    ∀ (vs : List S3VersionedObject) (fs : FS) (cd : Nat)
      (buf : List S3VersionedObject),
      replayLoop env fs cd buf vs = replayFlushed env fs (goGroupsLoop cd buf vs).1
  | [], fs, cd, buf => by simp [replayLoop, goGroupsLoop, replayFlushed]
  | v :: rest, fs, cd, buf => by
      simp only [replayLoop, goGroupsLoop]
      by_cases hC : (if cd = 0 then v.LastModified else cd) < v.LastModified
      · simp only [if_pos hC]
        rcases hA : applyGitChanges env fs buf with ⟨fs1, res⟩
        cases res with
        | error e => simp [replayFlushed, hA]
        | ok c =>
            simp [replayFlushed, hA,
              replayLoop_eq_flushed env rest fs1 v.LastModified [v]]
      · simp only [if_neg hC]
        exact replayLoop_eq_flushed env rest fs _ (buf ++ [v])

/-- The flushed groups together with the leftover buffer are exactly the
input records, in order. -/
theorem goGroupsLoop_flatten :
    ∀ (vs : List S3VersionedObject) (cd : Nat) (buf : List S3VersionedObject),
      (goGroupsLoop cd buf vs).1.flatten ++ (goGroupsLoop cd buf vs).2 = buf ++ vs
  | [], cd, buf => by simp [goGroupsLoop]
  | v :: rest, cd, buf => by
      simp only [goGroupsLoop]
      by_cases hC : (if cd = 0 then v.LastModified else cd) < v.LastModified
      · simp only [if_pos hC, List.flatten_cons, List.append_assoc]
        rw [goGroupsLoop_flatten rest v.LastModified [v]]
        simp
      · simp only [if_neg hC]
        rw [goGroupsLoop_flatten rest _ (buf ++ [v])]
        simp
      termination_by vs => vs.length

/-- Every flushed group is non-empty: the loop can only flush when the
buffer has received at least one record since the last reset. -/
theorem goGroupsLoop_ne_nil :
    ∀ (vs : List S3VersionedObject) (cd : Nat) (buf : List S3VersionedObject),
      (buf = [] → cd = 0) →
      ∀ g ∈ (goGroupsLoop cd buf vs).1, g ≠ []
  | [], cd, buf, _ => by simp [goGroupsLoop]
  | v :: rest, cd, buf, hbuf => by
      simp only [goGroupsLoop]
      by_cases hC : (if cd = 0 then v.LastModified else cd) < v.LastModified
      · simp only [if_pos hC]
        intro g hg
        rcases List.mem_cons.mp hg with hgbuf | hgs
        · subst hgbuf
          intro hnil
          rw [hbuf hnil, if_pos rfl] at hC
          exact absurd hC (lt_irrefl _)
        · exact goGroupsLoop_ne_nil rest v.LastModified [v] (by simp) g hgs
      · simp only [if_neg hC]
        exact goGroupsLoop_ne_nil rest _ (buf ++ [v]) (by simp)

/-- The timestamp of a group: the LastModified of its first member. -/
def tsHead : List S3VersionedObject → Nat
  | [] => 0
  | m :: _ => m.LastModified

/-- Grouping invariants for sorted input with non-zero timestamps: every
flushed group is uniform (all members share the group's head timestamp)
and the group timestamps strictly increase, all of them at least the
current boundary. -/
theorem goGroupsLoop_uniform :
    ∀ (vs : List S3VersionedObject) (cd : Nat) (buf : List S3VersionedObject),
      List.Pairwise (fun u w => u.LastModified ≤ w.LastModified) vs →
      (∀ v ∈ vs, v.LastModified ≠ 0) →
      (∀ v ∈ vs, cd ≤ v.LastModified) →
      (∀ m ∈ buf, m.LastModified = cd) →
      (buf = [] → cd = 0) → (cd = 0 → buf = []) →
      (∀ g ∈ (goGroupsLoop cd buf vs).1, ∀ m ∈ g, m.LastModified = tsHead g) ∧
      List.Chain' (· < ·) ((goGroupsLoop cd buf vs).1.map tsHead) ∧
      (∀ g ∈ (goGroupsLoop cd buf vs).1, cd ≤ tsHead g)
  | [], cd, buf, _, _, _, _, _, _ => by simp [goGroupsLoop]
  | v :: rest, cd, buf, hsort, hnz, hge, hbuf, hbe, hce => by
      have hsort' := (List.pairwise_cons.mp hsort).2
      have hheadle := (List.pairwise_cons.mp hsort).1
      have hnz' : ∀ w ∈ rest, w.LastModified ≠ 0 := fun w hw =>
        hnz w (List.mem_cons_of_mem v hw)
      have hvnz : v.LastModified ≠ 0 := hnz v (List.mem_cons_self v rest)
      simp only [goGroupsLoop]
      by_cases hC : (if cd = 0 then v.LastModified else cd) < v.LastModified
      · -- flush: cd ≠ 0 (else boundary = v.ts and no flush) and buf ≠ []
        have hcd0 : cd ≠ 0 := by
          intro h
          rw [if_pos h] at hC
          exact absurd hC (lt_irrefl _)
        have hlt : cd < v.LastModified := by rwa [if_neg hcd0] at hC
        have hbne : buf ≠ [] := fun h => hcd0 (hbe h)
        have hhead : tsHead buf = cd := by
          cases buf with
          | nil => exact absurd rfl hbne
          | cons m t => exact hbuf m (List.mem_cons_self m t)
        have ih := goGroupsLoop_uniform rest v.LastModified [v] hsort' hnz'
          (fun w hw => hheadle w hw)
          (by intro m hm; rcases List.mem_singleton.mp hm with rfl; rfl)
          (by simp) (fun h => absurd h hvnz)
        simp only [if_pos hC]
        refine ⟨?_, ?_, ?_⟩
        · intro g hg
          rcases List.mem_cons.mp hg with rfl | hgs
          · intro m hm
            rw [hbuf m hm, hhead]
          · exact ih.1 g hgs
        · rw [List.map_cons, List.chain'_cons']
          refine ⟨?_, ih.2.1⟩
          intro y hy
          rw [hhead]
          have hy' : y ∈ ((goGroupsLoop v.LastModified [v] rest).1.map tsHead) :=
            List.mem_of_mem_head? hy
          rcases List.mem_map.mp hy' with ⟨g0, hg0, hts⟩
          have := ih.2.2 g0 hg0
          omega
        · intro g hg
          rcases List.mem_cons.mp hg with rfl | hgs
          · rw [hhead]
          · have := ih.2.2 g hgs
            omega
      · -- no flush: the record joins the current buffer
        by_cases hz : cd = 0
        · have hbufnil := hce hz
          subst hbufnil
          have hcd' : (if cd = 0 then v.LastModified else cd) = v.LastModified := if_pos hz
          rw [hcd'] at hC
          have ih := goGroupsLoop_uniform rest v.LastModified [v] hsort' hnz'
            (fun w hw => hheadle w hw)
            (by intro m hm; rcases List.mem_singleton.mp hm with rfl; rfl)
            (by simp) (fun h => absurd h hvnz)
          simp only [hcd', if_neg hC, List.nil_append]
          refine ⟨ih.1, ih.2.1, ?_⟩
          intro g hg
          rw [hz]
          exact Nat.zero_le _
        · have hcd' : (if cd = 0 then v.LastModified else cd) = cd := if_neg hz
          rw [hcd'] at hC
          have hle : v.LastModified ≤ cd := Nat.le_of_not_lt hC
          have hveq : v.LastModified = cd := Nat.le_antisymm hle (hge v (List.mem_cons_self v rest))
          have ih := goGroupsLoop_uniform rest cd (buf ++ [v]) hsort' hnz'
            (fun w hw => by rw [← hveq]; exact hheadle w hw)
            (by
              intro m hm
              rcases List.mem_append.mp hm with hmb | hms
              · exact hbuf m hmb
              · rcases List.mem_singleton.mp hms with rfl; exact hveq)
            (by simp) (fun h => absurd h hz)
          simp only [if_neg hC, hcd']
          exact ih

/-- When the download/stage loop of applyGitChanges succeeds, the staged
paths are the members' basename paths in order, and the final commitDate
is the last member's LastModified (the initial date when there is none). -/
theorem applyLoop_ok (env : IOEnv) :
    ∀ (objs : List S3VersionedObject) (fs : FS) (cd0 : Nat)
      (files0 staged0 : List String) (fs1 : FS) (cd : Nat) (files staged : List String),
      applyLoop env fs cd0 files0 staged0 objs = (fs1, Except.ok (cd, files, staged)) →
      staged = staged0 ++ objs.map (fun o => o.toBasenamePath) ∧
      (objs = [] → cd = cd0) ∧
      (∀ m, objs.getLast? = some m → cd = m.LastModified)
  | [], fs, cd0, files0, staged0, fs1, cd, files, staged => by
      intro h
      simp only [applyLoop, Prod.mk.injEq, Except.ok.injEq] at h
      refine ⟨?_, fun _ => ?_, fun m hm => by simp at hm⟩
      · rw [← h.2.2.2]; simp
      · exact h.2.1.symm
  | obj :: rest, fs, cd0, files0, staged0, fs1, cd, files, staged => by
      intro h
      simp only [applyLoop] at h
      rcases hdl : downloadFile env fs obj with ⟨fsa, derr⟩
      rw [hdl] at h
      cases derr with
      | some e => simp at h
      | none =>
          simp only at h
          cases hadd : env.addErr obj.toBasenamePath with
          | some e => rw [hadd] at h; simp at h
          | none =>
              rw [hadd] at h
              simp only at h
              have ih := applyLoop_ok env rest fsa obj.LastModified
                (files0 ++ [obj.toLocalPath]) (staged0 ++ [obj.toBasenamePath])
                fs1 cd files staged h
              refine ⟨?_, fun hc => by simp at hc, ?_⟩
              · rw [ih.1]
                simp
              · intro m hm
                cases rest with
                | nil =>
                    simp only [List.getLast?_singleton, Option.some.injEq] at hm
                    subst hm
                    exact ih.2.1 rfl
                | cons r rs =>
                    rw [List.getLast?_cons_cons] at hm
                    exact ih.2.2 m hm

/-- The pure facts applyGitChanges guarantees about a commit it creates
from a group of records. -/
def commitMatches (g : List S3VersionedObject) (c : Commit) : Prop :=
  c.staged = g.map (fun o => o.toBasenamePath) ∧
  c.msgDate = c.authorWhen ∧
  c.authorName = "s3-versions-to-git" ∧
  c.authorEmail = "ahughesalex@gmail.com" ∧
  (∀ m, g.getLast? = some m → c.authorWhen = m.LastModified) ∧
  (g = [] → c.authorWhen = 0)

/-- A successful applyGitChanges call satisfies commitMatches. -/
theorem applyGitChanges_ok (env : IOEnv) (fs : FS) (objects : List S3VersionedObject)
    (fs1 : FS) (c : Commit)
    (h : applyGitChanges env fs objects = (fs1, Except.ok c)) :
    commitMatches objects c := by
  simp only [applyGitChanges] at h
  rcases hal : applyLoop env fs 0 [] [] objects with ⟨fsa, res⟩
  rw [hal] at h
  cases res with
  | error e => simp at h
  | ok triple =>
      rcases triple with ⟨cd, files, staged⟩
      simp only at h
      cases hce : env.commitErr cd with
      | some e => rw [hce] at h; simp at h
      | none =>
          rw [hce] at h
          simp only at h
          cases hco : env.commitObjectErr cd with
          | some e => rw [hco] at h; simp at h
          | none =>
              rw [hco] at h
              simp only [Prod.mk.injEq] at h
              have hl := applyLoop_ok env objects fs 0 [] [] fsa cd files staged hal
              have hcdef := Except.ok.inj h.2
              subst hcdef
              refine ⟨by simpa using hl.1, rfl, rfl, rfl, ?_, ?_⟩
              · intro m hm
                exact hl.2.2 m hm
              · intro hnil
                exact hl.2.1 hnil

/-- Counting facts of changeset-by-changeset replay: without an error every
group was applied and produced a commit; with an error the attempted calls
are exactly the groups up to and including the failing one, which is one
more than the number of commits. -/
theorem replayFlushed_spec (env : IOEnv) :
    ∀ (gs : List (List S3VersionedObject)) (fs : FS),
      ((replayFlushed env fs gs).err = none →
        (replayFlushed env fs gs).calls = gs ∧
        (replayFlushed env fs gs).commits.length = gs.length) ∧
      (∀ e, (replayFlushed env fs gs).err = some e →
        (replayFlushed env fs gs).calls =
          gs.take ((replayFlushed env fs gs).commits.length + 1) ∧
        (replayFlushed env fs gs).commits.length + 1 ≤ gs.length ∧
        (replayFlushed env fs gs).calls.length =
          (replayFlushed env fs gs).commits.length + 1)
  | [], fs => by simp [replayFlushed]
  | g :: gs, fs => by
      simp only [replayFlushed]
      rcases hA : applyGitChanges env fs g with ⟨fs1, res⟩
      cases res with
      | error e => simp
      | ok c =>
          simp only
          have ih := replayFlushed_spec env gs fs1
          constructor
          · intro herr
            have := ih.1 herr
            simp [this.1, this.2]
          · intro e herr
            have hcur := ih.2 e herr
            have h21 := hcur.2.1
            refine ⟨?_, ?_, ?_⟩
            · simp only [List.length_cons, List.take_succ_cons]
              rw [hcur.1]
            · simp only [List.length_cons]
              omega
            · simp [hcur.2.2]

/-- Each produced commit matches the group it was created from: the commits
pair up with the successful prefix of the calls. -/
theorem replayFlushed_forall2 (env : IOEnv) :
    ∀ (gs : List (List S3VersionedObject)) (fs : FS),
      List.Forall₂ commitMatches
        ((replayFlushed env fs gs).calls.take (replayFlushed env fs gs).commits.length)
        (replayFlushed env fs gs).commits
  | [], fs => by simp [replayFlushed]
  | g :: gs, fs => by
      simp only [replayFlushed]
      rcases hA : applyGitChanges env fs g with ⟨fs1, res⟩
      cases res with
      | error e => simp
      | ok c =>
          simp only [List.length_cons, List.take_succ_cons]
          exact List.Forall₂.cons (applyGitChanges_ok env fs g fs1 c hA)
            (replayFlushed_forall2 env gs fs1)

/-- One entry of a ListObjectVersions response. -/
structure VersionInfo where
  Key : String
  VersionId : String
  LastModified : Nat
deriving DecidableEq, Repr

/-- Oracle for the two S3 listing calls. -/
structure ListEnv where
  /-- ListObjectsV2 for the bucket: the object keys, or the error. -/
  listObjects : Except String (List String)
  /-- ListObjectVersions for (bucket, prefix = key). -/
  listVersions : String → String → Except String (List VersionInfo)

/-- queryS3Bucket bucketName s3Client: single listing call; on failure the
error is reported and returned with a nil object list. -/
def queryS3Bucket (env : ListEnv) (bucketName : String) :
    Except String (List S3Object) :=
  match env.listObjects with
  | Except.error e => Except.error e
  | Except.ok keys => Except.ok (keys.map fun k => ⟨k, bucketName⟩)

/-- The version-collection loop of queryS3Versions: per-object listing
failures are logged and skipped (continue), every returned version becomes
an S3VersionedObject carrying repoPath as RepositoryRoot. -/
def collectVersions (env : ListEnv) (repoPath : String) :
    List S3Object → List S3VersionedObject
  | [] => []
  | obj :: rest =>
    (match env.listVersions obj.Bucket obj.Key with
     | Except.error _ => []
     | Except.ok vers =>
         vers.map fun v =>
           ⟨v.Key, obj.Bucket, v.VersionId, repoPath, v.LastModified⟩) ++
      collectVersions env repoPath rest

/-- queryS3Versions objects repoPath s3Client: collect all versions of all
objects (skipping failed objects), then sort.Slice by LastModified.Before.
The returned error is always nil, exactly as in the source. -/
def queryS3Versions (env : ListEnv) (objects : List S3Object) (repoPath : String) :
    Except String (List S3VersionedObject) :=
  Except.ok (sortSliceGo lessVR (collectVersions env repoPath objects))

/-! ### main (lines 247-315) -/

/-- The parsed command-line flags of main. -/
structure Flags where
  bucket : String
  output : String
  profile : String
  region : String
  help : Bool
deriving DecidableEq, Repr

/-- Observable side effects of a run of main, in program order. -/
inductive Ev where
  /-- help() printed the usage text. -/
  | helpPrinted
  /-- errorMessage(msg) was shown. -/
  | errReported (msg : String)
  /-- os.MkdirAll(repoPath, 0777) was invoked. -/
  | madeRepoDir (path : String)
  /-- git.PlainOpen(repoPath) was invoked. -/
  | openedRepo (path : String)
  /-- git.PlainInit(repoPath, false) was invoked. -/
  | initializedRepo (path : String)
  /-- an S3 client was requested from the AWS config. -/
  | s3ClientRequested
  /-- ListObjectsV2 was invoked for the bucket. -/
  | listObjectsCalled (bucket : String)
  /-- queryS3Versions ran over the given number of objects. -/
  | versionsQueried (numObjects : Nat)
  /-- replayS3Changes ran over the given number of version records. -/
  | replayCalled (numVersions : Nat)
deriving DecidableEq, Repr

/-- Oracle for the bootstrap effects of main. -/
structure MainEnv where
  /-- filepath.Abs("") used to default the output directory. -/
  cwdAbs : Except String String
  /-- os.Stat(repoPath): whether the path exists. -/
  pathExists : String → Bool
  /-- os.MkdirAll(repoPath, 0777) outcome. -/
  mkdirErr : String → Option String
  /-- git.PlainOpen(repoPath): whether an existing repository was opened. -/
  plainOpenOk : Bool
  /-- git.PlainInit(repoPath, false) outcome. -/
  plainInitErr : Option String
  /-- r.Worktree() outcome. -/
  worktreeErr : Option String
  /-- getS3Client outcome (configuration loading). -/
  clientErr : Option String
  /-- the S3 listing oracle. -/
  listEnv : ListEnv
  /-- the replay-side oracle. -/
  ioEnv : IOEnv
  /-- the filesystem at the start of the run. -/
  fs0 : FS

/-- main, from flag validation onward.  Returns the event trace and the
replay outcome (none when replay was never reached).  Faithful to the
source, including the slip at lines 308-309: the error returned by
queryS3Bucket is overwritten unchecked by the queryS3Versions call, so a
failed bucket listing still reaches sorting and replay with a nil object
list; the err != nil check at line 310 sees the always-nil error of
queryS3Versions. -/
def mainGo (flags : Flags) (env : MainEnv) : List Ev × Option ReplayResult :=
  if flags.help then ([Ev.helpPrinted], none)
  else if flags.bucket.length = 0 then
    ([Ev.helpPrinted, Ev.errReported "Error: Please provide an S3 bucket"], none)
  else
    match (if flags.output.length = 0 then env.cwdAbs else Except.ok flags.output) with
    | Except.error _ =>
        ([Ev.errReported "Error: Please provide an output directory"], none)
    | Except.ok output =>
      let repoPath := output ++ "/" ++ flags.bucket
      let mkdirOutcome : Except String (List Ev) :=
        if env.pathExists repoPath then Except.ok []
        else
          match env.mkdirErr repoPath with
          | some e => Except.error e
          | none => Except.ok [Ev.madeRepoDir repoPath]
      match mkdirOutcome with
      | Except.error e =>
          ([Ev.madeRepoDir repoPath, Ev.errReported e], none)
      | Except.ok evs0 =>
        let evs := evs0 ++ [Ev.openedRepo repoPath]
        let initOutcome : Except String (List Ev) :=
          if env.plainOpenOk then Except.ok evs
          else
            match env.plainInitErr with
            | some e => Except.error e
            | none => Except.ok (evs ++ [Ev.initializedRepo repoPath])
        match initOutcome with
        | Except.error e =>
            (evs ++ [Ev.initializedRepo repoPath, Ev.errReported e], none)
        | Except.ok evs =>
          match env.worktreeErr with
          | some e =>
              (evs ++ [Ev.errReported e], none)
          | none =>
            let evs := evs ++ [Ev.s3ClientRequested]
            match env.clientErr with
            | some e => (evs ++ [Ev.errReported e], none)
            | none =>
              let evs := evs ++ [Ev.listObjectsCalled flags.bucket]
              let rawObjects :=
                match queryS3Bucket env.listEnv flags.bucket with
                | Except.error _ => []
                | Except.ok objs => objs
              let evs :=
                match queryS3Bucket env.listEnv flags.bucket with
                | Except.error e => evs ++ [Ev.errReported e]
                | Except.ok _ => evs
              let evs := evs ++ [Ev.versionsQueried rawObjects.length]
              match queryS3Versions env.listEnv rawObjects output with
              | Except.error e =>
                  -- dead branch: queryS3Versions always returns ok
                  (evs ++ [Ev.errReported e], none)
              | Except.ok sortedVersions =>
                let evs := evs ++ [Ev.replayCalled sortedVersions.length]
                (evs, some (replayS3Changes env.ioEnv env.fs0 sortedVersions))

/-! ### Auxiliary list lemmas for the claim proofs -/

/-- Right components of a Forall₂ pairing are related to some left member. -/
theorem forall2_exists_left {γ δ : Type} {R : γ → δ → Prop} :
    ∀ {gs : List γ} {cs : List δ}, List.Forall₂ R gs cs →
      ∀ c ∈ cs, ∃ g ∈ gs, R g c := by
  intro gs cs h
  induction h with
  | nil => intro c hc; exact absurd hc (by simp)
  | cons hR _ ih =>
      intro c hc
      rcases List.mem_cons.mp hc with rfl | hc'
      · exact ⟨_, List.mem_cons_self _ _, hR⟩
      · rcases ih c hc' with ⟨g, hg, hgc⟩
        exact ⟨g, List.mem_cons_of_mem _ hg, hgc⟩

/-- Forall₂ can be strengthened using a fact that holds for the left
members. -/
theorem forall2_imp_mem {γ δ : Type} {R S : γ → δ → Prop} :
    ∀ {gs : List γ} {cs : List δ}, List.Forall₂ R gs cs →
      (∀ g ∈ gs, ∀ c, R g c → S g c) → List.Forall₂ S gs cs := by
  intro gs cs h
  induction h with
  | nil => intro _; exact List.Forall₂.nil
  | cons hR _ ih =>
      intro himp
      exact List.Forall₂.cons
        (himp _ (List.mem_cons_self _ _) _ hR)
        (ih fun g hg => himp g (List.mem_cons_of_mem _ hg))

/-- Under a Forall₂ pairing whose relation fixes a function of the right
component, mapping the right list equals mapping the left list. -/
theorem forall2_map_eq {γ δ : Type} {f : γ → Nat} {k : δ → Nat} :
    ∀ {gs : List γ} {cs : List δ}, List.Forall₂ (fun g c => k c = f g) gs cs →
      cs.map k = gs.map f := by
  intro gs cs h
  induction h with
  | nil => rfl
  | cons hR _ ih => simp [hR, ih]

/-- A version collected from a successfully listed object is present in the
merged output of the collection loop. -/
theorem collectVersions_mem (env : ListEnv) (repoPath : String) :
    ∀ (objects : List S3Object) (o : S3Object) (vs : List VersionInfo) (v : VersionInfo),
      o ∈ objects → env.listVersions o.Bucket o.Key = Except.ok vs → v ∈ vs →
      (⟨v.Key, o.Bucket, v.VersionId, repoPath, v.LastModified⟩ : S3VersionedObject) ∈
        collectVersions env repoPath objects
  | [], o, vs, v, ho, _, _ => absurd ho (by simp)
  | obj :: rest, o, vs, v, ho, hok, hv => by
      simp only [collectVersions]
      rcases List.mem_cons.mp ho with rfl | ho'
      · apply List.mem_append_left
        rw [hok]
        exact List.mem_map.mpr ⟨v, hv, rfl⟩
      · exact List.mem_append_right _ (collectVersions_mem env repoPath rest o vs v ho' hok hv)

/-- Every attempted call of changeset-by-changeset replay is one of the
given groups. -/
theorem replayFlushed_calls_mem (env : IOEnv) (fs : FS)
    (gs : List (List S3VersionedObject)) :
    ∀ g ∈ (replayFlushed env fs gs).calls, g ∈ gs := by
  rcases herr : (replayFlushed env fs gs).err with _ | e
  · have h := (replayFlushed_spec env gs fs).1 herr
    rw [h.1]
    exact fun g hg => hg
  · have h := (replayFlushed_spec env gs fs).2 e herr
    rw [h.1]
    exact fun g hg => List.mem_of_mem_take hg

/-- Date facts of changeset-by-changeset replay over non-empty uniform
groups with strictly increasing timestamps: every commit's message date
equals its author timestamp, the author timestamps strictly increase, and
each commit's timestamp is the common timestamp of its group. -/
theorem replayFlushed_dates (env : IOEnv) (fs : FS)
    (gs : List (List S3VersionedObject))
    (hne : ∀ g ∈ gs, g ≠ [])
    (huni : ∀ g ∈ gs, ∀ m ∈ g, m.LastModified = tsHead g)
    (hchain : List.Chain' (· < ·) (gs.map tsHead)) :
    (∀ c ∈ (replayFlushed env fs gs).commits, c.msgDate = c.authorWhen) ∧
    List.Chain' (· < ·)
      ((replayFlushed env fs gs).commits.map (fun c => c.authorWhen)) ∧
    List.Forall₂ (fun g c => ∀ m ∈ g, m.LastModified = c.authorWhen)
      ((replayFlushed env fs gs).calls.take (replayFlushed env fs gs).commits.length)
      (replayFlushed env fs gs).commits := by
  have hf2 := replayFlushed_forall2 env gs fs
  have hS : List.Forall₂
      (fun g c => (∀ m ∈ g, m.LastModified = c.authorWhen) ∧
        c.msgDate = c.authorWhen ∧ c.authorWhen = tsHead g)
      ((replayFlushed env fs gs).calls.take (replayFlushed env fs gs).commits.length)
      (replayFlushed env fs gs).commits := by
    refine forall2_imp_mem hf2 ?_
    intro g hg c hc
    have hgG : g ∈ gs :=
      replayFlushed_calls_mem env fs gs g (List.mem_of_mem_take hg)
    have hgne : g ≠ [] := hne g hgG
    have hm0 : g.getLast? = some (g.getLast hgne) := List.getLast?_eq_getLast g hgne
    have hm0mem : (g.getLast hgne) ∈ g := List.mem_of_getLast?_eq_some hm0
    have hwhen : c.authorWhen = tsHead g := by
      rw [hc.2.2.2.2.1 _ hm0, huni g hgG _ hm0mem]
    refine ⟨?_, hc.2.1, hwhen⟩
    intro m hm
    rw [hwhen]
    exact huni g hgG m hm
  refine ⟨?_, ?_, ?_⟩
  · intro c hc
    rcases forall2_exists_left hS c hc with ⟨g, _, hrel⟩
    exact hrel.2.1
  · have hmapeq : (replayFlushed env fs gs).commits.map (fun c => c.authorWhen) =
        ((replayFlushed env fs gs).calls.take
          (replayFlushed env fs gs).commits.length).map tsHead :=
      forall2_map_eq (List.Forall₂.imp (fun a b h => h.2.2) hS)
    have htake : ((replayFlushed env fs gs).calls.take
        (replayFlushed env fs gs).commits.length) =
        gs.take (replayFlushed env fs gs).commits.length := by
      rcases herr : (replayFlushed env fs gs).err with _ | e
      · rw [((replayFlushed_spec env gs fs).1 herr).1]
      · rw [((replayFlushed_spec env gs fs).2 e herr).1, List.take_take]
        congr 1
        omega
    rw [hmapeq, htake, List.map_take]
    exact List.Chain'.take hchain _
  · exact List.Forall₂.imp (fun a b h => h.1) hS

/-- Facts about the commits of changeset-by-changeset replay over
non-empty groups: every commit stages at least one path and takes its
timestamp from the last member of its group. -/
theorem replayFlushed_commits_facts (env : IOEnv) (fs : FS)
    (gs : List (List S3VersionedObject))
    (hne : ∀ g ∈ gs, g ≠ []) :
    ∀ c ∈ (replayFlushed env fs gs).commits,
      c.staged ≠ [] ∧ ∃ g ∈ gs, ∃ m ∈ g, c.authorWhen = m.LastModified := by
  intro c hc
  have hf2 := replayFlushed_forall2 env gs fs
  rcases forall2_exists_left hf2 c hc with ⟨g, hg, hrel⟩
  have hgG : g ∈ gs := replayFlushed_calls_mem env fs gs g (List.mem_of_mem_take hg)
  have hgne : g ≠ [] := hne g hgG
  have hm0 : g.getLast? = some (g.getLast hgne) := List.getLast?_eq_getLast g hgne
  have hm0mem : (g.getLast hgne) ∈ g := List.mem_of_getLast?_eq_some hm0
  refine ⟨?_, g, hgG, g.getLast hgne, hm0mem, hrel.2.2.2.2.1 _ hm0⟩
  rw [hrel.1]
  intro hmap
  exact hgne (List.map_eq_nil_iff.mp hmap)

/-! ### Claim fixtures: concrete oracles and records -/

/-- An IOEnv in which every external call succeeds and every fetched body
is empty. -/
def okIOEnv : IOEnv where
  getObjectErr := fun _ _ _ => none
  readAll := fun _ _ _ => ([], none)
  dirExists := fun _ => true
  mkdirErr := fun _ => none
  createErr := fun _ => none
  writeErr := fun _ => none
  addErr := fun _ => none
  commitErr := fun _ => none
  commitObjectErr := fun _ => none

/-- The empty filesystem. -/
def emptyFS : FS := fun _ => none

/-- a.txt modified at T1 = 1. -/
def recA1 : S3VersionedObject := ⟨"a.txt", "bkt", "va1", "/out", 1⟩

/-- b.txt modified at T1 = 1. -/
def recB1 : S3VersionedObject := ⟨"b.txt", "bkt", "vb1", "/out", 1⟩

/-- a.txt modified again at T2 = 2. -/
def recA2 : S3VersionedObject := ⟨"a.txt", "bkt", "va2", "/out", 2⟩

/-- A version record with timestamp ts and version id vid, used by the
sorting counterexample. -/
def cexVR (ts : Nat) (vid : String) : S3VersionedObject :=
  ⟨"k", "bkt", vid, "/out", ts⟩

/-- Thirteen records (so that sort.Slice leaves insertion-sort territory
and partitions) containing several timestamp ties. -/
def cexSortInput : List S3VersionedObject :=
  [cexVR 9 "v0", cexVR 8 "v1", cexVR 7 "v2", cexVR 6 "v3", cexVR 5 "v4",
   cexVR 9 "v5", cexVR 6 "v6", cexVR 8 "v7", cexVR 7 "v8", cexVR 6 "v9",
   cexVR 5 "v10", cexVR 9 "v11", cexVR 8 "v12"]

/-! ### The claims -/

/-- C1: the claim says the buffer remaining at end of input is flushed as a
final changeset, so a.txt@T1, b.txt@T1, a.txt@T2 yields 2 commits.  The
code has no flush after the loop (line 163): on this scenario, with every
external call succeeding, exactly one commit is created (a.txt@T1 +
b.txt@T1 with date T1); a.txt@T2 stays in the buffer and is never
committed. -/
theorem C1_scenario_yields_one_commit :
    (replayS3Changes okIOEnv emptyFS [recA1, recB1, recA2]).commits =
      [⟨1, "s3-versions-to-git", "ahughesalex@gmail.com", 1, ["a.txt", "b.txt"]⟩] ∧
    (replayS3Changes okIOEnv emptyFS [recA1, recB1, recA2]).commits.length = 1 ∧
    (replayS3Changes okIOEnv emptyFS [recA1, recB1, recA2]).calls = [[recA1, recB1]] ∧
    (replayS3Changes okIOEnv emptyFS [recA1, recB1, recA2]).err = none :=
  ⟨rfl, rfl, rfl, rfl⟩

/-- Listing oracle whose ListObjectsV2 call fails. -/
def cexListEnvC2 : ListEnv :=
  ⟨Except.error "ListObjectsV2 failed", fun _ _ => Except.ok []⟩

/-- A main-bootstrap oracle where everything except the bucket listing
succeeds. -/
def cexMainEnvC2 : MainEnv where
  cwdAbs := Except.ok "/cwd"
  pathExists := fun _ => true
  mkdirErr := fun _ => none
  plainOpenOk := true
  plainInitErr := none
  worktreeErr := none
  clientErr := none
  listEnv := cexListEnvC2
  ioEnv := okIOEnv
  fs0 := emptyFS

/-- C2: the claim says a failed object listing aborts the run before any
version listing, sorting or replay.  In the code the error returned by
queryS3Bucket is overwritten unchecked (line 308-309): the failure is
reported, but queryS3Versions, the sort and replayS3Changes all still run
on the nil object set, as the event trace shows. -/
theorem C2_listing_failure_not_fatal :
    (mainGo ⟨"bkt", "/out", "", "us-west-2", false⟩ cexMainEnvC2).1 =
      [Ev.openedRepo "/out/bkt", Ev.s3ClientRequested, Ev.listObjectsCalled "bkt",
       Ev.errReported "ListObjectsV2 failed", Ev.versionsQueried 0,
       Ev.replayCalled 0] ∧
    Ev.replayCalled 0 ∈ (mainGo ⟨"bkt", "/out", "", "us-west-2", false⟩ cexMainEnvC2).1 ∧
    ((mainGo ⟨"bkt", "/out", "", "us-west-2", false⟩ cexMainEnvC2).2.map
      (fun r => (r.commits, r.err))) = some ([], none) := by
  refine ⟨rfl, ?_, rfl⟩
  have h : (mainGo ⟨"bkt", "/out", "", "us-west-2", false⟩ cexMainEnvC2).1 =
      [Ev.openedRepo "/out/bkt", Ev.s3ClientRequested, Ev.listObjectsCalled "bkt",
       Ev.errReported "ListObjectsV2 failed", Ev.versionsQueried 0,
       Ev.replayCalled 0] := rfl
  rw [h]
  simp

/-- C3 counterexample: sort.Slice (pdqsort) is not stable.  In
cexSortInput the record v3 (timestamp 6) is enumerated before v6
(timestamp 6), but the sorted output places v6 before v3. -/
theorem C3_sort_slice_unstable :
    cexSortInput.indexOf (cexVR 6 "v3") < cexSortInput.indexOf (cexVR 6 "v6") ∧
    (cexVR 6 "v3").LastModified = (cexVR 6 "v6").LastModified ∧
    (sortSliceGo lessVR cexSortInput).indexOf (cexVR 6 "v6") <
      (sortSliceGo lessVR cexSortInput).indexOf (cexVR 6 "v3") :=
  ⟨by decide, rfl, by decide⟩

/-- C3 amended: for every input, the sorter returns a permutation of the
records ordered ascending (non-strictly) by LastModified, but the relative
order of records with equal timestamps is NOT the enumeration order in
general: sort.Slice is unstable, as the v6/v3 inversion shows. -/
theorem C3_sorter_permutes_ties_arbitrary :
    (∀ (l : List S3VersionedObject), (sortSliceGo lessVR l).Perm l) ∧
    (∀ (l : List S3VersionedObject),
      List.Pairwise (fun u w => u.LastModified ≤ w.LastModified)
        (sortSliceGo lessVR l)) ∧
    cexSortInput.indexOf (cexVR 6 "v3") < cexSortInput.indexOf (cexVR 6 "v6") ∧
    (sortSliceGo lessVR cexSortInput).indexOf (cexVR 6 "v6") <
      (sortSliceGo lessVR cexSortInput).indexOf (cexVR 6 "v3") :=
  ⟨fun l => sortSliceGo_perm lessVR l,
   fun l => sortSliceGo_pairwise (fun r => r.LastModified) l,
   by decide, by decide⟩

/-- First record of the C4 scenario, timestamp 1. -/
def recK1 : S3VersionedObject := ⟨"a.txt", "bkt", "k1", "/out", 1⟩

/-- Second record of the C4 scenario, distinct timestamp 2. -/
def recK2 : S3VersionedObject := ⟨"b.txt", "bkt", "k2", "/out", 2⟩

/-- C4: the claim says any two records with distinct timestamps land in
distinct changesets.  On input [recK1@1, recK2@2] the code flushes only
[recK1]: recK2 has a distinct, larger timestamp but lands in NO changeset
at all, because the final buffer is never flushed. -/
theorem C4_distinct_timestamp_lands_nowhere :
    (replayS3Changes okIOEnv emptyFS [recK1, recK2]).calls = [[recK1]] ∧
    (∀ g ∈ (replayS3Changes okIOEnv emptyFS [recK1, recK2]).calls, recK2 ∉ g) ∧
    recK1.LastModified ≠ recK2.LastModified ∧
    (replayS3Changes okIOEnv emptyFS [recK1, recK2]).err = none := by
  refine ⟨rfl, ?_, by decide, rfl⟩
  have h : (replayS3Changes okIOEnv emptyFS [recK1, recK2]).calls = [[recK1]] := rfl
  rw [h]
  intro g hg
  rcases List.mem_singleton.mp hg with rfl
  decide

/-- C5: every commit uses the last member's LastModified as both the
message-embedded date and the author timestamp (msgDate = authorWhen and
every member of the commit's changeset — the last one included — has that
timestamp), and across one run the author timestamps strictly increase
(hence are non-decreasing) and equal the grouping key of the changeset.
Hypotheses: the input is sorted (queryS3Versions sorts before replay) and
no record carries the Go zero time. -/
theorem C5_commit_dates (env : IOEnv) (fs : FS) (versions : List S3VersionedObject)
    (hsort : List.Pairwise (fun u w => u.LastModified ≤ w.LastModified) versions)
    (hnz : ∀ v ∈ versions, v.LastModified ≠ 0) :
    (∀ c ∈ (replayS3Changes env fs versions).commits, c.msgDate = c.authorWhen) ∧
    List.Chain' (· < ·)
      ((replayS3Changes env fs versions).commits.map (fun c => c.authorWhen)) ∧
    List.Forall₂ (fun g c => ∀ m ∈ g, m.LastModified = c.authorWhen)
      ((replayS3Changes env fs versions).calls.take
        (replayS3Changes env fs versions).commits.length)
      (replayS3Changes env fs versions).commits := by
  have hcor : replayS3Changes env fs versions =
      replayFlushed env fs (goGroupsLoop 0 [] versions).1 :=
    replayLoop_eq_flushed env versions fs 0 []
  have huni := goGroupsLoop_uniform versions 0 [] hsort hnz
    (fun v _ => Nat.zero_le _) (fun m hm => absurd hm (List.not_mem_nil m))
    (fun _ => rfl) (fun _ => rfl)
  have hne := goGroupsLoop_ne_nil versions 0 [] (fun _ => rfl)
  rw [hcor]
  exact replayFlushed_dates env fs _ hne huni.1 huni.2.1

/-- C5 witness: the sorted scenario a.txt@1, b.txt@1, a.txt@2 satisfies the
hypotheses and the conclusions. -/
theorem C5_commit_dates_witness :
    (List.Pairwise (fun u w => u.LastModified ≤ w.LastModified)
        [recA1, recB1, recA2] ∧
      (∀ v ∈ [recA1, recB1, recA2], v.LastModified ≠ 0)) ∧
    ((∀ c ∈ (replayS3Changes okIOEnv emptyFS [recA1, recB1, recA2]).commits,
        c.msgDate = c.authorWhen) ∧
      List.Chain' (· < ·)
        ((replayS3Changes okIOEnv emptyFS [recA1, recB1, recA2]).commits.map
          (fun c => c.authorWhen)) ∧
      List.Forall₂ (fun g c => ∀ m ∈ g, m.LastModified = c.authorWhen)
        ((replayS3Changes okIOEnv emptyFS [recA1, recB1, recA2]).calls.take
          (replayS3Changes okIOEnv emptyFS [recA1, recB1, recA2]).commits.length)
        (replayS3Changes okIOEnv emptyFS [recA1, recB1, recA2]).commits) :=
  ⟨⟨by decide, by decide⟩,
   C5_commit_dates okIOEnv emptyFS [recA1, recB1, recA2] (by decide) (by decide)⟩

/-- C6: if applying changeset K fails, the run aborts with the error: the
attempted changesets are exactly the first K flushed groups, the first
K-1 of them each produced a commit which remains in place, and no later
changeset was attempted. -/
theorem C6_failure_aborts_run (env : IOEnv) (fs : FS)
    (versions : List S3VersionedObject) (e : String)
    (herr : (replayS3Changes env fs versions).err = some e) :
    0 < (replayS3Changes env fs versions).calls.length ∧
    (replayS3Changes env fs versions).calls.length =
      (replayS3Changes env fs versions).commits.length + 1 ∧
    (replayS3Changes env fs versions).calls =
      (flushedGroups versions).take
        ((replayS3Changes env fs versions).commits.length + 1) ∧
    (replayS3Changes env fs versions).commits.length + 1 ≤
      (flushedGroups versions).length := by
  have hcor : replayS3Changes env fs versions =
      replayFlushed env fs (flushedGroups versions) :=
    replayLoop_eq_flushed env versions fs 0 []
  rw [hcor] at herr ⊢
  have h := (replayFlushed_spec env (flushedGroups versions) fs).2 e herr
  have h22 := h.2.2
  exact ⟨by omega, h.2.2, h.1, h.2.1⟩

/-- First record for the C6 witness, timestamp 1. -/
def recW1 : S3VersionedObject := ⟨"a.txt", "bkt", "w1", "/out", 1⟩

/-- Second record for the C6 witness, timestamp 2; staging it fails. -/
def recW2 : S3VersionedObject := ⟨"b.txt", "bkt", "w2", "/out", 2⟩

/-- Third record for the C6 witness, timestamp 3. -/
def recW3 : S3VersionedObject := ⟨"c.txt", "bkt", "w3", "/out", 3⟩

/-- An IOEnv in which staging b.txt fails and everything else succeeds. -/
def failIOEnvC6 : IOEnv :=
  { okIOEnv with
    addErr := fun p => if p = "b.txt" then some "staging b.txt failed" else none }

/-- C6 witness: changeset 2 of the run fails; changeset 1 produced its
commit, changeset 2 was attempted, and the leftover group of c.txt is
beyond the attempted prefix. -/
theorem C6_failure_aborts_run_witness :
    (replayS3Changes failIOEnvC6 emptyFS [recW1, recW2, recW3]).err =
      some "staging b.txt failed" ∧
    (0 < (replayS3Changes failIOEnvC6 emptyFS [recW1, recW2, recW3]).calls.length ∧
      (replayS3Changes failIOEnvC6 emptyFS [recW1, recW2, recW3]).calls.length =
        (replayS3Changes failIOEnvC6 emptyFS [recW1, recW2, recW3]).commits.length + 1 ∧
      (replayS3Changes failIOEnvC6 emptyFS [recW1, recW2, recW3]).calls =
        (flushedGroups [recW1, recW2, recW3]).take
          ((replayS3Changes failIOEnvC6 emptyFS
            [recW1, recW2, recW3]).commits.length + 1) ∧
      (replayS3Changes failIOEnvC6 emptyFS
          [recW1, recW2, recW3]).commits.length + 1 ≤
        (flushedGroups [recW1, recW2, recW3]).length) :=
  ⟨rfl, C6_failure_aborts_run failIOEnvC6 emptyFS [recW1, recW2, recW3]
    "staging b.txt failed" rfl⟩

/-- C7: a version-listing failure for one object is non-fatal: the lister
still returns ok (its error is always nil), and every version of any other,
successfully listed object is present in the merged sorted output. -/
theorem C7_per_object_listing_failure_isolated (env : ListEnv) (repoPath : String)
    (objects : List S3Object) (o other : S3Object) (e : String)
    (vs : List VersionInfo) (v : VersionInfo)
    (_ho : o ∈ objects) (_hfail : env.listVersions o.Bucket o.Key = Except.error e)
    (hother : other ∈ objects)
    (hok : env.listVersions other.Bucket other.Key = Except.ok vs) (hv : v ∈ vs) :
    ∃ out, queryS3Versions env objects repoPath = Except.ok out ∧
      (⟨v.Key, other.Bucket, v.VersionId, repoPath, v.LastModified⟩ :
        S3VersionedObject) ∈ out := by
  refine ⟨sortSliceGo lessVR (collectVersions env repoPath objects), rfl, ?_⟩
  have hmem := collectVersions_mem env repoPath objects other vs v hother hok hv
  exact ((sortSliceGo_perm lessVR _).mem_iff).mpr hmem

/-- Listing oracle for the C7 witness: listing versions of x fails, y
succeeds with one version. -/
def cexListEnvC7 : ListEnv :=
  ⟨Except.ok ["x", "y"],
   fun _ k =>
     if k = "x" then Except.error "ListObjectVersions failed"
     else Except.ok [⟨"y", "vy", 7⟩]⟩

/-- The failing object of the C7 witness. -/
def objX : S3Object := ⟨"x", "bkt"⟩

/-- The surviving object of the C7 witness. -/
def objY : S3Object := ⟨"y", "bkt"⟩

/-- C7 witness: with x failing and y succeeding, y's version is present in
the merged sorted sequence. -/
theorem C7_per_object_listing_failure_isolated_witness :
    (objX ∈ [objX, objY] ∧
      cexListEnvC7.listVersions objX.Bucket objX.Key =
        Except.error "ListObjectVersions failed" ∧
      objY ∈ [objX, objY] ∧
      cexListEnvC7.listVersions objY.Bucket objY.Key =
        Except.ok [⟨"y", "vy", 7⟩] ∧
      (⟨"y", "vy", 7⟩ : VersionInfo) ∈ [(⟨"y", "vy", 7⟩ : VersionInfo)]) ∧
    ∃ out, queryS3Versions cexListEnvC7 [objX, objY] "/out" = Except.ok out ∧
      (⟨"y", "bkt", "vy", "/out", 7⟩ : S3VersionedObject) ∈ out :=
  ⟨⟨by decide, rfl, by decide, rfl, by decide⟩,
   C7_per_object_listing_failure_isolated cexListEnvC7 "/out" [objX, objY]
     objX objY "ListObjectVersions failed" [⟨"y", "vy", 7⟩] ⟨"y", "vy", 7⟩
     (by decide) rfl (by decide) rfl (by decide)⟩

/-- An IOEnv in which reading the response body fails (yielding no bytes)
while every other call succeeds. -/
def cexIOEnvC8 : IOEnv :=
  { okIOEnv with readAll := fun _ _ _ => ([], some "read failed") }

/-- The record downloaded in the C8 counterexample. -/
def recC8 : S3VersionedObject := ⟨"f.txt", "bkt", "v1", "/out", 5⟩

/-- C8: the claim says downloadFile returns a non-nil error whenever
reading the response body fails, and writes exactly the fetched bytes.
In the code the io.ReadAll error is logged but not returned (lines
195-199): with a failing body read and a succeeding file write,
downloadFile returns nil and leaves the truncated (empty) file in place
instead of the object's content. -/
theorem C8_read_error_swallowed :
    (cexIOEnvC8.readAll recC8.Bucket recC8.Key recC8.VersionId).2 =
      some "read failed" ∧
    (downloadFile cexIOEnvC8 emptyFS recC8).2 = none ∧
    (downloadFile cexIOEnvC8 emptyFS recC8).1 recC8.toLocalPath = some [] :=
  ⟨rfl, rfl, rfl⟩

/-- C9: with the bucket flag empty (and help not requested), main prints
usage, reports the error, and performs no side effect: the whole event
trace is those two events, so no directory creation, repository
open/initialisation, client construction, storage call or replay occurs,
for every environment. -/
theorem C9_missing_bucket_no_side_effects (output profile region : String)
    (env : MainEnv) :
    mainGo ⟨"", output, profile, region, false⟩ env =
      ([Ev.helpPrinted, Ev.errReported "Error: Please provide an S3 bucket"],
        none) ∧
    (∀ p, Ev.madeRepoDir p ∉ (mainGo ⟨"", output, profile, region, false⟩ env).1 ∧
      Ev.openedRepo p ∉ (mainGo ⟨"", output, profile, region, false⟩ env).1 ∧
      Ev.initializedRepo p ∉ (mainGo ⟨"", output, profile, region, false⟩ env).1) ∧
    Ev.s3ClientRequested ∉ (mainGo ⟨"", output, profile, region, false⟩ env).1 ∧
    (∀ b, Ev.listObjectsCalled b ∉
      (mainGo ⟨"", output, profile, region, false⟩ env).1) ∧
    (∀ n, Ev.versionsQueried n ∉
        (mainGo ⟨"", output, profile, region, false⟩ env).1 ∧
      Ev.replayCalled n ∉ (mainGo ⟨"", output, profile, region, false⟩ env).1) := by
  have h : mainGo ⟨"", output, profile, region, false⟩ env =
      ([Ev.helpPrinted, Ev.errReported "Error: Please provide an S3 bucket"],
        none) := rfl
  refine ⟨h, ?_, ?_, ?_, ?_⟩ <;> simp [h]

/-- C10: applyGitChanges is only ever invoked on a non-empty buffer, so
every commit stages at least one file; and when (as for real S3 data) no
record carries the zero time, every commit's author timestamp is non-zero
and is the LastModified of an actual input record. -/
theorem C10_commit_builder_nonempty (env : IOEnv) (fs : FS)
    (versions : List S3VersionedObject) :
    (∀ g ∈ (replayS3Changes env fs versions).calls, g ≠ []) ∧
    (∀ c ∈ (replayS3Changes env fs versions).commits, c.staged ≠ []) ∧
    ((∀ v ∈ versions, v.LastModified ≠ 0) →
      ∀ c ∈ (replayS3Changes env fs versions).commits,
        c.authorWhen ≠ 0 ∧ ∃ m ∈ versions, m.LastModified = c.authorWhen) := by
  have hcor : replayS3Changes env fs versions =
      replayFlushed env fs (goGroupsLoop 0 [] versions).1 :=
    replayLoop_eq_flushed env versions fs 0 []
  have hne := goGroupsLoop_ne_nil versions 0 [] (fun _ => rfl)
  have hfacts := replayFlushed_commits_facts env fs _ hne
  have hmemver : ∀ (m : S3VersionedObject) (g : List S3VersionedObject),
      g ∈ (goGroupsLoop 0 [] versions).1 → m ∈ g → m ∈ versions := by
    intro m g hg hm
    have hfl := goGroupsLoop_flatten versions 0 []
    have hmf : m ∈ (goGroupsLoop 0 [] versions).1.flatten :=
      List.mem_flatten_of_mem hg hm
    have hma : m ∈ (goGroupsLoop 0 [] versions).1.flatten ++
        (goGroupsLoop 0 [] versions).2 := List.mem_append_left _ hmf
    rw [hfl] at hma
    simpa using hma
  rw [hcor]
  refine ⟨?_, ?_, ?_⟩
  · intro g hg
    exact hne g (replayFlushed_calls_mem env fs _ g hg)
  · intro c hc
    exact (hfacts c hc).1
  · intro hnz c hc
    rcases (hfacts c hc).2 with ⟨g, hg, m, hm, hwhen⟩
    have hmv : m ∈ versions := hmemver m g hg hm
    exact ⟨by rw [hwhen]; exact hnz m hmv, m, hmv, hwhen.symm⟩

/-- C10 witness: on the concrete scenario all records have non-zero
timestamps and the produced commits take their dates from actual
members. -/
theorem C10_commit_builder_nonempty_witness :
    (∀ v ∈ [recA1, recB1, recA2], v.LastModified ≠ 0) ∧
    (∀ c ∈ (replayS3Changes okIOEnv emptyFS [recA1, recB1, recA2]).commits,
      c.authorWhen ≠ 0 ∧
        ∃ m ∈ [recA1, recB1, recA2], m.LastModified = c.authorWhen) :=
  ⟨by decide,
   (C10_commit_builder_nonempty okIOEnv emptyFS [recA1, recB1, recA2]).2.2
     (by decide)⟩

end S3VG
